import Mathlib

/-
Verification of the match-three rules engine.

This file gives a shallow embedding of the core board-algebra of the
match-three game (tile classification, grid construction, match detection,
gravity, bomb chain propagation, wooden-obstacle damage, and the move
accounting of the swap/tap handlers), translated from the TypeScript
sources in src/lib/game-utils.ts, src/lib/constants.ts,
src/hooks/use-game-state.ts and the match-detection hook.

Conventions of the embedding:
* Tile positions (row, col) are integers, as in the source (refill spawns
  tiles at negative rows).  Grid indices used by the scanners are natural
  numbers, matching the source loops which only index with naturals.
* JavaScript array access `a[i]` is modelled with an Option-valued lookup
  where the source uses optional chaining (`grid[row]?.[col]`), and with a
  (-1)-defaulted lookup where the source indexes a rectangular grid
  directly (match scanning over tilesToGrid output, which is always a
  rows x cols rectangle).
* Tile ids are naturals (the source uses the strings "tile-<n>" drawn from
  a monotone counter, which is in bijection with the naturals).
* `Math.random()`-driven choices are modelled by an explicit stream
  `rng : Nat -> Nat` together with a counter; a draw from a list of
  length n takes the next stream value modulo n, which ranges over
  exactly the outcomes of `Math.floor(Math.random() * n)`.
-/

namespace MatchThree

/-! ## Constants (src/lib/constants.ts) -/

/-- Bomb type tag that clears an entire column. -/
def BOMB_VERTICAL : Int := 100

/-- Bomb type tag that clears an entire row. -/
def BOMB_HORIZONTAL : Int := 101

/-- Bomb type tag that clears a 5x5 area. -/
def BOMB_AREA : Int := 102

/-- Normal wooden obstacle tag. -/
def WOOD_NORMAL : Int := 200

/-- Broken wooden obstacle tag. -/
def WOOD_BROKEN : Int := 201

/-- Indestructible stone obstacle tag. -/
def STONE_TILE : Int := 300

/-- Per-tile travel delay step of directional bombs, in milliseconds
(ANIMATION.DIRECTIONAL_BOMB_TILE_HIT_STEP_MS). -/
def DIRECTIONAL_BOMB_TILE_HIT_STEP_MS : Nat := 70

/-! ## Tile classifiers (src/lib/game-utils.ts, lines 265-281) -/

/-- Check if a tile type is a bomb: `tileType >= 100 && tileType < 200`. -/
def isBomb (tileType : Int) : Bool :=
  decide (100 ≤ tileType) && decide (tileType < 200)

/-- Check if a tile type is a wooden tile:
`tileType === WOOD_NORMAL || tileType === WOOD_BROKEN`. -/
def isWoodenTile (tileType : Int) : Bool :=
  decide (tileType = WOOD_NORMAL) || decide (tileType = WOOD_BROKEN)

/-- Check if a tile type is a stone tile: `tileType === STONE_TILE`. -/
def isStoneTile (tileType : Int) : Bool :=
  decide (tileType = STONE_TILE)

/-! ## Data model (src/lib/types.ts) -/

/-- A board position. -/
structure Pos where
  row : Int
  col : Int
deriving DecidableEq, Repr

/-- A tile.  Only the fields the rules engine branches on are modelled;
the remaining fields of the source type (removalDelayMs, merge flags,
bombSpawn flags, baseType) only sequence animations and are never read
by the board algebra embedded here. -/
structure Tile where
  id : Nat
  type : Int
  row : Int
  col : Int
  isRemoving : Bool := false
  isNew : Bool := false
deriving DecidableEq, Repr

/-- Direction of a detected match. -/
inductive Dir where
  | horizontal
  | vertical
deriving DecidableEq, Repr

/-- Match information produced by the detector. -/
structure MatchInfo where
  positions : List Pos
  direction : Dir
  matchLength : Nat
  tileType : Int
  startRow : Int
  endRow : Int
  startCol : Int
  endCol : Int
deriving DecidableEq, Repr

/-! ## JavaScript-style array access -/

/-- Optional-chained array access `l[i]`, `undefined` modelled as `none`. -/
def jsGet {α : Type} (l : List α) (i : Nat) : Option α :=
  l.get? i

/-- Direct access into a rectangular grid row; out-of-range reads never
happen at the call sites that use this helper (the scanners stay inside
the rows x cols rectangle produced by tilesToGrid), and the -1 default is
the same sentinel the grid itself uses for empty cells. -/
def cellAt (grid : List (List Int)) (r c : Nat) : Int :=
  (grid.getD r []).getD c (-1)

/-! ## tilesToGrid (src/lib/game-utils.ts, lines 286-308) -/

/-- Convert a tiles array to a rows x cols grid of type tags, -1 for
empty.  Tiles that are out of bounds or mid-removal are skipped; later
tiles overwrite earlier ones at the same cell, as in the source's
forEach assignment order. -/
def tilesToGrid (tiles : List Tile) (rows cols : Nat) : List (List Int) :=
  tiles.foldl
    (fun g t =>
      if 0 ≤ t.row ∧ t.row < (rows : Int) ∧ 0 ≤ t.col ∧ t.col < (cols : Int)
          ∧ t.isRemoving = false then
        g.set t.row.toNat ((g.getD t.row.toNat []).set t.col.toNat t.type)
      else g)
    (List.replicate rows (List.replicate cols (-1)))

/-- Get the first non-removing tile at a position
(src/lib/game-utils.ts, lines 313-319). -/
def getTileAt (tiles : List Tile) (row col : Int) : Option Tile :=
  tiles.find? (fun t =>
    decide (t.row = row) && decide (t.col = col) && !t.isRemoving)

/-! ## wouldCreateMatch (src/lib/game-utils.ts, lines 325-350) -/

/-- Simple placement check used during raster-order initialization: does
placing `tileType` at (row, col) close a 3-run with the two cells to the
left or the two cells above?  `grid[row]?.[col-1] === tileType` is
modelled as the Option-valued lookup being `some tileType`. -/
def wouldCreateMatch (grid : List (List Int)) (row col : Nat)
    (tileType : Int) : Bool :=
  (decide (2 ≤ col) &&
    ((jsGet grid row).bind (fun r => jsGet r (col - 1)) == some tileType) &&
    ((jsGet grid row).bind (fun r => jsGet r (col - 2)) == some tileType)) ||
  (decide (2 ≤ row) &&
    ((jsGet grid (row - 1)).bind (fun r => jsGet r col) == some tileType) &&
    ((jsGet grid (row - 2)).bind (fun r => jsGet r col) == some tileType))

/-! ## wouldCreateMatchComplete (src/lib/game-utils.ts, lines 356-424) -/

/-- Bounds-checked tile read used by the complete placement check:
out-of-range cells read as -1. -/
def getTileClamped (grid : List (List Int)) (rows cols : Nat) (r c : Nat) :
    Int :=
  if r < rows ∧ c < cols then
    ((jsGet grid r).bind (fun row => jsGet row c)).getD (-1)
  else (-1)

/-- Complete placement check: all six neighbor-pair patterns around
(row, col), horizontally and vertically, with `rows = grid.length` and
`cols = grid[0]?.length || 0`. -/
def wouldCreateMatchComplete (grid : List (List Int)) (row col : Nat)
    (tileType : Int) : Bool :=
  let rows := grid.length
  let cols := (grid.headD []).length
  let getTile := getTileClamped grid rows cols
  -- horizontal [X][X][new]
  (decide (2 ≤ col) &&
    (getTile row (col - 1) == tileType) && (getTile row (col - 2) == tileType)
    && !(getTile row (col - 1) == (-1))) ||
  -- horizontal [X][new][X]
  (decide (1 ≤ col) && decide (col + 1 < cols) &&
    (getTile row (col - 1) == tileType) && (getTile row (col + 1) == tileType)
    && !(getTile row (col - 1) == (-1))) ||
  -- horizontal [new][X][X]
  (decide (col + 2 < cols) &&
    (getTile row (col + 1) == tileType) && (getTile row (col + 2) == tileType)
    && !(getTile row (col + 1) == (-1))) ||
  -- vertical [X][X][new]
  (decide (2 ≤ row) &&
    (getTile (row - 1) col == tileType) && (getTile (row - 2) col == tileType)
    && !(getTile (row - 1) col == (-1))) ||
  -- vertical [X][new][X]
  (decide (1 ≤ row) && decide (row + 1 < rows) &&
    (getTile (row - 1) col == tileType) && (getTile (row + 1) col == tileType)
    && !(getTile (row - 1) col == (-1))) ||
  -- vertical [new][X][X]
  (decide (row + 2 < rows) &&
    (getTile (row + 1) col == tileType) && (getTile (row + 2) col == tileType)
    && !(getTile (row + 1) col == (-1)))

/-! ## findMatches (use-match-detection hook, lines 14-112)

The source runs two structurally identical run-length scans, one per row
(horizontal) and one per column (vertical); the common loop body is
factored into `scanAux` below, instantiated with the row cells or the
column cells and with the corresponding MatchInfo constructor. -/

/-- Run continuation / emission predicate of the scanner:
`currentType >= 0 && !isBomb(currentType) && !isWoodenTile(currentType)`.
Note stone tiles are NOT excluded by this predicate. -/
def matchableType (t : Int) : Bool :=
  decide (0 ≤ t) && !isBomb t && !isWoodenTile t

/-- MatchInfo of a horizontal run of `count` cells starting at column
`startCol` of `row`. -/
def mkHMatch (row startCol count : Nat) (t : Int) : MatchInfo :=
  { positions := (List.range count).map
      (fun i => ⟨(row : Int), ((startCol + i : Nat) : Int)⟩)
    direction := Dir.horizontal
    matchLength := count
    tileType := t
    startRow := (row : Int), endRow := (row : Int)
    startCol := (startCol : Int), endCol := ((startCol + count - 1 : Nat) : Int) }

/-- MatchInfo of a vertical run of `count` cells starting at row
`startRow` of `col`. -/
def mkVMatch (col startRow count : Nat) (t : Int) : MatchInfo :=
  { positions := (List.range count).map
      (fun i => ⟨((startRow + i : Nat) : Int), (col : Int)⟩)
    direction := Dir.vertical
    matchLength := count
    tileType := t
    startRow := (startRow : Int), endRow := ((startRow + count - 1 : Nat) : Int)
    startCol := (col : Int), endCol := (col : Int) }

/-- One lane of the run-length scan.  `cells` reads the lane, `len` is
the lane length, `l` is the remaining list of loop indices (the source
loops `for (i = 1; i <= len; i++)`, reading -1 past the end to force the
final run to close), and `(count, currentType, startIdx)` is the scan
state.  Runs of length >= 3 of a matchable type are emitted in order. -/
def scanAux (cells : Nat → Int) (len : Nat) (emit : Nat → Nat → Int → MatchInfo) :
    List Nat → Nat → Int → Nat → List MatchInfo → List MatchInfo
  | [], _, _, _, acc => acc
  | i :: rest, count, currentType, startIdx, acc =>
    let cellType : Int := if i < len then cells i else -1
    if (cellType == currentType) && matchableType currentType then
      scanAux cells len emit rest (count + 1) currentType startIdx acc
    else
      let acc2 := if decide (3 ≤ count) && matchableType currentType then
          acc ++ [emit startIdx count currentType] else acc
      scanAux cells len emit rest 1 cellType i acc2

/-- Find all matches: horizontal pass over each row, then vertical pass
over each column, accumulating MatchInfos in source order.  Overlapping
horizontal/vertical matches are intentionally both reported. -/
def findMatches (tiles : List Tile) (rows cols : Nat) : List MatchInfo :=
  let grid := tilesToGrid tiles rows cols
  let hMatches := (List.range rows).foldl
    (fun acc row =>
      scanAux (fun c => cellAt grid row c) cols (mkHMatch row)
        (List.range' 1 cols) 1 (cellAt grid row 0) 0 acc) []
  (List.range cols).foldl
    (fun acc col =>
      scanAux (fun r => cellAt grid r col) rows (mkVMatch col)
        (List.range' 1 rows) 1 (cellAt grid 0 col) 0 acc) hMatches

/-! ## Grid lemmas -/

/-- A tile occupies the in-bounds cell (r, c): it is live (not
mid-removal) and sits at that position. -/
def occupiesCell (t : Tile) (rows cols r c : Nat) : Prop :=
  t.isRemoving = false ∧ t.row = (r : Int) ∧ t.col = (c : Int) ∧
    r < rows ∧ c < cols

instance (t : Tile) (rows cols r c : Nat) :
    Decidable (occupiesCell t rows cols r c) := by
  unfold occupiesCell; infer_instance

/-- At most one live tile occupies any cell. -/
def OneTilePerCell (tiles : List Tile) : Prop :=
  ∀ t1 ∈ tiles, ∀ t2 ∈ tiles, t1.isRemoving = false → t2.isRemoving = false →
    t1.row = t2.row → t1.col = t2.col → t1 = t2

/-- The per-tile accumulator step of tilesToGrid. -/
def gridStep (rows cols : Nat) (g : List (List Int)) (t : Tile) :
    List (List Int) :=
  if 0 ≤ t.row ∧ t.row < (rows : Int) ∧ 0 ≤ t.col ∧ t.col < (cols : Int)
      ∧ t.isRemoving = false then
    g.set t.row.toNat ((g.getD t.row.toNat []).set t.col.toNat t.type)
  else g

theorem tilesToGrid_eq_foldl (tiles : List Tile) (rows cols : Nat) :
    tilesToGrid tiles rows cols =
      tiles.foldl (gridStep rows cols)
        (List.replicate rows (List.replicate cols (-1))) := rfl

/-- Shape invariant: rows rows of cols cells each. -/
def GridShape (g : List (List Int)) (rows cols : Nat) : Prop :=
  g.length = rows ∧ ∀ r ∈ g, r.length = cols

theorem gridShape_replicate (rows cols : Nat) :
    GridShape (List.replicate rows (List.replicate cols (-1))) rows cols := by
  constructor
  · simp
  · intro r hr
    rw [List.eq_of_mem_replicate hr]
    simp

theorem gridShape_set (g : List (List Int)) (rows cols i : Nat)
    (row : List Int) (hg : GridShape g rows cols) (hrow : row.length = cols) :
    GridShape (g.set i row) rows cols := by
  refine ⟨by simp [hg.1], ?_⟩
  intro r hr
  rcases List.mem_or_eq_of_mem_set hr with h | h
  · exact hg.2 r h
  · rw [h]; exact hrow

theorem gridShape_gridStep (g : List (List Int)) (rows cols : Nat) (t : Tile)
    (hg : GridShape g rows cols) : GridShape (gridStep rows cols g t) rows cols := by
  unfold gridStep
  split
  · next h =>
    apply gridShape_set g rows cols _ _ hg
    rw [List.length_set]
    have hlt : t.row.toNat < g.length := by
      rw [hg.1]; omega
    have : (g.getD t.row.toNat []).length = cols := by
      rw [List.getD_eq_getElem?_getD]
      rw [List.getElem?_eq_getElem hlt]
      exact hg.2 _ (List.getElem_mem hlt)
    rw [this]
  · exact hg

theorem cellAt_replicate (rows cols r c : Nat) :
    cellAt (List.replicate rows (List.replicate cols (-1))) r c = -1 := by
  unfold cellAt
  simp only [List.getD_eq_getElem?_getD, List.getElem?_replicate]
  by_cases h : r < rows
  · rw [if_pos h]
    simp only [Option.getD_some, List.getElem?_replicate]
    by_cases h2 : c < cols
    · rw [if_pos h2]
      rfl
    · rw [if_neg h2]
      rfl
  · rw [if_neg h]
    rfl

theorem cellAt_gridStep (g : List (List Int)) (rows cols : Nat) (t : Tile)
    (r c : Nat) (hg : GridShape g rows cols) :
    cellAt (gridStep rows cols g t) r c =
      if occupiesCell t rows cols r c then t.type else cellAt g r c := by
  unfold gridStep occupiesCell
  split
  · next hcond =>
    obtain ⟨h0r, hrr, h0c, hcc, hrem⟩ := hcond
    have hrnat : t.row.toNat < rows := by omega
    have hcnat : t.col.toNat < cols := by omega
    have hglen : g.length = rows := hg.1
    have hrowlen : (g[t.row.toNat]?.getD []).length = cols := by
      rw [List.getElem?_eq_getElem (by omega : t.row.toNat < g.length)]
      simp only [Option.getD_some]
      exact hg.2 _ (List.getElem_mem _)
    unfold cellAt
    simp only [List.getD_eq_getElem?_getD]
    by_cases hr : t.row.toNat = r
    · by_cases hc : t.col.toNat = c
      · rw [if_pos ⟨hrem, by omega, by omega, by omega, by omega⟩]
        subst hr; subst hc
        rw [List.getElem?_set_self (by omega : t.row.toNat < g.length)]
        simp only [Option.getD_some]
        rw [List.getElem?_set_self (by rw [hrowlen]; omega)]
        rfl
      · rw [if_neg (by intro hocc; exact hc (by omega))]
        subst hr
        rw [List.getElem?_set_self (by omega : t.row.toNat < g.length)]
        simp only [Option.getD_some]
        rw [List.getElem?_set_ne hc]
    · rw [if_neg (by intro hocc; exact hr (by omega))]
      rw [List.getElem?_set_ne hr]
  · next hcond =>
    rw [if_neg]
    intro ⟨hrem, hrow, hcol, hr, hc⟩
    exact hcond ⟨by omega, by omega, by omega, by omega, hrem⟩

theorem cellAt_foldl_of_none (ts : List Tile) (rows cols r c : Nat) :
    ∀ g, GridShape g rows cols →
    (∀ t ∈ ts, ¬ occupiesCell t rows cols r c) →
    cellAt (ts.foldl (gridStep rows cols) g) r c = cellAt g r c := by
  induction ts with
  | nil => intro g _ _; rfl
  | cons hd tl ih =>
    intro g hg hnone
    rw [List.foldl_cons]
    rw [ih _ (gridShape_gridStep _ _ _ _ hg)
      (fun t ht => hnone t (List.mem_cons_of_mem _ ht))]
    rw [cellAt_gridStep _ _ _ _ _ _ hg,
      if_neg (hnone hd (List.mem_cons_self _ _))]

theorem cellAt_foldl_of_occ (ts : List Tile) (rows cols r c : Nat) (τ : Int) :
    ∀ g, GridShape g rows cols →
    (∃ t ∈ ts, occupiesCell t rows cols r c) →
    (∀ t ∈ ts, occupiesCell t rows cols r c → t.type = τ) →
    cellAt (ts.foldl (gridStep rows cols) g) r c = τ := by
  induction ts with
  | nil => intro g _ hex _; exact absurd hex (by simp)
  | cons hd tl ih =>
    intro g hg hex hall
    rw [List.foldl_cons]
    by_cases htl : ∃ t ∈ tl, occupiesCell t rows cols r c
    · exact ih _ (gridShape_gridStep _ _ _ _ hg) htl
        (fun t ht => hall t (List.mem_cons_of_mem _ ht))
    · have hhd : occupiesCell hd rows cols r c := by
        rcases hex with ⟨t, ht, hocc⟩
        rcases List.mem_cons.mp ht with h | h
        · rwa [← h]
        · exact absurd ⟨t, h, hocc⟩ htl
      rw [cellAt_foldl_of_none tl rows cols r c _
        (gridShape_gridStep _ _ _ _ hg) (fun t ht hocc => htl ⟨t, ht, hocc⟩)]
      rw [cellAt_gridStep _ _ _ _ _ _ hg, if_pos hhd]
      exact hall hd (List.mem_cons_self _ _) hhd

/-- Grid cell of a cell no live tile occupies: -1. -/
theorem cellAt_tilesToGrid_none (tiles : List Tile) (rows cols r c : Nat)
    (h : ∀ t ∈ tiles, ¬ occupiesCell t rows cols r c) :
    cellAt (tilesToGrid tiles rows cols) r c = -1 := by
  rw [tilesToGrid_eq_foldl,
    cellAt_foldl_of_none tiles rows cols r c _ (gridShape_replicate rows cols) h]
  exact cellAt_replicate rows cols r c

/-- Grid cell of an occupied cell, when every occupant has type τ. -/
theorem cellAt_tilesToGrid_occ (tiles : List Tile) (rows cols r c : Nat)
    (τ : Int) (hex : ∃ t ∈ tiles, occupiesCell t rows cols r c)
    (hall : ∀ t ∈ tiles, occupiesCell t rows cols r c → t.type = τ) :
    cellAt (tilesToGrid tiles rows cols) r c = τ := by
  rw [tilesToGrid_eq_foldl]
  exact cellAt_foldl_of_occ tiles rows cols r c τ _
    (gridShape_replicate rows cols) hex hall

/-! ## Scanner characterization -/

/-- A reported run of the scanner on a lane: `n >= 3` consecutive cells
of the matchable type `t` starting at index `s`, maximal on both sides
(the cell before and the cell after, when inside the lane, differ from
`t`). -/
def GoodScan (cells : Nat → Int) (len : Nat)
    (emit : Nat → Nat → Int → MatchInfo) (m : MatchInfo) : Prop :=
  ∃ s n t, m = emit s n t ∧ 3 ≤ n ∧ s + n ≤ len ∧
    matchableType t = true ∧
    (∀ j, j < n → cells (s + j) = t) ∧
    (s = 0 ∨ cells (s - 1) ≠ t) ∧
    (s + n = len ∨ cells (s + n) ≠ t)

theorem matchableType_neg_one : matchableType (-1) = false := by
  unfold matchableType
  simp

theorem scanAux_sound (cells : Nat → Int) (len : Nat)
    (emit : Nat → Nat → Int → MatchInfo) :
    ∀ (N k count : Nat) (currentType : Int) (startIdx : Nat)
      (acc : List MatchInfo),
    N = len + 1 - k →
    1 ≤ k → k ≤ len + 1 →
    startIdx + count = k → 1 ≤ count →
    (matchableType currentType = true →
      ∀ j, startIdx ≤ j → j < k → cells j = currentType) →
    (matchableType currentType = false → count = 1) →
    (matchableType currentType = false → startIdx < len →
      currentType = cells startIdx) →
    (matchableType currentType = true →
      startIdx = 0 ∨ cells (startIdx - 1) ≠ currentType) →
    ∀ m ∈ scanAux cells len emit (List.range' k N) count currentType startIdx acc,
      m ∈ acc ∨ GoodScan cells len emit m := by
  intro N
  induction N with
  | zero =>
    intro k count currentType startIdx acc _ _ _ _ _ _ _ _ _ m hm
    exact Or.inl hm
  | succ n ih =>
    intro k count currentType startIdx acc hN hk1 hklen hst hcount hrun hone
      hcur hlb m hm
    have hkle : k ≤ len := by omega
    rw [List.range'_succ] at hm
    rw [scanAux] at hm
    simp only [] at hm
    by_cases hcont :
        (((if k < len then cells k else -1) == currentType) &&
          matchableType currentType) = true
    · rw [if_pos hcont] at hm
      have hmt : matchableType currentType = true :=
        (Bool.and_eq_true _ _ |>.mp hcont).2
      have hceq : (if k < len then cells k else -1) = currentType :=
        beq_iff_eq.mp (Bool.and_eq_true _ _ |>.mp hcont).1
      have hklt : k < len := by
        by_contra hnk
        rw [if_neg hnk] at hceq
        rw [← hceq] at hmt
        rw [matchableType_neg_one] at hmt
        exact Bool.false_ne_true hmt
      rw [if_pos hklt] at hceq
      refine ih (k + 1) (count + 1) currentType startIdx acc
        (by omega) (by omega) (by omega) (by omega) (by omega)
        ?_ ?_ ?_ hlb m hm
      · intro _ j hj1 hj2
        rcases Nat.lt_or_ge j k with h | h
        · exact hrun hmt j hj1 h
        · have : j = k := by omega
          rw [this, hceq]
      · intro hmf; rw [hmf] at hmt; exact absurd hmt Bool.false_ne_true
      · intro hmf; rw [hmf] at hmt; exact absurd hmt Bool.false_ne_true
    · rw [if_neg hcont] at hm
      have hnotcont : ¬ ((if k < len then cells k else -1) = currentType ∧
          matchableType currentType = true) := by
        intro h
        exact hcont (by rw [Bool.and_eq_true, beq_iff_eq]; exact h)
      -- anything emitted right now is a good run
      have hgood : ∀ m' ∈ (if (decide (3 ≤ count) && matchableType currentType) = true
          then acc ++ [emit startIdx count currentType] else acc),
          m' ∈ acc ∨ GoodScan cells len emit m' := by
        split
        · next hem =>
          have hc3 : 3 ≤ count := by
            have := (Bool.and_eq_true _ _ |>.mp hem).1
            exact of_decide_eq_true this
          have hmt : matchableType currentType = true :=
            (Bool.and_eq_true _ _ |>.mp hem).2
          intro m' hm'
          rcases List.mem_append.mp hm' with h | h
          · exact Or.inl h
          · have hm'eq : m' = emit startIdx count currentType :=
              List.mem_singleton.mp h
            refine Or.inr ⟨startIdx, count, currentType, hm'eq, hc3, by omega,
              hmt, ?_, ?_, ?_⟩
            · intro j hj
              exact hrun hmt (startIdx + j) (by omega) (by omega)
            · rcases hlb hmt with h0 | hne
              · exact Or.inl h0
              · exact Or.inr hne
            · rcases Nat.lt_or_ge (startIdx + count) len with h | h
              · refine Or.inr ?_
                have hklt : k < len := by omega
                intro habs
                apply hnotcont
                rw [if_pos hklt]
                exact ⟨by rw [show k = startIdx + count by omega]; exact habs,
                  hmt⟩
              · exact Or.inl (by omega)
        · intro m' hm'
          exact Or.inl hm'
      have hnext := ih (k + 1) 1 (if k < len then cells k else -1) k _
        (by omega) (by omega) (by omega) (by omega) (by omega)
        ?_ (fun _ => rfl) ?_ ?_ m hm
      · rcases hnext with h | h
        · exact hgood m h
        · exact Or.inr h
      · -- run fact for the restarted run
        intro hmt2 j hj1 hj2
        have hjk : j = k := by omega
        have hklt : k < len := by
          by_contra hnk
          rw [if_neg hnk] at hmt2
          rw [matchableType_neg_one] at hmt2
          exact Bool.false_ne_true hmt2
        rw [hjk, if_pos hklt]
      · -- the restarted current cell value
        intro _ hklt
        rw [if_pos hklt]
      · -- left boundary of the restarted run
        intro hmt2
        have hklt : k < len := by
          by_contra hnk
          rw [if_neg hnk] at hmt2
          rw [matchableType_neg_one] at hmt2
          exact Bool.false_ne_true hmt2
        rw [if_pos hklt] at hmt2 ⊢
        refine Or.inr ?_
        intro habs
        by_cases hmold : matchableType currentType = true
        · have hsk : startIdx ≤ k - 1 := by omega
          have hck : cells (k - 1) = currentType :=
            hrun hmold (k - 1) hsk (by omega)
          apply hnotcont
          rw [if_pos hklt]
          refine ⟨?_, hmold⟩
          rw [← hck, habs]
        · have hm1 : count = 1 := hone (Bool.not_eq_true _ |>.mp hmold)
          have hsk : startIdx = k - 1 := by omega
          have hcur2 : currentType = cells (k - 1) := by
            rw [← hsk]
            exact hcur (Bool.not_eq_true _ |>.mp hmold) (by omega)
          rw [habs] at hcur2
          rw [← hcur2] at hmt2
          rw [hmt2] at hmold
          exact hmold rfl

/-- Memberwise decomposition of the fold of lane scans: each element of
the result was in the seed accumulator or was produced by one lane. -/
theorem foldl_scan_mem {P : Nat → MatchInfo → Prop} :
    ∀ (idxs : List Nat) (g : List MatchInfo → Nat → List MatchInfo)
      (acc : List MatchInfo),
    (∀ i ∈ idxs, ∀ a, ∀ m ∈ g a i, m ∈ a ∨ P i m) →
    ∀ m ∈ idxs.foldl g acc, m ∈ acc ∨ ∃ i ∈ idxs, P i m := by
  intro idxs
  induction idxs with
  | nil => intro g acc _ m hm; exact Or.inl hm
  | cons hd tl ih =>
    intro g acc hg m hm
    rw [List.foldl_cons] at hm
    rcases ih g (g acc hd) (fun i hi => hg i (List.mem_cons_of_mem _ hi))
        m hm with h | ⟨i, hi, hp⟩
    · rcases hg hd (List.mem_cons_self _ _) acc m h with h2 | h2
      · exact Or.inl h2
      · exact Or.inr ⟨hd, List.mem_cons_self _ _, h2⟩
    · exact Or.inr ⟨i, List.mem_cons_of_mem _ hi, hp⟩

/-- A full lane scan as run by findMatches: indices 1..len, initial
state reading cell 0. -/
theorem scan_lane_sound (cells : Nat → Int) (len : Nat)
    (emit : Nat → Nat → Int → MatchInfo) (acc : List MatchInfo) :
    ∀ m ∈ scanAux cells len emit (List.range' 1 len) 1 (cells 0) 0 acc,
      m ∈ acc ∨ GoodScan cells len emit m := by
  refine scanAux_sound cells len emit len 1 1 (cells 0) 0 acc
    (by omega) (by omega) (by omega) (by omega) (by omega)
    ?_ (fun _ => rfl) ?_ (fun _ => Or.inl rfl)
  · intro _ j hj1 hj2
    have : j = 0 := by omega
    rw [this]
  · intro _ _
    rfl

/-- Good matches of a board: every reported MatchInfo is a maximal
horizontal or vertical run of >= 3 equal matchable cells of the grid. -/
def GoodMatch (grid : List (List Int)) (rows cols : Nat) (m : MatchInfo) :
    Prop :=
  (∃ row, row < rows ∧
    GoodScan (fun c => cellAt grid row c) cols (mkHMatch row) m) ∨
  (∃ col, col < cols ∧
    GoodScan (fun r => cellAt grid r col) rows (mkVMatch col) m)

/-- Soundness of findMatches: every reported match is a good run of the
board's grid. -/
theorem findMatches_sound (tiles : List Tile) (rows cols : Nat) :
    ∀ m ∈ findMatches tiles rows cols,
      GoodMatch (tilesToGrid tiles rows cols) rows cols m := by
  unfold findMatches
  intro m hm
  simp only [] at hm
  have hv := foldl_scan_mem (P := fun col m =>
      GoodScan (fun r => cellAt (tilesToGrid tiles rows cols) r col) rows
        (mkVMatch col) m)
    (List.range cols) _ _
    (fun col _ a m' hm' => scan_lane_sound _ rows (mkVMatch col) a m' hm')
    m hm
  rcases hv with hh | ⟨col, hcol, hg⟩
  · have hh2 := foldl_scan_mem (P := fun row m =>
        GoodScan (fun c => cellAt (tilesToGrid tiles rows cols) row c) cols
          (mkHMatch row) m)
      (List.range rows) _ _
      (fun row _ a m' hm' => scan_lane_sound _ cols (mkHMatch row) a m' hm')
      m hh
    rcases hh2 with habs | ⟨row, hrow, hg⟩
    · exact absurd habs (List.not_mem_nil m)
    · exact Or.inl ⟨row, List.mem_range.mp hrow, hg⟩
  · exact Or.inr ⟨col, List.mem_range.mp hcol, hg⟩

/-! ## C2: every reported match is a maximal run -/

/-- A row of three stone tiles: the scanner, which filters bombs and
wooden tiles but not stone tiles, reports these as a match. -/
def stoneRowTiles : List Tile :=
  [⟨0, 300, 0, 0, false, false⟩, ⟨1, 300, 0, 1, false, false⟩,
   ⟨2, 300, 0, 2, false, false⟩]

/-- C2 counterexample: on a 1x3 board holding three stone tiles in a
row, findMatches returns a match every position of which is occupied by
a stone tile, refuting the claim that no match position holds a stone
tile (equivalently, that a run closes when it reaches a stone tile). -/
theorem findMatches_stone_run_counterexample :
    findMatches stoneRowTiles 1 3 = [mkHMatch 0 0 3 300] ∧
    ∀ p ∈ (mkHMatch 0 0 3 300).positions,
      ∃ t, getTileAt stoneRowTiles p.row p.col = some t ∧
        isStoneTile t.type = true := by
  constructor
  · rfl
  · decide

/-- C2 (amended): every MatchInfo returned by findMatches is a maximal
run of >= 3 consecutive same-type cells in a single row or column, the
run's type is neither a bomb nor a wooden type (stone runs are possible),
and — on a board with at most one live tile per cell — every live tile
at a match position carries the match's type, hence is neither a bomb
nor a wooden tile.  A run closes when the type changes, when it reaches
a bomb or a wooden tile (both of which differ in type from the run), or
when it reaches the grid edge. -/
theorem findMatches_run_characterization (tiles : List Tile)
    (rows cols : Nat) (huniq : OneTilePerCell tiles) :
    ∀ m ∈ findMatches tiles rows cols,
      3 ≤ m.matchLength ∧
      isBomb m.tileType = false ∧ isWoodenTile m.tileType = false ∧
      GoodMatch (tilesToGrid tiles rows cols) rows cols m ∧
      (∀ p ∈ m.positions, ∀ t ∈ tiles, t.isRemoving = false →
        t.row = p.row → t.col = p.col → t.type = m.tileType) := by
  intro m hm
  have hg := findMatches_sound tiles rows cols m hm
  have hmain : 3 ≤ m.matchLength ∧ matchableType m.tileType = true ∧
      (∀ p ∈ m.positions, ∀ t ∈ tiles, t.isRemoving = false →
        t.row = p.row → t.col = p.col → t.type = m.tileType) := by
    rcases hg with ⟨row, hrow, s, n, τ, heq, h3, hbound, hmt, hcells, _, _⟩ |
        ⟨col, hcol, s, n, τ, heq, h3, hbound, hmt, hcells, _, _⟩
    · subst heq
      refine ⟨h3, hmt, ?_⟩
      intro p hp t ht hrem hr hc
      rcases List.mem_map.mp hp with ⟨i, hi, hpi⟩
      have hin : i < n := List.mem_range.mp hi
      subst hpi
      have hocc : occupiesCell t rows cols row (s + i) := by
        refine ⟨hrem, ?_, ?_, hrow, by omega⟩
        · simpa using hr
        · simpa using hc
      have hcell := cellAt_tilesToGrid_occ tiles rows cols row (s + i) t.type
        ⟨t, ht, hocc⟩ ?_
      · have hv : cellAt (tilesToGrid tiles rows cols) row (s + i) = τ :=
          hcells i hin
        rw [hv] at hcell
        exact hcell.symm
      · intro t2 ht2 hocc2
        have : t2 = t := huniq t2 ht2 t ht hocc2.1 hocc.1
          (by rw [hocc2.2.1, hocc.2.1]) (by rw [hocc2.2.2.1, hocc.2.2.1])
        rw [this]
    · subst heq
      refine ⟨h3, hmt, ?_⟩
      intro p hp t ht hrem hr hc
      rcases List.mem_map.mp hp with ⟨i, hi, hpi⟩
      have hin : i < n := List.mem_range.mp hi
      subst hpi
      have hocc : occupiesCell t rows cols (s + i) col := by
        refine ⟨hrem, ?_, ?_, by omega, hcol⟩
        · simpa using hr
        · simpa using hc
      have hcell := cellAt_tilesToGrid_occ tiles rows cols (s + i) col t.type
        ⟨t, ht, hocc⟩ ?_
      · have hv : cellAt (tilesToGrid tiles rows cols) (s + i) col = τ :=
          hcells i hin
        rw [hv] at hcell
        exact hcell.symm
      · intro t2 ht2 hocc2
        have : t2 = t := huniq t2 ht2 t ht hocc2.1 hocc.1
          (by rw [hocc2.2.1, hocc.2.1]) (by rw [hocc2.2.2.1, hocc.2.2.1])
        rw [this]
  have hmt := hmain.2.1
  unfold matchableType at hmt
  simp only [Bool.and_eq_true, Bool.not_eq_true'] at hmt
  exact ⟨hmain.1, hmt.1.2, hmt.2, hg, hmain.2.2⟩

/-- Tiles of a 1x3 board holding a plain 3-run of type 2. -/
def plainRunTiles : List Tile :=
  [⟨0, 2, 0, 0, false, false⟩, ⟨1, 2, 0, 1, false, false⟩,
   ⟨2, 2, 0, 2, false, false⟩]

/-- C2 witness: the characterization applied to the concrete 1x3 board
with a 3-run of type 2, at the match it reports. -/
theorem findMatches_run_characterization_witness :
    3 ≤ (mkHMatch 0 0 3 2).matchLength ∧
    isBomb (mkHMatch 0 0 3 2).tileType = false ∧
    isWoodenTile (mkHMatch 0 0 3 2).tileType = false ∧
    GoodMatch (tilesToGrid plainRunTiles 1 3) 1 3 (mkHMatch 0 0 3 2) ∧
    (∀ p ∈ (mkHMatch 0 0 3 2).positions, ∀ t ∈ plainRunTiles,
      t.isRemoving = false → t.row = p.row → t.col = p.col →
        t.type = (mkHMatch 0 0 3 2).tileType) :=
  findMatches_run_characterization plainRunTiles 1 3
    (by unfold OneTilePerCell; decide) (mkHMatch 0 0 3 2) (by decide)

/-! ## Grid initialization (use-game-state.ts, lines 219-312) -/

/-- Random draw from the available types:
`availableTypes[Math.floor(Math.random() * availableTypes.length)]`.
The stream value k selects index k mod length; for an empty list the
source would yield undefined, modelled by the -1 default (every theorem
below assumes a nonempty list). -/
def getRandomTileType (availableTypes : List Int) (k : Nat) : Int :=
  availableTypes.getD (k % availableTypes.length) (-1)

/-- The do-while sampling loop of initializeGrid at one cell: up to 50
draws, accepting the first drawn type whose placement does not close a
3-run to the left or above; the 50th draw is accepted even if it fails
the check (the generation-exhaustion degrade path).  Returns the
accepted type, the advanced stream counter, and whether the accepted
type passed the placement check. -/
def sampleTileType (avail : List Int) (grid : List (List Int))
    (row col : Nat) (rng : Nat → Nat) : Nat → Nat → Int × Nat × Bool
  | 0, ctr => (-1, ctr, false)
  | fuel + 1, ctr =>
    let t := getRandomTileType avail (rng ctr)
    if wouldCreateMatch grid row col t = false then (t, ctr + 1, true)
    else if fuel = 0 then (t, ctr + 1, false)
    else sampleTileType avail grid row col rng fuel (ctr + 1)

/-- State of the raster-order generation: the completed grid rows, the
partially built current row, the ordinary tiles created so far, the
random stream counter, the tile id counter, and whether some cell
accepted a type that fails the placement check (degrade flag). -/
structure InitState where
  gridRows : List (List Int)
  curRow : List Int
  tiles : List Tile
  ctr : Nat
  nextId : Nat
  degraded : Bool
deriving Repr

/-- Generation of one cell: positions configured as wooden or stone
obstacles are marked -1 in the grid and get no ordinary tile; other
cells sample a type against the grid built so far (completed rows plus
the partial current row). -/
def initCell (avail : List Int) (wood stone : List Pos) (rng : Nat → Nat)
    (row : Nat) (st : InitState) (col : Nat) : InitState :=
  if (⟨(row : Int), (col : Int)⟩ : Pos) ∈ wood ∨
      (⟨(row : Int), (col : Int)⟩ : Pos) ∈ stone then
    { st with curRow := st.curRow ++ [-1] }
  else
    let s := sampleTileType avail (st.gridRows ++ [st.curRow]) row col rng
      50 st.ctr
    { st with
      curRow := st.curRow ++ [s.1]
      tiles := st.tiles ++
        [⟨st.nextId, s.1, (row : Int), (col : Int), false, false⟩]
      ctr := s.2.1
      nextId := st.nextId + 1
      degraded := st.degraded || !s.2.2 }

/-- Generation of one full row. -/
def initRow (avail : List Int) (wood stone : List Pos) (rng : Nat → Nat)
    (cols : Nat) (st : InitState) (row : Nat) : InitState :=
  let st2 := (List.range cols).foldl (initCell avail wood stone rng row)
    { st with curRow := [] }
  { st2 with gridRows := st2.gridRows ++ [st2.curRow], curRow := [] }

/-- Grid initialization: fill every non-obstacle cell in raster order,
then append the wooden tiles and the stone tiles at their configured
positions.  Returns the tile list, the generation grid, and the degrade
flag (whether some cell accepted a type that closes a 3-run). -/
def initializeGrid (rows cols : Nat) (avail : List Int)
    (wood stone : List Pos) (rng : Nat → Nat) :
    List Tile × List (List Int) × Bool :=
  let st := (List.range rows).foldl (initRow avail wood stone rng cols)
    ⟨[], [], [], 0, 0, false⟩
  let withWood := wood.foldl
    (fun (p : List Tile × Nat) pos =>
      (p.1 ++ [⟨p.2, WOOD_NORMAL, pos.row, pos.col, false, false⟩], p.2 + 1))
    (st.tiles, st.nextId)
  let withStone := stone.foldl
    (fun (p : List Tile × Nat) pos =>
      (p.1 ++ [⟨p.2, STONE_TILE, pos.row, pos.col, false, false⟩], p.2 + 1))
    withWood
  (withStone.1, st.gridRows, st.degraded)

/-! ## C1: the generated initial board -/

theorem getD_append_lt {α : Type} (l l2 : List α) (j : Nat) (d : α)
    (h : j < l.length) : (l ++ l2).getD j d = l.getD j d := by
  simp only [List.getD_eq_getElem?_getD]
  rw [List.getElem?_append, if_pos h]

theorem getD_append_self {α : Type} (l : List α) (x d : α) :
    (l ++ [x]).getD l.length d = x := by
  simp only [List.getD_eq_getElem?_getD]
  rw [List.getElem?_append_right (Nat.le_refl _), Nat.sub_self]
  rfl

theorem getD_append_len {α : Type} (l : List α) (x d : α) (j : Nat)
    (h : j = l.length) : (l ++ [x]).getD j d = x := by
  subst h
  exact getD_append_self l x d

theorem getRandomTileType_mem (avail : List Int) (k : Nat) (h : avail ≠ []) :
    getRandomTileType avail k ∈ avail := by
  unfold getRandomTileType
  have hlen : 0 < avail.length := List.length_pos.mpr h
  have hm : k % avail.length < avail.length := Nat.mod_lt _ hlen
  rw [List.getD_eq_getElem?_getD, List.getElem?_eq_getElem hm]
  exact List.getElem_mem _

theorem sampleTileType_spec (avail : List Int) (grid : List (List Int))
    (row col : Nat) (rng : Nat → Nat) :
    ∀ fuel ctr, 1 ≤ fuel →
    ((sampleTileType avail grid row col rng fuel ctr).2.2 = true →
      wouldCreateMatch grid row col
        (sampleTileType avail grid row col rng fuel ctr).1 = false) ∧
    (avail ≠ [] →
      (sampleTileType avail grid row col rng fuel ctr).1 ∈ avail) := by
  intro fuel
  induction fuel with
  | zero => intro ctr h; omega
  | succ n ih =>
    intro ctr _
    rw [sampleTileType]
    split
    · next h =>
      exact ⟨fun _ => h, fun hne => getRandomTileType_mem _ _ hne⟩
    · next h =>
      split
      · constructor
        · intro habs; simp at habs
        · intro hne; exact getRandomTileType_mem _ _ hne
      · next hn0 =>
        exact ih (ctr + 1) (by omega)

/-- A cell is configured as an obstacle (wooden or stone). -/
def IsObstaclePos (wood stone : List Pos) (r c : Nat) : Prop :=
  (⟨(r : Int), (c : Int)⟩ : Pos) ∈ wood ∨ (⟨(r : Int), (c : Int)⟩ : Pos) ∈ stone

instance (wood stone : List Pos) (r c : Nat) :
    Decidable (IsObstaclePos wood stone r c) := by
  unfold IsObstaclePos; infer_instance

/-- Invariant of the per-cell generation fold within one row. -/
def CellFoldInv (avail : List Int) (wood stone : List Pos) (row : Nat)
    (st0 st : InitState) (c : Nat) : Prop :=
  st.gridRows = st0.gridRows ∧
  st.curRow.length = c ∧
  (st.degraded = false → st0.degraded = false) ∧
  (∃ new, st.tiles = st0.tiles ++ new ∧
    ∀ t ∈ new, t.isRemoving = false ∧ t.row = (row : Int) ∧
      ∃ j, j < c ∧ t.col = (j : Int) ∧ ¬ IsObstaclePos wood stone row j ∧
        t.type = st.curRow.getD j (-1)) ∧
  (∀ j, j < c →
    (IsObstaclePos wood stone row j → st.curRow.getD j (-1) = -1) ∧
    (¬ IsObstaclePos wood stone row j →
      (avail ≠ [] → st.curRow.getD j (-1) ∈ avail) ∧
      (st.degraded = false →
        wouldCreateMatch (st0.gridRows ++ [st.curRow.take j]) row j
          (st.curRow.getD j (-1)) = false) ∧
      (∃ t ∈ st.tiles, t.isRemoving = false ∧ t.row = (row : Int) ∧
        t.col = (j : Int) ∧ t.type = st.curRow.getD j (-1))))

theorem initCell_fold_inv (avail : List Int) (wood stone : List Pos)
    (rng : Nat → Nat) (row : Nat) (st0 : InitState) (h0 : st0.curRow = []) :
    ∀ c, CellFoldInv avail wood stone row st0
      ((List.range c).foldl (initCell avail wood stone rng row) st0) c := by
  intro c
  induction c with
  | zero =>
    rw [List.range_zero, List.foldl_nil]
    refine ⟨rfl, by rw [h0]; rfl, fun h => h, ⟨[], by simp, by simp⟩, ?_⟩
    intro j hj
    omega
  | succ c ih =>
    rw [List.range_succ, List.foldl_append, List.foldl_cons, List.foldl_nil]
    set st := (List.range c).foldl (initCell avail wood stone rng row) st0
      with hst
    obtain ⟨hgr, hlen, hdeg, ⟨new, htiles, hnew⟩, hcells⟩ := ih
    rw [initCell]
    by_cases hraw : (⟨(row : Int), (c : Int)⟩ : Pos) ∈ wood ∨
        (⟨(row : Int), (c : Int)⟩ : Pos) ∈ stone
    · have hobs : IsObstaclePos wood stone row c := hraw
      rw [if_pos hraw]
      refine ⟨hgr, by simp [hlen], hdeg, ⟨new, htiles, ?_⟩, ?_⟩
      · intro t ht
        obtain ⟨h1, h2, j, hj, h3, h4, h5⟩ := hnew t ht
        exact ⟨h1, h2, j, by omega, h3, h4,
          by rw [getD_append_lt _ _ _ _ (by omega)]; exact h5⟩
      · intro j hj
        rcases Nat.lt_or_ge j c with hjc | hjc
        · obtain ⟨hA, hB⟩ := hcells j hjc
          constructor
          · intro ho
            rw [getD_append_lt _ _ _ _ (by omega)]
            exact hA ho
          · intro ho
            obtain ⟨hB1, hB2, hB3⟩ := hB ho
            refine ⟨?_, ?_, ?_⟩
            · intro hne
              rw [getD_append_lt _ _ _ _ (by omega)]
              exact hB1 hne
            · intro hd
              rw [getD_append_lt _ _ _ _ (by omega),
                List.take_append_of_le_length (by omega)]
              exact hB2 hd
            · obtain ⟨t, ht, hprops⟩ := hB3
              rw [getD_append_lt _ _ _ _ (by omega)]
              exact ⟨t, ht, hprops⟩
        · have hjc2 : j = c := by omega
          subst hjc2
          constructor
          · intro _
            rw [getD_append_len _ _ _ _ hlen.symm]
          · intro ho
            exact absurd hobs ho
    · have hobs : ¬ IsObstaclePos wood stone row c := hraw
      rw [if_neg hraw]
      simp only []
      set s := sampleTileType avail (st.gridRows ++ [st.curRow]) row c rng
        50 st.ctr with hs
      have hspec := sampleTileType_spec avail (st.gridRows ++ [st.curRow])
        row c rng 50 st.ctr (by omega)
      refine ⟨hgr, by simp [hlen], ?_, ?_, ?_⟩
      · intro hd
        simp only [Bool.or_eq_false_iff] at hd
        exact hdeg hd.1
      · refine ⟨new ++ [⟨st.nextId, s.1, (row : Int), (c : Int), false, false⟩],
          by rw [htiles, List.append_assoc], ?_⟩
        intro t ht
        rcases List.mem_append.mp ht with h | h
        · obtain ⟨h1, h2, j, hj, h3, h4, h5⟩ := hnew t h
          exact ⟨h1, h2, j, by omega, h3, h4,
            by rw [getD_append_lt _ _ _ _ (by omega)]; exact h5⟩
        · have := List.mem_singleton.mp h
          subst this
          refine ⟨rfl, rfl, c, by omega, rfl, hobs, ?_⟩
          rw [getD_append_len _ _ _ _ hlen.symm]
      · intro j hj
        rcases Nat.lt_or_ge j c with hjc | hjc
        · obtain ⟨hA, hB⟩ := hcells j hjc
          constructor
          · intro ho
            rw [getD_append_lt _ _ _ _ (by omega)]
            exact hA ho
          · intro ho
            obtain ⟨hB1, hB2, hB3⟩ := hB ho
            refine ⟨?_, ?_, ?_⟩
            · intro hne
              rw [getD_append_lt _ _ _ _ (by omega)]
              exact hB1 hne
            · intro hd
              simp only [Bool.or_eq_false_iff] at hd
              rw [getD_append_lt _ _ _ _ (by omega),
                List.take_append_of_le_length (by omega)]
              exact hB2 hd.1
            · obtain ⟨t, ht, hprops⟩ := hB3
              rw [getD_append_lt _ _ _ _ (by omega)]
              exact ⟨t, List.mem_append_left _ ht, hprops⟩
        · have hjc2 : j = c := by omega
          subst hjc2
          constructor
          · intro ho
            exact absurd ho hobs
          · intro _
            rw [getD_append_len _ _ _ _ hlen.symm]
            refine ⟨fun hne => hspec.2 hne, ?_, ?_⟩
            · intro hd
              simp only [Bool.or_eq_false_iff, Bool.not_eq_false'] at hd
              rw [List.take_append_of_le_length (by omega),
                List.take_of_length_le (by omega), ← hgr]
              exact hspec.1 hd.2
            · refine ⟨⟨st.nextId, s.1, (row : Int), (j : Int), false, false⟩,
                List.mem_append_right _ (List.mem_singleton.mpr rfl),
                rfl, rfl, rfl, rfl⟩

/-- Invariant of the per-row generation fold. -/
def RowFoldInv (avail : List Int) (wood stone : List Pos) (cols : Nat)
    (st : InitState) (r : Nat) : Prop :=
  st.gridRows.length = r ∧
  st.curRow = [] ∧
  (∀ rw ∈ st.gridRows, rw.length = cols) ∧
  (∀ i j, i < r → j < cols →
    (IsObstaclePos wood stone i j → cellAt st.gridRows i j = -1) ∧
    (¬ IsObstaclePos wood stone i j →
      (avail ≠ [] → cellAt st.gridRows i j ∈ avail) ∧
      (st.degraded = false →
        wouldCreateMatch
          (st.gridRows.take i ++ [(st.gridRows.getD i []).take j]) i j
          (cellAt st.gridRows i j) = false) ∧
      (∃ t ∈ st.tiles, t.isRemoving = false ∧ t.row = (i : Int) ∧
        t.col = (j : Int) ∧ t.type = cellAt st.gridRows i j))) ∧
  (∀ t ∈ st.tiles, t.isRemoving = false ∧
    ∃ i j, i < r ∧ j < cols ∧ t.row = (i : Int) ∧ t.col = (j : Int) ∧
      ¬ IsObstaclePos wood stone i j ∧ t.type = cellAt st.gridRows i j)

theorem initRow_eq (avail : List Int) (wood stone : List Pos)
    (rng : Nat → Nat) (cols : Nat) (st : InitState) (row : Nat) :
    initRow avail wood stone rng cols st row =
      { (List.range cols).foldl (initCell avail wood stone rng row)
          { st with curRow := [] } with
        gridRows := ((List.range cols).foldl (initCell avail wood stone rng row)
          { st with curRow := [] }).gridRows ++
          [((List.range cols).foldl (initCell avail wood stone rng row)
            { st with curRow := [] }).curRow]
        curRow := [] } := rfl

theorem cellAt_append_lt (g : List (List Int)) (rw : List Int) (i j : Nat)
    (h : i < g.length) : cellAt (g ++ [rw]) i j = cellAt g i j := by
  unfold cellAt
  rw [getD_append_lt _ _ _ _ h]

theorem cellAt_append_len (g : List (List Int)) (rw : List Int) (i j : Nat)
    (h : i = g.length) : cellAt (g ++ [rw]) i j = rw.getD j (-1) := by
  unfold cellAt
  rw [getD_append_len _ _ _ _ h]

theorem initRow_fold_inv (avail : List Int) (wood stone : List Pos)
    (rng : Nat → Nat) (cols : Nat) :
    ∀ r, RowFoldInv avail wood stone cols
      ((List.range r).foldl (initRow avail wood stone rng cols)
        ⟨[], [], [], 0, 0, false⟩) r := by
  intro r
  induction r with
  | zero =>
    rw [List.range_zero, List.foldl_nil]
    exact ⟨rfl, rfl, by simp, fun i j hi _ => absurd hi (by omega),
      fun t ht => absurd ht (by simp)⟩
  | succ r ih =>
    rw [List.range_succ, List.foldl_append, List.foldl_cons, List.foldl_nil]
    set st := (List.range r).foldl (initRow avail wood stone rng cols)
      ⟨[], [], [], 0, 0, false⟩ with hstdef
    obtain ⟨hlen, hcur, hrows, hcells, htiles⟩ := ih
    rw [initRow_eq]
    set st2 := (List.range cols).foldl (initCell avail wood stone rng r)
      { st with curRow := [] } with hst2def
    have hcf := initCell_fold_inv avail wood stone rng r
      { st with curRow := [] } rfl cols
    rw [← hst2def] at hcf
    obtain ⟨hgr2, hlen2, hdeg2raw, ⟨new, htiles2, hnew⟩, hcells2⟩ := hcf
    have hgr2' : st2.gridRows = st.gridRows := hgr2
    have hdeg2 : st2.degraded = false → st.degraded = false := hdeg2raw
    have htnew : st2.tiles = st.tiles ++ new := htiles2
    have hstlen : st.gridRows.length = r := hlen
    have hA1 : (st2.gridRows ++ [st2.curRow]).length = r + 1 := by
      simp [hgr2', hstlen]
    have hA2 : ∀ rw2 ∈ st2.gridRows ++ [st2.curRow], rw2.length = cols := by
      intro rw2 hrw2
      rcases List.mem_append.mp hrw2 with h | h
      · exact hrows rw2 (by rwa [hgr2'] at h)
      · rw [List.mem_singleton.mp h]
        exact hlen2
    have hA3 : ∀ i j, i < r + 1 → j < cols →
        (IsObstaclePos wood stone i j →
          cellAt (st2.gridRows ++ [st2.curRow]) i j = -1) ∧
        (¬ IsObstaclePos wood stone i j →
          (avail ≠ [] → cellAt (st2.gridRows ++ [st2.curRow]) i j ∈ avail) ∧
          (st2.degraded = false →
            wouldCreateMatch
              ((st2.gridRows ++ [st2.curRow]).take i ++
                [((st2.gridRows ++ [st2.curRow]).getD i []).take j]) i j
              (cellAt (st2.gridRows ++ [st2.curRow]) i j) = false) ∧
          (∃ t ∈ st2.tiles, t.isRemoving = false ∧ t.row = (i : Int) ∧
            t.col = (j : Int) ∧
            t.type = cellAt (st2.gridRows ++ [st2.curRow]) i j)) := by
      intro i j hi hj
      rcases Nat.lt_or_ge i r with hir | hir
      · have hilt : i < st2.gridRows.length := by rw [hgr2', hstlen]; exact hir
        obtain ⟨hA, hB⟩ := hcells i j hir hj
        rw [cellAt_append_lt st2.gridRows st2.curRow i j hilt, hgr2']
        constructor
        · exact hA
        · intro ho
          obtain ⟨hB1, hB2, hB3⟩ := hB ho
          refine ⟨hB1, ?_, ?_⟩
          · intro hd
            rw [List.take_append_of_le_length (by omega),
              getD_append_lt _ _ _ _ (show i < st.gridRows.length by omega)]
            exact hB2 (hdeg2 hd)
          · obtain ⟨t, ht, hp⟩ := hB3
            exact ⟨t, by rw [htnew]; exact List.mem_append_left _ ht, hp⟩
      · have hieq : i = r := by omega
        have hilen : i = st2.gridRows.length := by rw [hgr2', hstlen]; omega
        obtain ⟨hA4, hB4⟩ := hcells2 j hj
        rw [cellAt_append_len st2.gridRows st2.curRow i j hilen]
        constructor
        · rw [hieq]
          exact hA4
        · rw [hieq]
          intro ho
          obtain ⟨hC1, hC2, hC3⟩ := hB4 ho
          refine ⟨hC1, ?_, hC3⟩
          intro hd
          have hgoal := hC2 hd
          rw [List.take_append_of_le_length (by omega),
            List.take_of_length_le (by omega),
            getD_append_len _ _ _ _ (by omega), hgr2']
          exact hgoal
    have hA4 : ∀ t ∈ st2.tiles, t.isRemoving = false ∧
        ∃ i j, i < r + 1 ∧ j < cols ∧ t.row = (i : Int) ∧ t.col = (j : Int) ∧
          ¬ IsObstaclePos wood stone i j ∧
          t.type = cellAt (st2.gridRows ++ [st2.curRow]) i j := by
      intro t ht
      rw [htnew] at ht
      rcases List.mem_append.mp ht with h | h
      · obtain ⟨h1, i, j, hi, hj, h2, h3, h4, h5⟩ := htiles t h
        refine ⟨h1, i, j, by omega, hj, h2, h3, h4, ?_⟩
        rw [cellAt_append_lt _ _ _ _ (by rw [hgr2', hstlen]; exact hi), hgr2']
        exact h5
      · obtain ⟨h1, h2, j, hj, h3, h4, h5⟩ := hnew t h
        refine ⟨h1, r, j, by omega, hj, h2, h3, h4, ?_⟩
        rw [cellAt_append_len _ _ _ _ (by rw [hgr2', hstlen])]
        exact h5
    exact ⟨hA1, rfl, hA2, hA3, hA4⟩

/-- Properties of the obstacle-tile appending folds of initializeGrid. -/
theorem obstacleFold_spec (tv : Int) (ps : List Pos) :
    ∀ acc : List Tile × Nat,
    ∃ new, (ps.foldl (fun (p : List Tile × Nat) pos =>
        (p.1 ++ [⟨p.2, tv, pos.row, pos.col, false, false⟩], p.2 + 1)) acc).1
        = acc.1 ++ new ∧
      (∀ t ∈ new, t.isRemoving = false ∧ t.type = tv ∧
        (⟨t.row, t.col⟩ : Pos) ∈ ps) ∧
      (∀ pos ∈ ps, ∃ t ∈ new, t.row = pos.row ∧ t.col = pos.col ∧
        t.type = tv ∧ t.isRemoving = false) := by
  induction ps with
  | nil =>
    intro acc
    exact ⟨[], by simp, by simp, by simp⟩
  | cons pos rest ih =>
    intro acc
    rw [List.foldl_cons]
    obtain ⟨new, heq, hprops, hcover⟩ :=
      ih (acc.1 ++ [⟨acc.2, tv, pos.row, pos.col, false, false⟩], acc.2 + 1)
    refine ⟨⟨acc.2, tv, pos.row, pos.col, false, false⟩ :: new, ?_, ?_, ?_⟩
    · rw [heq]
      simp
    · intro t ht
      rcases List.mem_cons.mp ht with h | h
      · subst h
        exact ⟨rfl, rfl, List.mem_cons_self _ _⟩
      · obtain ⟨h1, h2, h3⟩ := hprops t h
        exact ⟨h1, h2, List.mem_cons_of_mem _ h3⟩
    · intro p hp
      rcases List.mem_cons.mp hp with h | h
      · subst h
        exact ⟨⟨acc.2, tv, p.row, p.col, false, false⟩,
          List.mem_cons_self _ _, rfl, rfl, rfl, rfl⟩
      · obtain ⟨t, ht, hp2⟩ := hcover p h
        exact ⟨t, List.mem_cons_of_mem _ ht, hp2⟩

theorem jsGet_append_len {α : Type} (l l2 : List α) (x : α) (i : Nat)
    (h : l.length = i) (h2 : l2 = [x]) : jsGet (l ++ l2) i = some x := by
  subst h; subst h2
  unfold jsGet
  rw [List.get?_eq_getElem?]
  exact List.getElem?_concat_length l x

theorem jsGet_take_lt {α : Type} (l : List α) (i j : Nat) (h : j < i) :
    jsGet (l.take i) j = jsGet l j := by
  unfold jsGet
  rw [List.get?_eq_getElem?, List.get?_eq_getElem?]
  exact List.getElem?_take_of_lt h

theorem jsGet_append_lt {α : Type} (l l2 : List α) (i : Nat)
    (h : i < l.length) : jsGet (l ++ l2) i = jsGet l i := by
  unfold jsGet
  rw [List.get?_eq_getElem?, List.get?_eq_getElem?]
  exact List.getElem?_append_left h

theorem jsGet_eq_some_getD {α : Type} (l : List α) (i : Nat) (d : α)
    (h : i < l.length) : jsGet l i = some (l.getD i d) := by
  unfold jsGet
  rw [List.get?_eq_getElem?, List.getElem?_eq_getElem h,
    List.getD_eq_getElem?_getD, List.getElem?_eq_getElem h]
  rfl

/-- Board-grid cell values of the initialized board: stone cells read
STONE_TILE, wooden cells read WOOD_NORMAL, and ordinary cells read the
generation grid's sampled value. -/
theorem initializeGrid_board_cells (rows cols : Nat) (avail : List Int)
    (wood stone : List Pos) (rng : Nat → Nat)
    (hdisj : ∀ p : Pos, ¬(p ∈ wood ∧ p ∈ stone)) (r c : Nat)
    (hr : r < rows) (hc : c < cols) :
    ((⟨(r : Int), (c : Int)⟩ : Pos) ∈ stone →
      cellAt (tilesToGrid (initializeGrid rows cols avail wood stone rng).1
        rows cols) r c = STONE_TILE) ∧
    ((⟨(r : Int), (c : Int)⟩ : Pos) ∈ wood →
      (⟨(r : Int), (c : Int)⟩ : Pos) ∉ stone →
      cellAt (tilesToGrid (initializeGrid rows cols avail wood stone rng).1
        rows cols) r c = WOOD_NORMAL) ∧
    (¬ IsObstaclePos wood stone r c →
      cellAt (tilesToGrid (initializeGrid rows cols avail wood stone rng).1
        rows cols) r c =
        cellAt (initializeGrid rows cols avail wood stone rng).2.1 r c) := by
  set st := (List.range rows).foldl (initRow avail wood stone rng cols)
    ⟨[], [], [], 0, 0, false⟩ with hstdef
  obtain ⟨hlen, hcur, hrows, hcells, htiles⟩ :=
    initRow_fold_inv avail wood stone rng cols rows
  rw [← hstdef] at hlen hcur hrows hcells htiles
  obtain ⟨wNew, hw1, hwProps, hwCover⟩ :=
    obstacleFold_spec WOOD_NORMAL wood (st.tiles, st.nextId)
  obtain ⟨sNew, hs1, hsProps, hsCover⟩ :=
    obstacleFold_spec STONE_TILE stone
      (wood.foldl
        (fun (p : List Tile × Nat) pos =>
          (p.1 ++ [⟨p.2, WOOD_NORMAL, pos.row, pos.col, false, false⟩],
            p.2 + 1)) (st.tiles, st.nextId))
  have hb : (initializeGrid rows cols avail wood stone rng).1
      = st.tiles ++ wNew ++ sNew := by
    show (stone.foldl
      (fun (p : List Tile × Nat) pos =>
        (p.1 ++ [⟨p.2, STONE_TILE, pos.row, pos.col, false, false⟩],
          p.2 + 1))
      (wood.foldl
        (fun (p : List Tile × Nat) pos =>
          (p.1 ++ [⟨p.2, WOOD_NORMAL, pos.row, pos.col, false, false⟩],
            p.2 + 1)) (st.tiles, st.nextId))).1 = st.tiles ++ wNew ++ sNew
    rw [hs1, hw1]
  have h21 : (initializeGrid rows cols avail wood stone rng).2.1
      = st.gridRows := rfl
  have hmem3 : ∀ t ∈ (initializeGrid rows cols avail wood stone rng).1,
      t ∈ st.tiles ∨ t ∈ wNew ∨ t ∈ sNew := by
    intro t ht
    rw [hb] at ht
    rcases List.mem_append.mp ht with h | h
    · rcases List.mem_append.mp h with h2 | h2
      · exact Or.inl h2
      · exact Or.inr (Or.inl h2)
    · exact Or.inr (Or.inr h)
  refine ⟨?_, ?_, ?_⟩
  · -- stone cell
    intro hstone
    rw [show STONE_TILE = (300 : Int) from rfl]
    apply cellAt_tilesToGrid_occ
    · obtain ⟨t, ht, h1, h2, h3, h4⟩ := hsCover _ hstone
      refine ⟨t, by rw [hb]; exact List.mem_append_right _ ht,
        h4, by rw [h1], by rw [h2], hr, hc⟩
    · intro t ht hocc
      rcases hmem3 t ht with h | h | h
      · obtain ⟨_, i, j, hi, hj, hrow, hcol, hnobs, _⟩ := htiles t h
        exfalso
        apply hnobs
        have hir : i = r := by
          have := hocc.2.1
          rw [hrow] at this
          omega
        have hjc : j = c := by
          have := hocc.2.2.1
          rw [hcol] at this
          omega
        rw [hir, hjc]
        exact Or.inr hstone
      · obtain ⟨_, htype, hpos⟩ := hwProps t h
        exfalso
        apply hdisj (⟨(r : Int), (c : Int)⟩ : Pos)
        constructor
        · rw [← hocc.2.1, ← hocc.2.2.1]
          exact hpos
        · exact hstone
      · exact (hsProps t h).2.1
  · -- wooden cell, not stone
    intro hwood hnstone
    rw [show WOOD_NORMAL = (200 : Int) from rfl]
    apply cellAt_tilesToGrid_occ
    · obtain ⟨t, ht, h1, h2, h3, h4⟩ := hwCover _ hwood
      have htb : t ∈ (initializeGrid rows cols avail wood stone rng).1 := by
        rw [hb]
        exact List.mem_append_left _ (List.mem_append_right _ ht)
      exact ⟨t, htb, h4, by rw [h1], by rw [h2], hr, hc⟩
    · intro t ht hocc
      rcases hmem3 t ht with h | h | h
      · obtain ⟨_, i, j, hi, hj, hrow, hcol, hnobs, _⟩ := htiles t h
        exfalso
        apply hnobs
        have hir : i = r := by
          have := hocc.2.1
          rw [hrow] at this
          omega
        have hjc : j = c := by
          have := hocc.2.2.1
          rw [hcol] at this
          omega
        rw [hir, hjc]
        exact Or.inl hwood
      · exact (hwProps t h).2.1
      · obtain ⟨_, htype, hpos⟩ := hsProps t h
        exfalso
        apply hnstone
        rw [← hocc.2.1, ← hocc.2.2.1]
        exact hpos
  · -- ordinary cell
    intro hnobs
    rw [h21]
    obtain ⟨hA, hB⟩ := hcells r c hr hc
    obtain ⟨_, _, t0, ht0, hrem0, hrow0, hcol0, htype0⟩ := hB hnobs
    apply cellAt_tilesToGrid_occ
    · have htb : t0 ∈ (initializeGrid rows cols avail wood stone rng).1 := by
        rw [hb]
        exact List.mem_append_left _ (List.mem_append_left _ ht0)
      exact ⟨t0, htb, hrem0, hrow0, hcol0, hr, hc⟩
    · intro t ht hocc
      rcases hmem3 t ht with h | h | h
      · obtain ⟨_, i, j, hi, hj, hrow, hcol, hnobs2, htype⟩ := htiles t h
        have hir : i = r := by
          have := hocc.2.1
          rw [hrow] at this
          omega
        have hjc : j = c := by
          have := hocc.2.2.1
          rw [hcol] at this
          omega
        rw [htype, hir, hjc]
      · obtain ⟨_, htype, hpos⟩ := hwProps t h
        exfalso
        apply hnobs
        left
        rw [← hocc.2.1, ← hocc.2.2.1]
        exact hpos
      · obtain ⟨_, htype, hpos⟩ := hsProps t h
        exfalso
        apply hnobs
        right
        rw [← hocc.2.1, ← hocc.2.2.1]
        exact hpos

theorem getD_mem {α : Type} (l : List α) (i : Nat) (d : α)
    (h : i < l.length) : l.getD i d ∈ l := by
  rw [List.getD_eq_getElem?_getD, List.getElem?_eq_getElem h]
  simp only [Option.getD_some]
  exact List.getElem_mem _

/-- No three consecutive collinear stone obstacle positions. -/
def NoTripleStone (stone : List Pos) : Prop :=
  ¬ ∃ r c : Nat,
    ((⟨(r : Int), (c : Int)⟩ : Pos) ∈ stone ∧
      (⟨(r : Int), ((c + 1 : Nat) : Int)⟩ : Pos) ∈ stone ∧
      (⟨(r : Int), ((c + 2 : Nat) : Int)⟩ : Pos) ∈ stone) ∨
    ((⟨(r : Int), (c : Int)⟩ : Pos) ∈ stone ∧
      (⟨((r + 1 : Nat) : Int), (c : Int)⟩ : Pos) ∈ stone ∧
      (⟨((r + 2 : Nat) : Int), (c : Int)⟩ : Pos) ∈ stone)

/-- C1 (amended): a generated initial board has no matches, provided the
level uses at least 3 ordinary tile types (any tile type below 100), no
cell is configured both wooden and stone, no three stone obstacles are
collinear and adjacent, and the 50-attempt sampling cap did not degrade
(no cell accepted a type that closes a 3-run). -/
theorem initializeGrid_no_matches (rows cols : Nat) (avail : List Int)
    (wood stone : List Pos) (rng : Nat → Nat)
    (hlen3 : 3 ≤ avail.length)
    (hord : ∀ v ∈ avail, 0 ≤ v ∧ v < 100)
    (hdisj : ∀ p : Pos, ¬(p ∈ wood ∧ p ∈ stone))
    (hstone3 : NoTripleStone stone)
    (hdeg : (initializeGrid rows cols avail wood stone rng).2.2 = false) :
    findMatches (initializeGrid rows cols avail wood stone rng).1 rows cols
      = [] := by
  by_contra hne
  obtain ⟨m, hm⟩ := List.exists_mem_of_ne_nil _ hne
  have hg := findMatches_sound
    (initializeGrid rows cols avail wood stone rng).1 rows cols m hm
  have havne : avail ≠ [] := by
    intro h
    rw [h] at hlen3
    simp at hlen3
  set st := (List.range rows).foldl (initRow avail wood stone rng cols)
    ⟨[], [], [], 0, 0, false⟩ with hstdef
  obtain ⟨hlen, hcur, hrows, hcells, htiles⟩ :=
    initRow_fold_inv avail wood stone rng cols rows
  rw [← hstdef] at hlen hcur hrows hcells htiles
  have hdeg' : st.degraded = false := hdeg
  -- classify the value of any matchable board cell
  have hkey : ∀ r c : Nat, r < rows → c < cols → ∀ τ : Int,
      matchableType τ = true →
      cellAt (tilesToGrid (initializeGrid rows cols avail wood stone rng).1
        rows cols) r c = τ →
      (τ = 300 ∧ (⟨(r : Int), (c : Int)⟩ : Pos) ∈ stone) ∨
      (¬ IsObstaclePos wood stone r c ∧ cellAt st.gridRows r c = τ ∧
        τ ∈ avail) := by
    intro r c hr hc τ hmt hv
    obtain ⟨hS, hW, hO⟩ :=
      initializeGrid_board_cells rows cols avail wood stone rng hdisj r c hr hc
    by_cases hst : (⟨(r : Int), (c : Int)⟩ : Pos) ∈ stone
    · left
      refine ⟨?_, hst⟩
      rw [← hv, hS hst]
      rfl
    · by_cases hwd : (⟨(r : Int), (c : Int)⟩ : Pos) ∈ wood
      · exfalso
        have h200 : τ = 200 := by rw [← hv, hW hwd hst]; rfl
        rw [h200] at hmt
        unfold matchableType isWoodenTile WOOD_NORMAL at hmt
        simp at hmt
      · have hnobs : ¬ IsObstaclePos wood stone r c := by
          intro h
          rcases h with h | h
          · exact hwd h
          · exact hst h
        have hgen : cellAt st.gridRows r c = τ := by
          rw [← hv, hO hnobs]
          rfl
        refine Or.inr ⟨hnobs, hgen, ?_⟩
        rw [← hgen]
        exact ((hcells r c hr hc).2 hnobs).1 havne
  have h300lt : ∀ τ : Int, τ ∈ avail → τ ≠ 300 := by
    intro τ hτ h
    have := (hord τ hτ).2
    omega
  rcases hg with ⟨row, hrow, s, n, τ, heq, h3, hbound, hmt, hrun, _, _⟩ |
      ⟨col, hcol, s, n, τ, heq, h3, hbound, hmt, hrun, _, _⟩
  · -- horizontal run: contradict the placement check at its third cell
    have hv0 : cellAt (tilesToGrid (initializeGrid rows cols avail wood
        stone rng).1 rows cols) row (s + 0) = τ := hrun 0 (by omega)
    have hv1 : cellAt (tilesToGrid (initializeGrid rows cols avail wood
        stone rng).1 rows cols) row (s + 1) = τ := hrun 1 (by omega)
    have hv2 : cellAt (tilesToGrid (initializeGrid rows cols avail wood
        stone rng).1 rows cols) row (s + 2) = τ := hrun 2 (by omega)
    have hk0 := hkey row (s + 0) hrow (by omega) τ hmt hv0
    have hk1 := hkey row (s + 1) hrow (by omega) τ hmt hv1
    have hk2 := hkey row (s + 2) hrow (by omega) τ hmt hv2
    rcases hk0 with ⟨h300, hst0⟩ | ⟨hnobs0, hgen0, hmem0⟩
    · -- stone run: all three cells must be stone positions
      have hst1 : (⟨(row : Int), ((s + 1 : Nat) : Int)⟩ : Pos) ∈ stone := by
        rcases hk1 with ⟨_, h⟩ | ⟨_, _, hmem⟩
        · exact h
        · exact absurd h300 (h300lt τ hmem)
      have hst2 : (⟨(row : Int), ((s + 2 : Nat) : Int)⟩ : Pos) ∈ stone := by
        rcases hk2 with ⟨_, h⟩ | ⟨_, _, hmem⟩
        · exact h
        · exact absurd h300 (h300lt τ hmem)
      exact hstone3 ⟨row, s, Or.inl ⟨by simpa using hst0, hst1, hst2⟩⟩
    · have hne300 : τ ≠ 300 := h300lt τ hmem0
      have hgen1 : cellAt st.gridRows row (s + 1) = τ := by
        rcases hk1 with ⟨h, _⟩ | ⟨_, h, _⟩
        · exact absurd h hne300
        · exact h
      obtain ⟨hnobs2, hgen2, _⟩ : ¬ IsObstaclePos wood stone row (s + 2) ∧
          cellAt st.gridRows row (s + 2) = τ ∧ τ ∈ avail := by
        rcases hk2 with ⟨h, _⟩ | h
        · exact absurd h hne300
        · exact h
      have hchk := ((hcells row (s + 2) hrow (by omega)).2 hnobs2).2.1 hdeg'
      rw [hgen2] at hchk
      have hrowlen : (st.gridRows.getD row []).length = cols :=
        hrows _ (getD_mem _ _ _ (by omega))
      have hgen0' : cellAt st.gridRows row s = τ := by simpa using hgen0
      have e1 : (jsGet (st.gridRows.take row ++
            [(st.gridRows.getD row []).take (s + 2)]) row).bind
            (fun rw2 => jsGet rw2 (s + 2 - 1)) = some τ := by
        rw [jsGet_append_len _ _ _ _ (by rw [List.length_take]; omega) rfl]
        show jsGet ((st.gridRows.getD row []).take (s + 2)) (s + 1) = some τ
        rw [jsGet_take_lt _ _ _ (by omega),
          jsGet_eq_some_getD _ _ (-1) (by omega)]
        rw [show (st.gridRows.getD row []).getD (s + 1) (-1) =
          cellAt st.gridRows row (s + 1) from rfl, hgen1]
      have e2 : (jsGet (st.gridRows.take row ++
            [(st.gridRows.getD row []).take (s + 2)]) row).bind
            (fun rw2 => jsGet rw2 (s + 2 - 2)) = some τ := by
        rw [jsGet_append_len _ _ _ _ (by rw [List.length_take]; omega) rfl]
        show jsGet ((st.gridRows.getD row []).take (s + 2)) s = some τ
        rw [jsGet_take_lt _ _ _ (by omega),
          jsGet_eq_some_getD _ _ (-1) (by omega)]
        rw [show (st.gridRows.getD row []).getD s (-1) =
          cellAt st.gridRows row s from rfl, hgen0']
      rw [wouldCreateMatch, e1, e2] at hchk
      simp at hchk
  · -- vertical run: contradict the placement check at its third cell
    have hv0 : cellAt (tilesToGrid (initializeGrid rows cols avail wood
        stone rng).1 rows cols) (s + 0) col = τ := hrun 0 (by omega)
    have hv1 : cellAt (tilesToGrid (initializeGrid rows cols avail wood
        stone rng).1 rows cols) (s + 1) col = τ := hrun 1 (by omega)
    have hv2 : cellAt (tilesToGrid (initializeGrid rows cols avail wood
        stone rng).1 rows cols) (s + 2) col = τ := hrun 2 (by omega)
    have hk0 := hkey (s + 0) col (by omega) hcol τ hmt hv0
    have hk1 := hkey (s + 1) col (by omega) hcol τ hmt hv1
    have hk2 := hkey (s + 2) col (by omega) hcol τ hmt hv2
    rcases hk0 with ⟨h300, hst0⟩ | ⟨hnobs0, hgen0, hmem0⟩
    · have hst1 : (⟨((s + 1 : Nat) : Int), (col : Int)⟩ : Pos) ∈ stone := by
        rcases hk1 with ⟨_, h⟩ | ⟨_, _, hmem⟩
        · exact h
        · exact absurd h300 (h300lt τ hmem)
      have hst2 : (⟨((s + 2 : Nat) : Int), (col : Int)⟩ : Pos) ∈ stone := by
        rcases hk2 with ⟨_, h⟩ | ⟨_, _, hmem⟩
        · exact h
        · exact absurd h300 (h300lt τ hmem)
      exact hstone3 ⟨s, col, Or.inr ⟨by simpa using hst0, hst1, hst2⟩⟩
    · have hne300 : τ ≠ 300 := h300lt τ hmem0
      have hgen1 : cellAt st.gridRows (s + 1) col = τ := by
        rcases hk1 with ⟨h, _⟩ | ⟨_, h, _⟩
        · exact absurd h hne300
        · exact h
      obtain ⟨hnobs2, hgen2, _⟩ : ¬ IsObstaclePos wood stone (s + 2) col ∧
          cellAt st.gridRows (s + 2) col = τ ∧ τ ∈ avail := by
        rcases hk2 with ⟨h, _⟩ | h
        · exact absurd h hne300
        · exact h
      have hchk := ((hcells (s + 2) col (by omega) hcol).2 hnobs2).2.1 hdeg'
      rw [hgen2] at hchk
      have hgen0' : cellAt st.gridRows s col = τ := by simpa using hgen0
      have hrl1 : (st.gridRows.getD (s + 1) []).length = cols :=
        hrows _ (getD_mem _ _ _ (by omega))
      have hrl0 : (st.gridRows.getD s []).length = cols :=
        hrows _ (getD_mem _ _ _ (by omega))
      have e1 : (jsGet (st.gridRows.take (s + 2) ++
            [(st.gridRows.getD (s + 2) []).take col]) (s + 2 - 1)).bind
            (fun rw2 => jsGet rw2 col) = some τ := by
        rw [show s + 2 - 1 = s + 1 from rfl]
        rw [jsGet_append_lt _ _ _ (by rw [List.length_take]; omega),
          jsGet_take_lt _ _ _ (by omega),
          jsGet_eq_some_getD _ _ [] (by omega)]
        show jsGet (st.gridRows.getD (s + 1) []) col = some τ
        rw [jsGet_eq_some_getD _ _ (-1) (by omega)]
        rw [show (st.gridRows.getD (s + 1) []).getD col (-1) =
          cellAt st.gridRows (s + 1) col from rfl, hgen1]
      have e2 : (jsGet (st.gridRows.take (s + 2) ++
            [(st.gridRows.getD (s + 2) []).take col]) (s + 2 - 2)).bind
            (fun rw2 => jsGet rw2 col) = some τ := by
        rw [show s + 2 - 2 = s from rfl]
        rw [jsGet_append_lt _ _ _ (by rw [List.length_take]; omega),
          jsGet_take_lt _ _ _ (by omega),
          jsGet_eq_some_getD _ _ [] (by omega)]
        show jsGet (st.gridRows.getD s []) col = some τ
        rw [jsGet_eq_some_getD _ _ (-1) (by omega)]
        rw [show (st.gridRows.getD s []).getD col (-1) =
          cellAt st.gridRows s col from rfl, hgen0']
      rw [wouldCreateMatch, e1, e2] at hchk
      simp at hchk

/-- C1 witness: the amended no-initial-match theorem applied to a
concrete 3x3 level with 3 ordinary types, no obstacles, and the identity
random stream. -/
theorem initializeGrid_no_matches_witness :
    findMatches (initializeGrid 3 3 [0, 1, 2] [] [] (fun k => k)).1 3 3
      = [] :=
  initializeGrid_no_matches 3 3 [0, 1, 2] [] [] (fun k => k)
    (by norm_num)
    (by intro v hv; fin_cases hv <;> norm_num)
    (by intro p ⟨h, _⟩; exact List.not_mem_nil p h)
    (by intro ⟨r, c, h⟩
        rcases h with ⟨h1, _⟩ | ⟨h1, _⟩ <;> exact List.not_mem_nil _ h1)
    (by rfl)

/-- Stone obstacle positions of the C1 counterexample level: three
stones in a row. -/
def c1StonePositions : List Pos := [⟨0, 0⟩, ⟨0, 1⟩, ⟨0, 2⟩]

/-- C1 counterexample: a level with 3 allowed ordinary types whose stone
obstacles form a row of three.  Generation completes without reaching
the 50-attempt cap at any cell (degrade flag false), yet findMatches on
the initial board is nonempty — it reports the stone row.  This refutes
the claim for arbitrary level configurations. -/
theorem initializeGrid_counterexample :
    (initializeGrid 3 3 [0, 1, 2] [] c1StonePositions (fun k => k)).2.2
      = false ∧
    findMatches (initializeGrid 3 3 [0, 1, 2] [] c1StonePositions
      (fun k => k)).1 3 3 ≠ [] := by
  constructor
  · rfl
  · intro h
    rw [show findMatches (initializeGrid 3 3 [0, 1, 2] [] c1StonePositions
      (fun k => k)).1 3 3 = [mkHMatch 0 0 3 300] from rfl] at h
    simp at h

/-! ## applyGravity (src/lib/game-utils.ts, lines 579-613) -/

/-- A tile type that never moves under gravity. -/
def isImmovableType (t : Int) : Bool :=
  isWoodenTile t || isStoneTile t

/-- Stable insertion into a list sorted by descending row: the new tile
goes after every tile whose row is at least as large.  This realizes the
stable `Array.prototype.sort` with comparator `(a, b) => b.row - a.row`:
ties keep the earlier-listed tile first. -/
def insertByRowDesc (t : Tile) : List Tile → List Tile
  | [] => [t]
  | x :: xs =>
    if t.row ≤ x.row then x :: insertByRowDesc t xs else t :: x :: xs

/-- Stable sort by descending row (insertion sort, processing the list
left to right). -/
def sortByRowDesc (l : List Tile) : List Tile :=
  l.foldl (fun acc t => insertByRowDesc t acc) []

/-- One fuelled unfolding of the write-row loop; fuel (w+1).toNat is
enough because each iteration decrements w and the loop stops once
w < 0. -/
def skipRowsFuel (imm : List Int) : Nat → Int → Int
  | 0, w => w
  | fuel + 1, w =>
    if w ∈ imm ∧ 0 ≤ w then skipRowsFuel imm fuel (w - 1) else w

/-- The while loop `while (immovablePositions.has(writeRow) && writeRow
>= 0) writeRow--`. -/
def skipRows (imm : List Int) (w : Int) : Int :=
  skipRowsFuel imm (w + 1).toNat w

theorem skipRows_eq (imm : List Int) (w : Int) :
    skipRows imm w = if w ∈ imm ∧ 0 ≤ w then skipRows imm (w - 1) else w := by
  unfold skipRows
  cases hfuel : (w + 1).toNat with
  | zero =>
    rw [show skipRowsFuel imm 0 w = w from rfl, if_neg]
    intro hcond
    omega
  | succ fuel =>
    rw [show skipRowsFuel imm (fuel + 1) w =
      if w ∈ imm ∧ 0 ≤ w then skipRowsFuel imm fuel (w - 1) else w
      from rfl]
    by_cases hcond : w ∈ imm ∧ 0 ≤ w
    · rw [if_pos hcond, if_pos hcond]
      have hf : fuel = ((w - 1) + 1).toNat := by omega
      rw [hf]
    · rw [if_neg hcond, if_neg hcond]

/-- The per-tile assignment loop of applyGravity: each regular tile of
the column, from bottom-most to top-most, is written to the next free
non-obstacle row (if one remains at row >= 0), by mapping the whole tile
list on tile id. -/
def assignRows (imm : List Int) : List Tile → Int → List Tile → List Tile
  | [], _, tiles => tiles
  | tile :: rest, writeRow, tiles =>
    let w := skipRows imm writeRow
    if 0 ≤ w then
      assignRows imm rest (w - 1)
        (tiles.map (fun t => if t.id = tile.id then { t with row := w } else t))
    else
      assignRows imm rest w tiles

/-- Gravity for a single column: split the column into immovable
(wooden/stone) and regular tiles, sort the regular tiles bottom-to-top,
and reassign their rows from the bottom, skipping obstacle rows. -/
def gravityColumn (rows : Nat) (col : Int) (tiles : List Tile) : List Tile :=
  let tilesInCol := tiles.filter (fun t => t.col == col)
  let immovable := tilesInCol.filter (fun t => isImmovableType t.type)
  let regular := tilesInCol.filter (fun t => !isImmovableType t.type)
  assignRows (immovable.map (fun t => t.row)) (sortByRowDesc regular)
    ((rows : Int) - 1) tiles

/-- Apply gravity: clear the isNew flag on every tile, then compact each
column in order. -/
def applyGravity (tiles : List Tile) (rows cols : Nat) : List Tile :=
  let updated := tiles.map (fun t => { t with isNew := false })
  (List.range cols).foldl
    (fun acc col => gravityColumn rows (Int.ofNat col) acc) updated

/-! ## C9: gravity only moves tiles vertically -/

/-- The tile fields gravity never touches. -/
def tileKey (t : Tile) : Nat × Int × Int := (t.id, t.type, t.col)

theorem map_tileKey_of_pointwise (f : Tile → Tile)
    (hf : ∀ t, tileKey (f t) = tileKey t) (l : List Tile) :
    (l.map f).map tileKey = l.map tileKey := by
  rw [List.map_map]
  apply List.map_congr_left
  intro a _
  exact hf a

theorem assignRows_tileKey (imm : List Int) :
    ∀ (queue : List Tile) (w : Int) (tiles : List Tile),
    (assignRows imm queue w tiles).map tileKey = tiles.map tileKey := by
  intro queue
  induction queue with
  | nil => intro w tiles; rfl
  | cons tile rest ih =>
    intro w tiles
    rw [assignRows]
    split
    · rw [ih]
      exact map_tileKey_of_pointwise _
        (fun t => by unfold tileKey; split <;> rfl) _
    · exact ih _ _

theorem gravityColumn_tileKey (rows : Nat) (col : Int) (tiles : List Tile) :
    (gravityColumn rows col tiles).map tileKey = tiles.map tileKey := by
  unfold gravityColumn
  exact assignRows_tileKey _ _ _ _

theorem gravity_fold_tileKey (rows : Nat) :
    ∀ (idxs : List Nat) (tiles : List Tile),
    ((List.foldl (fun acc col => gravityColumn rows (Int.ofNat col) acc)
      tiles idxs).map tileKey) = tiles.map tileKey := by
  intro idxs
  induction idxs with
  | nil => intro tiles; rfl
  | cons hd tl ih =>
    intro tiles
    rw [List.foldl_cons, ih, gravityColumn_tileKey]

/-- C9: applyGravity returns exactly the same tiles in the same order —
none created, none removed — with every tile's id, type and col
unchanged; only a tile's row (and its isNew flag) may change. -/
theorem applyGravity_frame (tiles : List Tile) (rows cols : Nat) :
    (applyGravity tiles rows cols).map (fun t => (t.id, t.type, t.col))
      = tiles.map (fun t => (t.id, t.type, t.col)) ∧
    (applyGravity tiles rows cols).length = tiles.length := by
  have h : (applyGravity tiles rows cols).map tileKey = tiles.map tileKey := by
    unfold applyGravity
    rw [gravity_fold_tileKey]
    exact map_tileKey_of_pointwise (fun t => { t with isNew := false })
      (fun t => rfl) _
  constructor
  · exact h
  · have := congrArg List.length h
    simpa using this

/-! ## Characterization of the gravity assignment loop -/

theorem skipRows_le (imm : List Int) (w : Int) : skipRows imm w ≤ w := by
  rw [skipRows_eq]
  split
  · next h =>
    have ih := skipRows_le imm (w - 1)
    omega
  · omega
termination_by (w + 1).toNat
decreasing_by
  simp_wf
  omega

theorem skipRows_not_mem (imm : List Int) (w : Int)
    (h : 0 ≤ skipRows imm w) : skipRows imm w ∉ imm := by
  by_cases hc : w ∈ imm ∧ 0 ≤ w
  · rw [skipRows_eq, if_pos hc] at h ⊢
    exact skipRows_not_mem imm (w - 1) h
  · rw [skipRows_eq, if_neg hc] at h ⊢
    intro hm
    exact hc ⟨hm, h⟩
termination_by (w + 1).toNat
decreasing_by
  simp_wf
  omega

theorem skipRows_of_neg (imm : List Int) (w : Int) (h : w < 0) :
    skipRows imm w = w := by
  rw [skipRows_eq, if_neg]
  intro hc
  omega

/-- The canonical row assigned to the i-th regular tile of a column by
the gravity assignment loop, given the obstacle rows and the initial
write row. -/
def canonRow (imm : List Int) (w : Int) : Nat → Int
  | 0 => skipRows imm w
  | i + 1 =>
    if 0 ≤ canonRow imm w i then skipRows imm (canonRow imm w i - 1)
    else canonRow imm w i

/-- The write row left behind after the assignment loop processes one
tile starting from write row w. -/
def nextW (imm : List Int) (w : Int) : Int :=
  if 0 ≤ skipRows imm w then skipRows imm w - 1 else skipRows imm w

theorem canonRow_succ_front (imm : List Int) (w : Int) :
    ∀ i, canonRow imm w (i + 1) = canonRow imm (nextW imm w) i := by
  intro i
  induction i with
  | zero =>
    show (if 0 ≤ skipRows imm w then skipRows imm (skipRows imm w - 1)
      else skipRows imm w) = skipRows imm (nextW imm w)
    unfold nextW
    by_cases h : 0 ≤ skipRows imm w
    · rw [if_pos h, if_pos h]
    · rw [if_neg h, if_neg h, skipRows_of_neg imm (skipRows imm w) (by omega)]
  | succ i ih =>
    show (if 0 ≤ canonRow imm w (i + 1) then
        skipRows imm (canonRow imm w (i + 1) - 1)
      else canonRow imm w (i + 1)) =
      (if 0 ≤ canonRow imm (nextW imm w) i then
        skipRows imm (canonRow imm (nextW imm w) i - 1)
      else canonRow imm (nextW imm w) i)
    rw [ih]

theorem canonRow_not_mem (imm : List Int) (w : Int) (i : Nat)
    (h : 0 ≤ canonRow imm w i) : canonRow imm w i ∉ imm := by
  cases i with
  | zero => exact skipRows_not_mem imm w h
  | succ i =>
    rw [canonRow] at h ⊢
    split at h
    · next hc =>
      rw [if_pos hc]
      exact skipRows_not_mem _ _ h
    · next hc =>
      exact absurd h hc

theorem canonRow_strict_anti (imm : List Int) (w : Int) (i : Nat)
    (h : 0 ≤ canonRow imm w i) : canonRow imm w (i + 1) < canonRow imm w i := by
  rw [canonRow, if_pos h]
  have := skipRows_le imm (canonRow imm w i - 1)
  omega

theorem canonRow_lt_of_lt (imm : List Int) (w : Int) :
    ∀ i j, i < j → (∀ k, k < j → 0 ≤ canonRow imm w k) →
    canonRow imm w j < canonRow imm w i := by
  intro i j
  induction j with
  | zero => intro h; omega
  | succ j ih =>
    intro hij hall
    rcases Nat.lt_or_ge i j with h | h
    · have h1 := ih h (fun k hk => hall k (by omega))
      have h2 := canonRow_strict_anti imm w j (hall j (by omega))
      omega
    · have hj : i = j := by omega
      subst hj
      exact canonRow_strict_anti imm w i (hall i (by omega))

/-- Number of non-obstacle rows in [0, w]. -/
def freeBelowFuel (imm : List Int) : Nat → Int → Nat
  | 0, _ => 0
  | fuel + 1, w =>
    if 0 ≤ w then (if w ∈ imm then 0 else 1) + freeBelowFuel imm fuel (w - 1)
    else 0

/-- Number of non-obstacle rows in [0, w]. -/
def freeBelow (imm : List Int) (w : Int) : Nat :=
  freeBelowFuel imm (w + 1).toNat w

theorem freeBelow_eq (imm : List Int) (w : Int) :
    freeBelow imm w =
      if 0 ≤ w then (if w ∈ imm then 0 else 1) + freeBelow imm (w - 1)
      else 0 := by
  unfold freeBelow
  cases hfuel : (w + 1).toNat with
  | zero =>
    rw [show freeBelowFuel imm 0 w = 0 from rfl, if_neg]
    omega
  | succ fuel =>
    rw [show freeBelowFuel imm (fuel + 1) w =
      (if 0 ≤ w then (if w ∈ imm then 0 else 1) +
        freeBelowFuel imm fuel (w - 1) else 0) from rfl]
    by_cases hcond : 0 ≤ w
    · rw [if_pos hcond, if_pos hcond]
      have hf : fuel = ((w - 1) + 1).toNat := by omega
      rw [hf]
    · rw [if_neg hcond, if_neg hcond]

theorem freeBelow_skipRows (imm : List Int) (w : Int) :
    freeBelow imm (skipRows imm w) = freeBelow imm w := by
  by_cases hc : w ∈ imm ∧ 0 ≤ w
  · rw [skipRows_eq, if_pos hc, freeBelow_skipRows imm (w - 1)]
    rw [show freeBelow imm w =
      (if w ∈ imm then 0 else 1) + freeBelow imm (w - 1) by
        rw [freeBelow_eq, if_pos hc.2]]
    rw [if_pos hc.1]
    omega
  · rw [skipRows_eq, if_neg hc]
termination_by (w + 1).toNat
decreasing_by
  simp_wf
  omega

theorem freeBelow_neg (imm : List Int) (w : Int) (h : w < 0) :
    freeBelow imm w = 0 := by
  rw [freeBelow_eq, if_neg (by omega)]

theorem canonRow_assigned (imm : List Int) (w : Int) :
    ∀ i, i < freeBelow imm w →
    0 ≤ canonRow imm w i ∧
      freeBelow imm (canonRow imm w i) = freeBelow imm w - i := by
  intro i
  induction i with
  | zero =>
    intro h0
    have hs : freeBelow imm (canonRow imm w 0) = freeBelow imm w :=
      freeBelow_skipRows imm w
    refine ⟨?_, by omega⟩
    by_contra hneg
    rw [freeBelow_neg imm _ (by omega)] at hs
    omega
  | succ i ih =>
    intro hi
    obtain ⟨hpos, hfree⟩ := ih (by omega)
    have hnm : canonRow imm w i ∉ imm := canonRow_not_mem imm w i hpos
    have hstep : freeBelow imm (canonRow imm w i) =
        1 + freeBelow imm (canonRow imm w i - 1) := by
      rw [freeBelow_eq, if_pos hpos, if_neg hnm]
    have hv : canonRow imm w (i + 1) = skipRows imm (canonRow imm w i - 1) := by
      rw [canonRow, if_pos hpos]
    have hfs : freeBelow imm (canonRow imm w (i + 1)) =
        freeBelow imm (canonRow imm w i - 1) := by
      rw [hv, freeBelow_skipRows]
    refine ⟨?_, by omega⟩
    by_contra hneg
    rw [freeBelow_neg imm _ (by omega)] at hfs
    omega

/-- First index in a tile list whose tile has the given id. -/
def idIndex (id : Nat) : List Tile → Option Nat
  | [] => none
  | q :: rest =>
    if q.id = id then some 0 else (idIndex id rest).map (· + 1)

theorem idIndex_none_of_not_mem (id : Nat) :
    ∀ q : List Tile, id ∉ q.map Tile.id → idIndex id q = none := by
  intro q
  induction q with
  | nil => intro _; rfl
  | cons hd tl ih =>
    intro h
    rw [idIndex]
    rw [List.map_cons, List.mem_cons] at h
    push_neg at h
    rw [if_neg (fun he => h.1 he.symm), ih h.2]
    rfl

theorem idIndex_spec (id : Nat) :
    ∀ (q : List Tile) (i : Nat), idIndex id q = some i →
    ∃ hlt : i < q.length, (q.get ⟨i, hlt⟩).id = id := by
  intro q
  induction q with
  | nil => intro i h; exact absurd h (by rw [idIndex]; simp)
  | cons hd tl ih =>
    intro i h
    rw [idIndex] at h
    split at h
    · next he =>
      have : i = 0 := by
        have := Option.some_injective _ h.symm
        omega
      subst this
      exact ⟨by simp, he⟩
    · next he =>
      rcases Option.map_eq_some'.mp h with ⟨j, hj, hji⟩
      obtain ⟨hlt, hget⟩ := ih j hj
      subst hji
      exact ⟨by simp [Nat.succ_lt_succ hlt], by simpa using hget⟩

theorem idIndex_mem (q : List Tile) (t : Tile) (ht : t ∈ q) :
    ∃ i, idIndex t.id q = some i := by
  induction q with
  | nil => exact absurd ht (List.not_mem_nil t)
  | cons hd tl ih =>
    rw [idIndex]
    by_cases he : hd.id = t.id
    · exact ⟨0, by rw [if_pos he]⟩
    · rcases List.mem_cons.mp ht with h | h
      · exact absurd (congrArg Tile.id h.symm) he
      · obtain ⟨i, hi⟩ := ih h
        exact ⟨i + 1, by rw [if_neg he, hi]; rfl⟩

/-- The effect of the assignment loop on one tile: if the tile's id is
the i-th of the queue and the i-th canonical row is nonnegative, the
tile moves there; otherwise it is untouched. -/
def applyAssign (imm : List Int) (queue : List Tile) (w : Int) (t : Tile) :
    Tile :=
  match idIndex t.id queue with
  | some i =>
    if 0 ≤ canonRow imm w i then { t with row := canonRow imm w i } else t
  | none => t

theorem applyAssign_of_none (imm : List Int) (queue : List Tile) (w : Int)
    (t : Tile) (h : idIndex t.id queue = none) :
    applyAssign imm queue w t = t := by
  unfold applyAssign
  rw [h]

theorem applyAssign_of_some (imm : List Int) (queue : List Tile) (w : Int)
    (t : Tile) (i : Nat) (h : idIndex t.id queue = some i) :
    applyAssign imm queue w t =
      if 0 ≤ canonRow imm w i then { t with row := canonRow imm w i }
      else t := by
  unfold applyAssign
  rw [h]

theorem assignRows_spec (imm : List Int) :
    ∀ (queue : List Tile) (w : Int) (tiles : List Tile),
    (queue.map Tile.id).Nodup →
    assignRows imm queue w tiles =
      tiles.map (applyAssign imm queue w) := by
  intro queue
  induction queue with
  | nil =>
    intro w tiles _
    rw [assignRows]
    exact ((List.map_congr_left (fun (t : Tile) _ => rfl)).trans
      (List.map_id tiles)).symm
  | cons tile rest ih =>
    intro w tiles hnd
    rw [List.map_cons, List.nodup_cons] at hnd
    rw [assignRows]
    split
    · next hpos =>
      rw [ih _ _ hnd.2, List.map_map]
      apply List.map_congr_left
      intro t _
      show applyAssign imm rest (skipRows imm w - 1)
        (if t.id = tile.id then { t with row := skipRows imm w } else t) =
        applyAssign imm (tile :: rest) w t
      by_cases hid : t.id = tile.id
      · rw [if_pos hid]
        have hnone : idIndex t.id rest = none := by
          rw [hid]
          exact idIndex_none_of_not_mem tile.id rest hnd.1
        have hsome : idIndex t.id (tile :: rest) = some 0 := by
          rw [idIndex, if_pos hid.symm]
        rw [applyAssign_of_none imm rest (skipRows imm w - 1)
            ({ t with row := skipRows imm w }) hnone,
          applyAssign_of_some imm (tile :: rest) w t 0 hsome,
          if_pos (show (0 : Int) ≤ canonRow imm w 0 from hpos)]
        rfl
      · rw [if_neg hid]
        have hcons : idIndex t.id (tile :: rest) =
            (idIndex t.id rest).map (· + 1) := by
          rw [idIndex, if_neg (fun he => hid he.symm)]
        cases hidx : idIndex t.id rest with
        | none =>
          rw [applyAssign_of_none imm rest (skipRows imm w - 1) t hidx,
            applyAssign_of_none imm (tile :: rest) w t
              (by rw [hcons, hidx]; rfl)]
        | some i =>
          have hsome : idIndex t.id (tile :: rest) = some (i + 1) := by
            rw [hcons, hidx]
            rfl
          rw [applyAssign_of_some imm rest (skipRows imm w - 1) t i hidx,
            applyAssign_of_some imm (tile :: rest) w t (i + 1) hsome]
          have hshift : canonRow imm w (i + 1) =
              canonRow imm (skipRows imm w - 1) i := by
            rw [canonRow_succ_front]
            unfold nextW
            rw [if_pos hpos]
          rw [hshift]
    · next hneg =>
      rw [ih _ _ hnd.2]
      apply List.map_congr_left
      intro t _
      show applyAssign imm rest (skipRows imm w) t =
        applyAssign imm (tile :: rest) w t
      by_cases hid : t.id = tile.id
      · have hnone : idIndex t.id rest = none := by
          rw [hid]
          exact idIndex_none_of_not_mem tile.id rest hnd.1
        have hsome : idIndex t.id (tile :: rest) = some 0 := by
          rw [idIndex, if_pos hid.symm]
        rw [applyAssign_of_none imm rest (skipRows imm w) t hnone,
          applyAssign_of_some imm (tile :: rest) w t 0 hsome,
          if_neg (show ¬ (0 : Int) ≤ canonRow imm w 0 from hneg)]
      · have hcons : idIndex t.id (tile :: rest) =
            (idIndex t.id rest).map (· + 1) := by
          rw [idIndex, if_neg (fun he => hid he.symm)]
        cases hidx : idIndex t.id rest with
        | none =>
          rw [applyAssign_of_none imm rest (skipRows imm w) t hidx,
            applyAssign_of_none imm (tile :: rest) w t
              (by rw [hcons, hidx]; rfl)]
        | some i =>
          have hsome : idIndex t.id (tile :: rest) = some (i + 1) := by
            rw [hcons, hidx]
            rfl
          rw [applyAssign_of_some imm rest (skipRows imm w) t i hidx,
            applyAssign_of_some imm (tile :: rest) w t (i + 1) hsome]
          have hshift : canonRow imm w (i + 1) =
              canonRow imm (skipRows imm w) i := by
            rw [canonRow_succ_front]
            unfold nextW
            rw [if_neg hneg]
          rw [hshift]

/-! ## Properties of the row-descending sort -/

theorem insertByRowDesc_perm (t : Tile) :
    ∀ l : List Tile, List.Perm (insertByRowDesc t l) (t :: l) := by
  intro l
  induction l with
  | nil => exact List.Perm.refl _
  | cons x xs ih =>
    rw [insertByRowDesc]
    split
    · exact (List.Perm.cons x ih).trans (List.Perm.swap t x xs)
    · exact List.Perm.refl _

theorem sortByRowDesc_perm_aux :
    ∀ (l acc : List Tile),
    List.Perm (l.foldl (fun acc t => insertByRowDesc t acc) acc) (acc ++ l) := by
  intro l
  induction l with
  | nil =>
    intro acc
    rw [List.foldl_nil, List.append_nil]
  | cons hd tl ih =>
    intro acc
    rw [List.foldl_cons]
    have h1 := ih (insertByRowDesc hd acc)
    have h2 : List.Perm (insertByRowDesc hd acc ++ tl) ((hd :: acc) ++ tl) :=
      (insertByRowDesc_perm hd acc).append_right tl
    have h3 : List.Perm ((hd :: acc) ++ tl) (acc ++ hd :: tl) :=
      List.perm_middle.symm
    exact (h1.trans h2).trans h3

theorem sortByRowDesc_perm (l : List Tile) :
    List.Perm (sortByRowDesc l) l :=
  sortByRowDesc_perm_aux l []

theorem insertByRowDesc_pairwise (t : Tile) :
    ∀ l : List Tile, l.Pairwise (fun a b => b.row ≤ a.row) →
    (insertByRowDesc t l).Pairwise (fun a b => b.row ≤ a.row) := by
  intro l
  induction l with
  | nil =>
    intro _
    exact List.pairwise_singleton _ _
  | cons x xs ih =>
    intro hp
    rw [List.pairwise_cons] at hp
    rw [insertByRowDesc]
    split
    · next hle =>
      rw [List.pairwise_cons]
      refine ⟨?_, ih hp.2⟩
      intro y hy
      rcases List.mem_cons.mp ((insertByRowDesc_perm t xs).mem_iff.mp hy) with
        h | h
      · rw [h]
        exact hle
      · exact hp.1 y h
    · next hgt =>
      rw [List.pairwise_cons]
      refine ⟨?_, List.pairwise_cons.mpr ⟨hp.1, hp.2⟩⟩
      intro y hy
      rcases List.mem_cons.mp hy with h | h
      · rw [h]
        omega
      · have := hp.1 y h
        omega

theorem sortByRowDesc_pairwise_aux :
    ∀ (l acc : List Tile), acc.Pairwise (fun a b => b.row ≤ a.row) →
    (l.foldl (fun acc t => insertByRowDesc t acc) acc).Pairwise
      (fun a b => b.row ≤ a.row) := by
  intro l
  induction l with
  | nil =>
    intro acc h
    exact h
  | cons hd tl ih =>
    intro acc h
    rw [List.foldl_cons]
    exact ih _ (insertByRowDesc_pairwise hd acc h)

theorem sortByRowDesc_pairwise (l : List Tile) :
    (sortByRowDesc l).Pairwise (fun a b => b.row ≤ a.row) :=
  sortByRowDesc_pairwise_aux l [] (List.Pairwise.nil)

theorem pairwise_strict_of_weak_nodup (l : List Tile)
    (hw : l.Pairwise (fun a b => b.row ≤ a.row))
    (hn : (l.map Tile.row).Nodup) :
    l.Pairwise (fun a b => b.row < a.row) := by
  have hn' : l.Pairwise (fun a b => a.row ≠ b.row) := List.pairwise_map.mp hn
  exact (hw.and hn').imp (fun h => by omega)

theorem eq_of_perm_of_pairwise_strict (l1 l2 : List Tile)
    (hp : List.Perm l1 l2)
    (h1 : l1.Pairwise (fun a b => b.row < a.row))
    (h2 : l2.Pairwise (fun a b => b.row < a.row)) : l1 = l2 := by
  haveI : IsAntisymm Tile (fun a b => b.row < a.row) :=
    ⟨fun a b hab hba => absurd hab (by omega)⟩
  exact List.eq_of_perm_of_sorted hp h1 h2

/-! ## Full characterization of applyGravity -/

/-- The isNew-clearing map applied by applyGravity before the column
passes. -/
def clearNew (t : Tile) : Tile := { t with isNew := false }

/-- The obstacle rows of one column, as gravity computes them (read off
the isNew-cleared tiles). -/
def gravityImm (tiles : List Tile) (col : Int) : List Int :=
  (((tiles.map clearNew).filter (fun t => t.col == col)).filter
    (fun t => isImmovableType t.type)).map (fun t => t.row)

/-- The movable tiles of one column in the order gravity assigns them
(bottom-most row first). -/
def gravityQueue (tiles : List Tile) (col : Int) : List Tile :=
  sortByRowDesc (((tiles.map clearNew).filter (fun t => t.col == col)).filter
    (fun t => !isImmovableType t.type))

/-- The final tile produced by gravity for the input tile b of a
processed column: the i-th queued tile of its column lands on the i-th
canonical row when that row is nonnegative. -/
def assignedTile (tiles : List Tile) (rows : Nat) (b : Tile) : Tile :=
  match idIndex b.id (gravityQueue tiles b.col) with
  | some i =>
    if 0 ≤ canonRow (gravityImm tiles b.col) ((rows : Int) - 1) i then
      { b with
        isNew := false,
        row := canonRow (gravityImm tiles b.col) ((rows : Int) - 1) i }
    else { b with isNew := false }
  | none => { b with isNew := false }

/-- Pointwise relation between an intermediate gravity accumulator and
the input tiles, indexed by the already-processed columns. -/
def gravInv (tiles : List Tile) (rows : Nat) (done : List Int)
    (a b : Tile) : Prop :=
  if b.col ∈ done ∧ isImmovableType b.type = false
  then a = assignedTile tiles rows b
  else a = clearNew b

theorem assignedTile_col (tiles : List Tile) (rows : Nat) (b : Tile) :
    (assignedTile tiles rows b).col = b.col := by
  unfold assignedTile
  split
  · split <;> rfl
  · rfl

theorem assignedTile_id (tiles : List Tile) (rows : Nat) (b : Tile) :
    (assignedTile tiles rows b).id = b.id := by
  unfold assignedTile
  split
  · split <;> rfl
  · rfl

theorem gravInv_col {tiles : List Tile} {rows : Nat} {done : List Int}
    {a b : Tile} (h : gravInv tiles rows done a b) : a.col = b.col := by
  unfold gravInv at h
  split at h
  · rw [h]
    exact assignedTile_col tiles rows b
  · rw [h]
    rfl

theorem gravInv_id {tiles : List Tile} {rows : Nat} {done : List Int}
    {a b : Tile} (h : gravInv tiles rows done a b) : a.id = b.id := by
  unfold gravInv at h
  split at h
  · rw [h]
    exact assignedTile_id tiles rows b
  · rw [h]
    rfl

theorem gravInv_filter_col (tiles : List Tile) (rows : Nat)
    (done : List Int) (c : Int) (hc : c ∉ done) :
    ∀ (acc tl : List Tile), List.Forall₂ (gravInv tiles rows done) acc tl →
    acc.filter (fun t => t.col == c) =
      (tl.map clearNew).filter (fun t => t.col == c) := by
  intro acc tl h
  induction h with
  | nil => rfl
  | @cons a b acs bs hab htl ih =>
    rw [List.map_cons, List.filter_cons, List.filter_cons]
    have hcc : (a.col == c) = ((clearNew b).col == c) := by
      rw [gravInv_col hab]
      rfl
    rw [hcc]
    by_cases hbc : ((clearNew b).col == c) = true
    · rw [if_pos hbc, if_pos hbc, ih]
      have hbcol : b.col = c := by
        have : (clearNew b).col = c := by
          exact eq_of_beq hbc
        exact this
      have ha : a = clearNew b := by
        unfold gravInv at hab
        rw [if_neg] at hab
        · exact hab
        · intro hcond
          exact hc (hbcol ▸ hcond.1)
      rw [ha]
    · rw [if_neg hbc, if_neg hbc]
      exact ih

theorem clearNew_map_id (tiles : List Tile) :
    (tiles.map clearNew).map Tile.id = tiles.map Tile.id := by
  rw [List.map_map]
  exact List.map_congr_left (fun t _ => rfl)

theorem gravityQueue_nodup (tiles : List Tile) (c : Int)
    (hids : (tiles.map Tile.id).Nodup) :
    ((gravityQueue tiles c).map Tile.id).Nodup := by
  have hsub : ((((tiles.map clearNew).filter (fun t => t.col == c)).filter
      (fun t => !isImmovableType t.type)).map Tile.id).Sublist
      ((tiles.map clearNew).map Tile.id) :=
    ((List.filter_sublist _).trans (List.filter_sublist _)).map Tile.id
  have hbase : ((tiles.map clearNew).map Tile.id).Nodup := by
    rw [clearNew_map_id]
    exact hids
  have hfil := List.Nodup.sublist hsub hbase
  have hperm := (sortByRowDesc_perm (((tiles.map clearNew).filter
    (fun t => t.col == c)).filter (fun t => !isImmovableType t.type))).map
    Tile.id
  exact hperm.nodup_iff.mpr hfil

theorem mem_gravityQueue {tiles : List Tile} {c : Int} {q : Tile}
    (hq : q ∈ gravityQueue tiles c) :
    ∃ b ∈ tiles, q = clearNew b ∧ isImmovableType b.type = false ∧
      b.col = c := by
  have h1 : q ∈ ((tiles.map clearNew).filter (fun t => t.col == c)).filter
      (fun t => !isImmovableType t.type) :=
    (sortByRowDesc_perm _).subset hq
  rw [List.mem_filter] at h1
  have h2 := h1.1
  rw [List.mem_filter] at h2
  rcases List.mem_map.mp h2.1 with ⟨b, hb, hqb⟩
  refine ⟨b, hb, hqb.symm, ?_, ?_⟩
  · have := h1.2
    rw [← hqb] at this
    show isImmovableType (clearNew b).type = false
    simpa using this
  · have := h2.2
    rw [← hqb] at this
    exact eq_of_beq this

/-- If a tile of the board is immovable or in another column, it is not
in the column's gravity queue (ids are unique). -/
theorem idIndex_gravityQueue_none (tiles : List Tile)
    (hids : (tiles.map Tile.id).Nodup) (c : Int) (b : Tile)
    (hb : b ∈ tiles)
    (hne : isImmovableType b.type = true ∨ ¬ b.col = c) :
    idIndex b.id (gravityQueue tiles c) = none := by
  cases hidx : idIndex b.id (gravityQueue tiles c) with
  | none => rfl
  | some i =>
    exfalso
    obtain ⟨hlt, hget⟩ := idIndex_spec b.id _ i hidx
    set q := (gravityQueue tiles c).get ⟨i, hlt⟩ with hqdef
    have hqmem : q ∈ gravityQueue tiles c := List.get_mem _ _ hlt
    obtain ⟨b', hb', hqb', hmov', hcol'⟩ := mem_gravityQueue hqmem
    have hid' : b'.id = b.id := by
      have : q.id = b.id := hget
      rw [hqb'] at this
      exact this
    have hbb : b' = b :=
      List.inj_on_of_nodup_map hids hb' hb hid'
    rcases hne with h | h
    · rw [hbb] at hmov'
      rw [hmov'] at h
      exact absurd h (by decide)
    · rw [hbb] at hcol'
      exact h hcol'

theorem forall₂_imp_of_mem {R S : Tile → Tile → Prop} (big : List Tile)
    (himp : ∀ a b, b ∈ big → R a b → S a b) :
    ∀ l1 l2, List.Forall₂ R l1 l2 → (∀ b ∈ l2, b ∈ big) →
    List.Forall₂ S l1 l2 := by
  intro l1 l2 h
  induction h with
  | nil =>
    intro _
    exact List.Forall₂.nil
  | @cons a b acs bs hab htl ih =>
    intro hmem
    exact List.Forall₂.cons
      (himp a b (hmem b (List.mem_cons_self b bs)) hab)
      (ih (fun x hx => hmem x (List.mem_cons_of_mem b hx)))

theorem assignedTile_of_none (tiles : List Tile) (rows : Nat) (b : Tile)
    (h : idIndex b.id (gravityQueue tiles b.col) = none) :
    assignedTile tiles rows b = clearNew b := by
  unfold assignedTile
  rw [h]
  rfl

theorem assignedTile_of_some (tiles : List Tile) (rows : Nat) (b : Tile)
    (i : Nat) (h : idIndex b.id (gravityQueue tiles b.col) = some i) :
    assignedTile tiles rows b =
      if 0 ≤ canonRow (gravityImm tiles b.col) ((rows : Int) - 1) i then
        { b with
          isNew := false,
          row := canonRow (gravityImm tiles b.col) ((rows : Int) - 1) i }
      else clearNew b := by
  unfold assignedTile
  rw [h]
  rfl

theorem gravityColumn_eq_map (tiles : List Tile) (rows : Nat)
    (done : List Int) (c : Int) (hc : c ∉ done)
    (hids : (tiles.map Tile.id).Nodup) (acc : List Tile)
    (h : List.Forall₂ (gravInv tiles rows done) acc tiles) :
    gravityColumn rows c acc =
      acc.map (applyAssign (gravityImm tiles c) (gravityQueue tiles c)
        ((rows : Int) - 1)) := by
  have hA := gravInv_filter_col tiles rows done c hc acc tiles h
  have heq : gravityColumn rows c acc =
      assignRows (gravityImm tiles c) (gravityQueue tiles c)
        ((rows : Int) - 1) acc := by
    show assignRows
      (((acc.filter (fun t => t.col == c)).filter
        (fun t => isImmovableType t.type)).map (fun t => t.row))
      (sortByRowDesc ((acc.filter (fun t => t.col == c)).filter
        (fun t => !isImmovableType t.type)))
      ((rows : Int) - 1) acc = _
    rw [hA]
    rfl
  rw [heq]
  exact assignRows_spec _ _ _ _ (gravityQueue_nodup tiles c hids)

theorem gravInv_step_pair (tiles : List Tile) (rows : Nat)
    (hids : (tiles.map Tile.id).Nodup) (done : List Int) (c : Int)
    (hc : c ∉ done) (a b : Tile) (hb : b ∈ tiles)
    (hab : gravInv tiles rows done a b) :
    gravInv tiles rows (done ++ [c])
      (applyAssign (gravityImm tiles c) (gravityQueue tiles c)
        ((rows : Int) - 1) a) b := by
  have haid : a.id = b.id := gravInv_id hab
  by_cases himm : isImmovableType b.type = true
  · have hnone : idIndex a.id (gravityQueue tiles c) = none := by
      rw [haid]
      exact idIndex_gravityQueue_none tiles hids c b hb (Or.inl himm)
    rw [applyAssign_of_none _ _ _ _ hnone]
    have hcondF : ¬ (b.col ∈ done ++ [c] ∧
        isImmovableType b.type = false) := by
      intro hcond
      rw [himm] at hcond
      exact absurd hcond.2 (by decide)
    have hcondF0 : ¬ (b.col ∈ done ∧ isImmovableType b.type = false) := by
      intro hcond
      rw [himm] at hcond
      exact absurd hcond.2 (by decide)
    unfold gravInv at hab ⊢
    rw [if_neg hcondF0] at hab
    rw [if_neg hcondF]
    exact hab
  · have hmovF : isImmovableType b.type = false := by
      cases h2 : isImmovableType b.type with
      | false => rfl
      | true => exact absurd h2 himm
    by_cases hbc : b.col = c
    · have ha : a = clearNew b := by
        unfold gravInv at hab
        rw [if_neg (fun hcond => hc (hbc ▸ hcond.1))] at hab
        exact hab
      have hmemc : b.col ∈ done ++ [c] := by
        rw [hbc]
        exact List.mem_append_right done (List.mem_singleton_self c)
      have hnewcond : b.col ∈ done ++ [c] ∧
          isImmovableType b.type = false := ⟨hmemc, hmovF⟩
      unfold gravInv
      rw [if_pos hnewcond]
      cases hidx : idIndex b.id (gravityQueue tiles c) with
      | none =>
        rw [applyAssign_of_none _ _ _ a (by rw [haid]; exact hidx),
          assignedTile_of_none tiles rows b (by rw [hbc]; exact hidx)]
        exact ha
      | some i =>
        rw [applyAssign_of_some _ _ _ a i (by rw [haid]; exact hidx),
          assignedTile_of_some tiles rows b i (by rw [hbc]; exact hidx)]
        rw [hbc, ha]
        by_cases hcan :
            0 ≤ canonRow (gravityImm tiles c) ((rows : Int) - 1) i
        · rw [if_pos hcan, if_pos hcan, ← hbc]
          rfl
        · rw [if_neg hcan, if_neg hcan]
    · have hnone : idIndex a.id (gravityQueue tiles c) = none := by
        rw [haid]
        exact idIndex_gravityQueue_none tiles hids c b hb (Or.inr hbc)
      rw [applyAssign_of_none _ _ _ _ hnone]
      unfold gravInv at hab ⊢
      by_cases hdone : b.col ∈ done
      · rw [if_pos ⟨hdone, hmovF⟩] at hab
        rw [if_pos ⟨List.mem_append_left _ hdone, hmovF⟩]
        exact hab
      · rw [if_neg (fun hcond => hdone hcond.1)] at hab
        have hnc : ¬ (b.col ∈ done ++ [c] ∧
            isImmovableType b.type = false) := by
          intro hcond
          rcases List.mem_append.mp hcond.1 with h1 | h1
          · exact hdone h1
          · exact hbc (List.mem_singleton.mp h1)
        rw [if_neg hnc]
        exact hab

theorem gravityColumn_char_step (tiles : List Tile) (rows : Nat)
    (hids : (tiles.map Tile.id).Nodup) (done : List Int) (c : Int)
    (hc : c ∉ done) (acc : List Tile)
    (h : List.Forall₂ (gravInv tiles rows done) acc tiles) :
    List.Forall₂ (gravInv tiles rows (done ++ [c]))
      (gravityColumn rows c acc) tiles := by
  rw [gravityColumn_eq_map tiles rows done c hc hids acc h]
  rw [List.forall₂_map_left_iff]
  exact forall₂_imp_of_mem tiles
    (fun a b hbmem hab => gravInv_step_pair tiles rows hids done c hc
      a b hbmem hab)
    acc tiles h (fun b hbmem => hbmem)

theorem gravity_fold_char (tiles : List Tile) (rows : Nat)
    (hids : (tiles.map Tile.id).Nodup) :
    ∀ (idxs : List Nat) (done : List Int) (acc : List Tile),
    (∀ x ∈ idxs, Int.ofNat x ∉ done) →
    (idxs.map Int.ofNat).Nodup →
    List.Forall₂ (gravInv tiles rows done) acc tiles →
    List.Forall₂ (gravInv tiles rows (done ++ idxs.map Int.ofNat))
      (List.foldl (fun acc col => gravityColumn rows (Int.ofNat col) acc)
        acc idxs)
      tiles := by
  intro idxs
  induction idxs with
  | nil =>
    intro done acc _ _ h
    rw [List.foldl_nil, List.map_nil, List.append_nil]
    exact h
  | cons c rest ih =>
    intro done acc hdisj hnd acc_h
    rw [List.foldl_cons, List.map_cons]
    rw [List.map_cons, List.nodup_cons] at hnd
    have hstep := gravityColumn_char_step tiles rows hids done
      (Int.ofNat c) (hdisj c (List.mem_cons_self c rest)) acc acc_h
    have hrec := ih (done ++ [Int.ofNat c]) (gravityColumn rows
        (Int.ofNat c) acc)
      (fun x hx => by
        intro hmem
        rcases List.mem_append.mp hmem with h1 | h1
        · exact hdisj x (List.mem_cons_of_mem c hx) h1
        · exact hnd.1 (List.mem_singleton.mp h1 ▸
            List.mem_map_of_mem Int.ofNat hx))
      hnd.2 hstep
    rw [List.append_cons]
    exact hrec

/-- Full characterization of applyGravity: the output is pointwise
related to the input; immovable tiles and out-of-range columns are
returned isNew-cleared and otherwise untouched, and each movable tile
of a processed column lands on the canonical row of its rank in the
column's bottom-up queue. -/
theorem applyGravity_char (tiles : List Tile) (rows cols : Nat)
    (hids : (tiles.map Tile.id).Nodup) :
    List.Forall₂
      (gravInv tiles rows ((List.range cols).map Int.ofNat))
      (applyGravity tiles rows cols) tiles := by
  have h0 : List.Forall₂ (gravInv tiles rows [])
      (tiles.map clearNew) tiles := by
    rw [List.forall₂_map_left_iff]
    have : ∀ a b : Tile, b ∈ tiles → a = b → gravInv tiles rows []
        (clearNew a) b := by
      intro a b _ hab
      unfold gravInv
      rw [if_neg (fun hcond => List.not_mem_nil b.col hcond.1)]
      rw [hab]
    exact forall₂_imp_of_mem tiles this tiles tiles
      (List.forall₂_same.mpr (fun x _ => rfl)) (fun b hbmem => hbmem)
  have hnd : (((List.range cols)).map Int.ofNat).Nodup :=
    (List.nodup_range cols).map (fun a b hab => Int.ofNat.inj hab)
  have := gravity_fold_char tiles rows hids (List.range cols) []
    (tiles.map clearNew) (fun x _ => List.not_mem_nil _)
    hnd h0
  rw [List.nil_append] at this
  exact this

/-! ## Ranks, queues and obstacle rows: consequences of the
characterization -/

/-- Placeholder tile for index-free list access. -/
def defTile : Tile := ⟨0, 0, 0, 0, false, false⟩

/-- The tiles occupy pairwise distinct cells. -/
def DistinctCells (tiles : List Tile) : Prop :=
  tiles.Pairwise (fun t1 t2 => ¬(t1.row = t2.row ∧ t1.col = t2.col))

/-- Each processed column has at least as many free (non-obstacle)
rows in [0, rows) as it has movable tiles. -/
def NoOverflow (tiles : List Tile) (rows cols : Nat) : Prop :=
  ∀ c : Nat, c < cols →
    (gravityQueue tiles (Int.ofNat c)).length ≤
      freeBelow (gravityImm tiles (Int.ofNat c)) ((rows : Int) - 1)

theorem getD_eq_get (l : List Tile) (i : Nat) (d : Tile)
    (h : i < l.length) : l.getD i d = l.get ⟨i, h⟩ := by
  induction l generalizing i with
  | nil => exact absurd h (by simp)
  | cons hd tl ih =>
    cases i with
    | zero => rfl
    | succ i => exact ih i (by simpa using h)

theorem forall₂_get {R : Tile → Tile → Prop} :
    ∀ l1 l2, List.Forall₂ R l1 l2 →
    ∀ (i : Nat) (h1 : i < l1.length) (h2 : i < l2.length),
    R (l1.get ⟨i, h1⟩) (l2.get ⟨i, h2⟩) := by
  intro l1 l2 h
  induction h with
  | nil =>
    intro i h1
    exact absurd h1 (by simp)
  | cons hab htl ih =>
    intro i h1 h2
    cases i with
    | zero => exact hab
    | succ i => exact ih i (by simpa using h1) (by simpa using h2)

theorem mem_range_ofNat {x : Int} {cols : Nat} :
    x ∈ (List.range cols).map Int.ofNat ↔ 0 ≤ x ∧ x < (cols : Int) := by
  rw [List.mem_map]
  constructor
  · rintro ⟨n, hn, rfl⟩
    rw [List.mem_range] at hn
    refine ⟨?_, ?_⟩
    · show (0 : Int) ≤ (n : Int)
      omega
    · show ((n : Int)) < (cols : Int)
      omega
  · rintro ⟨h0, hlt⟩
    refine ⟨x.toNat, List.mem_range.mpr (by omega), ?_⟩
    show ((x.toNat : Int)) = x
    omega

theorem applyAssign_id (imm : List Int) (queue : List Tile) (w : Int)
    (t : Tile) : (applyAssign imm queue w t).id = t.id := by
  unfold applyAssign
  split
  · split <;> rfl
  · rfl

theorem idIndex_map_of_id (f : Tile → Tile) (hf : ∀ t, (f t).id = t.id)
    (id : Nat) : ∀ l : List Tile, idIndex id (l.map f) = idIndex id l := by
  intro l
  induction l with
  | nil => rfl
  | cons hd tl ih =>
    rw [List.map_cons, idIndex, idIndex, hf hd, ih]

theorem get_of_idIndex (q : List Tile) (hq : (q.map Tile.id).Nodup)
    (t : Tile) (ht : t ∈ q) (i : Nat) (hi : idIndex t.id q = some i) :
    ∃ h : i < q.length, q.get ⟨i, h⟩ = t := by
  obtain ⟨hlt, hget⟩ := idIndex_spec t.id q i hi
  exact ⟨hlt, List.inj_on_of_nodup_map hq (List.get_mem _ _ hlt) ht hget⟩

theorem clearNew_mem_gravityQueue (tiles : List Tile) (c : Int) (b : Tile)
    (hb : b ∈ tiles) (hmov : isImmovableType b.type = false)
    (hcol : b.col = c) : clearNew b ∈ gravityQueue tiles c := by
  have h1 : clearNew b ∈ tiles.map clearNew :=
    List.mem_map_of_mem clearNew hb
  have h2 : clearNew b ∈ (tiles.map clearNew).filter
      (fun t => t.col == c) := by
    rw [List.mem_filter]
    refine ⟨h1, ?_⟩
    show (b.col == c) = true
    rw [hcol]
    exact beq_self_eq_true c
  have h3 : clearNew b ∈ ((tiles.map clearNew).filter
      (fun t => t.col == c)).filter (fun t => !isImmovableType t.type) := by
    rw [List.mem_filter]
    refine ⟨h2, ?_⟩
    show (!isImmovableType b.type) = true
    rw [hmov]
    rfl
  exact ((sortByRowDesc_perm _).mem_iff).mpr h3

theorem obstacle_row_mem_gravityImm (tiles : List Tile) (c : Int)
    (b : Tile) (hb : b ∈ tiles) (himm : isImmovableType b.type = true)
    (hcol : b.col = c) : b.row ∈ gravityImm tiles c := by
  unfold gravityImm
  apply List.mem_map.mpr
  refine ⟨clearNew b, ?_, rfl⟩
  rw [List.mem_filter]
  constructor
  · rw [List.mem_filter]
    refine ⟨List.mem_map_of_mem clearNew hb, ?_⟩
    show (b.col == c) = true
    rw [hcol]
    exact beq_self_eq_true c
  · show isImmovableType b.type = true
    exact himm

theorem gravityQueue_rows_nodup (tiles : List Tile) (c : Int)
    (hcells : DistinctCells tiles) :
    (gravityQueue tiles c).Pairwise (fun a b => a.row ≠ b.row) := by
  have h1 : (tiles.map clearNew).Pairwise
      (fun t1 t2 => ¬(t1.row = t2.row ∧ t1.col = t2.col)) := by
    rw [List.pairwise_map]
    exact hcells.imp (fun h => h)
  have h2 : (((tiles.map clearNew).filter (fun t => t.col == c)).filter
      (fun t => !isImmovableType t.type)).Pairwise
      (fun t1 t2 => ¬(t1.row = t2.row ∧ t1.col = t2.col)) :=
    List.Pairwise.sublist
      ((List.filter_sublist _).trans (List.filter_sublist _)) h1
  have h3 : (((tiles.map clearNew).filter (fun t => t.col == c)).filter
      (fun t => !isImmovableType t.type)).Pairwise
      (fun a b => a.row ≠ b.row) := by
    apply List.Pairwise.imp_of_mem ?_ h2
    intro a b ha hb hR hrow
    have hac : a.col = c := by
      have := (List.mem_filter.mp ((List.filter_sublist _).subset ha)).2
      exact eq_of_beq this
    have hbc : b.col = c := by
      have := (List.mem_filter.mp ((List.filter_sublist _).subset hb)).2
      exact eq_of_beq this
    exact hR ⟨hrow, by rw [hac, hbc]⟩
  exact ((sortByRowDesc_perm _).pairwise_iff
    (fun hxy => hxy.symm)).mpr h3

theorem gravityQueue_strict (tiles : List Tile) (c : Int)
    (hcells : DistinctCells tiles) :
    (gravityQueue tiles c).Pairwise (fun a b => b.row < a.row) := by
  apply pairwise_strict_of_weak_nodup
  · exact sortByRowDesc_pairwise _
  · exact List.pairwise_map.mpr (gravityQueue_rows_nodup tiles c hcells)

/-- For a movable tile of a processed column, the full shape of its
gravity destination: it has a rank in its column queue, the queue entry
of that rank is the tile itself, and (given no overflow) it is assigned
the canonical row of its rank, which is nonnegative and not an obstacle
row. -/
theorem assigned_row_spec (tiles : List Tile) (rows cols : Nat)
    (hids : (tiles.map Tile.id).Nodup) (hnof : NoOverflow tiles rows cols)
    (b : Tile) (hb : b ∈ tiles) (hmov : isImmovableType b.type = false)
    (h0 : 0 ≤ b.col) (hlt : b.col < (cols : Int)) :
    ∃ k : Nat, k < (gravityQueue tiles b.col).length ∧
      idIndex b.id (gravityQueue tiles b.col) = some k ∧
      (gravityQueue tiles b.col).getD k defTile = clearNew b ∧
      assignedTile tiles rows b =
        { b with
          isNew := false,
          row := canonRow (gravityImm tiles b.col) ((rows : Int) - 1) k } ∧
      0 ≤ canonRow (gravityImm tiles b.col) ((rows : Int) - 1) k ∧
      canonRow (gravityImm tiles b.col) ((rows : Int) - 1) k ∉
        gravityImm tiles b.col := by
  have hqmem := clearNew_mem_gravityQueue tiles b.col b hb hmov rfl
  obtain ⟨k, hk⟩ := idIndex_mem _ _ hqmem
  have hk' : idIndex b.id (gravityQueue tiles b.col) = some k := hk
  have hqnd := gravityQueue_nodup tiles b.col hids
  obtain ⟨hklt, hget⟩ := get_of_idIndex _ hqnd _ hqmem k hk'
  have hbound : (gravityQueue tiles b.col).length ≤
      freeBelow (gravityImm tiles b.col) ((rows : Int) - 1) := by
    have hc := hnof b.col.toNat (by omega)
    have hcast : Int.ofNat b.col.toNat = b.col := by
      show ((b.col.toNat : Int)) = b.col
      omega
    rw [hcast] at hc
    exact hc
  have hcan := canonRow_assigned (gravityImm tiles b.col) ((rows : Int) - 1)
    k (by omega)
  refine ⟨k, hklt, hk',
    (by rw [getD_eq_get _ k _ hklt]; exact hget), ?_, hcan.1, ?_⟩
  · rw [assignedTile_of_some tiles rows b k hk', if_pos hcan.1]
  · exact canonRow_not_mem _ _ _ hcan.1

theorem noOverflow_at (tiles : List Tile) (rows cols : Nat)
    (hnof : NoOverflow tiles rows cols) (c : Int) (h0 : 0 ≤ c)
    (hlt : c < (cols : Int)) :
    (gravityQueue tiles c).length ≤
      freeBelow (gravityImm tiles c) ((rows : Int) - 1) := by
  have hc := hnof c.toNat (by omega)
  have hcast : Int.ofNat c.toNat = c := by
    show ((c.toNat : Int)) = c
    omega
  rw [hcast] at hc
  exact hc

/-- Without any overflow assumption, a movable tile of a processed
column either receives a canonical row, which is never an obstacle row
of its column, or (when the column ran out of nonnegative write rows)
keeps its original row. -/
theorem assignedTile_row_cases (tiles : List Tile) (rows : Nat)
    (b : Tile) (hb : b ∈ tiles) (hmov : isImmovableType b.type = false) :
    ((assignedTile tiles rows b).row ∉ gravityImm tiles b.col) ∨
    (assignedTile tiles rows b).row = b.row := by
  have hqmem := clearNew_mem_gravityQueue tiles b.col b hb hmov rfl
  obtain ⟨k, hk⟩ := idIndex_mem _ _ hqmem
  have hk' : idIndex b.id (gravityQueue tiles b.col) = some k := hk
  rw [assignedTile_of_some tiles rows b k hk']
  by_cases hpos : 0 ≤ canonRow (gravityImm tiles b.col) ((rows : Int) - 1) k
  · rw [if_pos hpos]
    left
    show canonRow (gravityImm tiles b.col) ((rows : Int) - 1) k ∉
      gravityImm tiles b.col
    exact canonRow_not_mem _ _ _ hpos
  · rw [if_neg hpos]
    right
    rfl

/-! ## C6: gravity, obstacles, and vertical order -/

/-- A one-column board on which gravity strictly inverts the vertical
order of two movable tiles: three movable tiles at rows 5, 4, 3 with
only two board rows; the two bottom-most queue entries are assigned
rows 1 and 0 and the third keeps row 3, ending up below both. -/
def c6Tiles : List Tile :=
  [⟨0, 5, 5, 0, false, false⟩, ⟨1, 5, 4, 0, false, false⟩,
    ⟨2, 5, 3, 0, false, false⟩]

/-- C6 counterexample: on c6Tiles (rows = 2, cols = 1) tile 0 and tile 2
are movable, share a column, and tile 0 starts strictly below tile 2,
yet after applyGravity tile 0 is no longer strictly below tile 2: the
relative vertical order of movable tiles in a column is not preserved
in general. -/
theorem applyGravity_order_counterexample :
    isImmovableType (c6Tiles.getD 0 defTile).type = false ∧
    isImmovableType (c6Tiles.getD 2 defTile).type = false ∧
    (c6Tiles.getD 0 defTile).col = (c6Tiles.getD 2 defTile).col ∧
    (c6Tiles.getD 2 defTile).row < (c6Tiles.getD 0 defTile).row ∧
    ¬ (((applyGravity c6Tiles 2 1).getD 2 defTile).row <
       ((applyGravity c6Tiles 2 1).getD 0 defTile).row) := by
  decide

/-- C6 (amended): on a board whose tiles have pairwise distinct ids and
pairwise distinct cells, applyGravity keeps every wooden/stone tile's
row and col unchanged and a movable tile never ends on a row that an
obstacle of its column occupies; if additionally no processed column
has more movable tiles than free rows, the strict bottom-to-top order
of the movable tiles of each column is preserved. -/
theorem applyGravity_obstacles_order (tiles : List Tile) (rows cols : Nat)
    (hids : (tiles.map Tile.id).Nodup) (hcells : DistinctCells tiles) :
    (applyGravity tiles rows cols).length = tiles.length ∧
    (∀ i : Nat, i < tiles.length →
      isImmovableType (tiles.getD i defTile).type = true →
      ((applyGravity tiles rows cols).getD i defTile).row =
          (tiles.getD i defTile).row ∧
        ((applyGravity tiles rows cols).getD i defTile).col =
          (tiles.getD i defTile).col) ∧
    (∀ i j : Nat, i < tiles.length → j < tiles.length →
      isImmovableType (tiles.getD i defTile).type = true →
      isImmovableType (tiles.getD j defTile).type = false →
      (tiles.getD j defTile).col = (tiles.getD i defTile).col →
      ¬ ((applyGravity tiles rows cols).getD j defTile).row =
        (tiles.getD i defTile).row) ∧
    (NoOverflow tiles rows cols →
      ∀ i j : Nat, i < tiles.length → j < tiles.length →
      isImmovableType (tiles.getD i defTile).type = false →
      isImmovableType (tiles.getD j defTile).type = false →
      (tiles.getD i defTile).col = (tiles.getD j defTile).col →
      (tiles.getD j defTile).row < (tiles.getD i defTile).row →
      ((applyGravity tiles rows cols).getD j defTile).row <
        ((applyGravity tiles rows cols).getD i defTile).row) := by
  have hchar := applyGravity_char tiles rows cols hids
  have hlen : (applyGravity tiles rows cols).length = tiles.length :=
    hchar.length_eq
  have hrel : ∀ i : Nat, i < tiles.length →
      gravInv tiles rows ((List.range cols).map Int.ofNat)
        ((applyGravity tiles rows cols).getD i defTile)
        (tiles.getD i defTile) := by
    intro i h
    have h1 : i < (applyGravity tiles rows cols).length := by omega
    rw [getD_eq_get _ i _ h1, getD_eq_get _ i _ h]
    exact forall₂_get _ _ hchar i h1 h
  have hmemt : ∀ i : Nat, i < tiles.length →
      tiles.getD i defTile ∈ tiles := by
    intro i h
    rw [getD_eq_get _ i _ h]
    exact List.get_mem _ _ _
  have hpair := List.pairwise_iff_get.mp hcells
  refine ⟨hlen, ?_, ?_, ?_⟩
  · -- obstacles keep row and col
    intro i h himm
    have hr := hrel i h
    unfold gravInv at hr
    rw [if_neg (fun hcond => by
      rw [himm] at hcond
      exact absurd hcond.2 (by decide))] at hr
    rw [hr]
    exact ⟨rfl, rfl⟩
  · -- movable tiles never land on an obstacle row of their column
    intro i j hi hj himm hmov hcol
    have hrj := hrel j hj
    unfold gravInv at hrj
    have horig : ¬ (tiles.getD j defTile).row =
        (tiles.getD i defTile).row := by
      intro heq
      have hij : ¬ i = j := by
        intro he
        rw [he] at himm
        rw [himm] at hmov
        exact absurd hmov (by decide)
      rcases Nat.lt_or_ge i j with hlt | hge
      · exact hpair ⟨i, hi⟩ ⟨j, hj⟩ hlt
          ⟨by rw [getD_eq_get _ i _ hi, getD_eq_get _ j _ hj] at heq
              exact heq.symm,
            by rw [getD_eq_get _ i _ hi, getD_eq_get _ j _ hj] at hcol
               exact hcol.symm⟩
      · have hlt : j < i := by omega
        exact hpair ⟨j, hj⟩ ⟨i, hi⟩ hlt
          ⟨by rw [getD_eq_get _ i _ hi, getD_eq_get _ j _ hj] at heq
              exact heq,
            by rw [getD_eq_get _ i _ hi, getD_eq_get _ j _ hj] at hcol
               exact hcol⟩
    by_cases hdone : (tiles.getD j defTile).col ∈
        (List.range cols).map Int.ofNat
    · rw [if_pos ⟨hdone, hmov⟩] at hrj
      rcases assignedTile_row_cases tiles rows _ (hmemt j hj) hmov with
        hcase | hcase
      · rw [hrj]
        intro heq
        have hmem := obstacle_row_mem_gravityImm tiles
          ((tiles.getD j defTile).col) _ (hmemt i hi) himm hcol.symm
        rw [← heq] at hmem
        exact hcase hmem
      · rw [hrj, hcase]
        exact horig
    · rw [if_neg (fun hcond => hdone hcond.1)] at hrj
      rw [hrj]
      show ¬ (tiles.getD j defTile).row = (tiles.getD i defTile).row
      exact horig
  · -- relative vertical order of movables in a column is preserved
    intro hnof i j hi hj hmovi hmovj hcol hrowlt
    have hri := hrel i hi
    have hrj := hrel j hj
    unfold gravInv at hri hrj
    by_cases hdone : (tiles.getD i defTile).col ∈
        (List.range cols).map Int.ofNat
    · have hdonej : (tiles.getD j defTile).col ∈
          (List.range cols).map Int.ofNat := by
        rw [← hcol]
        exact hdone
      rw [if_pos ⟨hdone, hmovi⟩] at hri
      rw [if_pos ⟨hdonej, hmovj⟩] at hrj
      obtain ⟨hd0, hdlt⟩ := mem_range_ofNat.mp hdone
      obtain ⟨ki, hki, hidxi, hgeti, hassigni, hcani, _⟩ :=
        assigned_row_spec tiles rows cols hids hnof _ (hmemt i hi)
          hmovi hd0 hdlt
      obtain ⟨hd0j, hdltj⟩ := mem_range_ofNat.mp hdonej
      obtain ⟨kj, hkj, hidxj, hgetj, hassignj, hcanj, _⟩ :=
        assigned_row_spec tiles rows cols hids hnof _ (hmemt j hj)
          hmovj hd0j hdltj
      rw [← hcol] at hkj hidxj hgetj hassignj hcanj
      have hbound := noOverflow_at tiles rows cols hnof
        ((tiles.getD i defTile).col) hd0 hdlt
      have hmono := List.pairwise_iff_get.mp
        (gravityQueue_strict tiles ((tiles.getD i defTile).col) hcells)
      have hkik : ki < kj := by
        rcases Nat.lt_trichotomy ki kj with h | h | h
        · exact h
        · exfalso
          subst h
          have hrr0 := congrArg Tile.row (hgeti.symm.trans hgetj)
          have hrr : (tiles.getD i defTile).row =
              (tiles.getD j defTile).row := hrr0
          omega
        · exfalso
          have hm := hmono ⟨kj, hkj⟩ ⟨ki, hki⟩ h
          rw [← getD_eq_get _ ki _ hki, ← getD_eq_get _ kj _ hkj] at hm
          rw [hgeti, hgetj] at hm
          have hrr : (tiles.getD i defTile).row <
              (tiles.getD j defTile).row := hm
          omega
      have hcanlt := canonRow_lt_of_lt
        (gravityImm tiles ((tiles.getD i defTile).col))
        ((rows : Int) - 1) ki kj hkik
        (fun k hkk =>
          (canonRow_assigned _ _ k (by omega)).1)
      rw [hri, hassigni, hrj, hassignj]
      exact hcanlt
    · have hdonej : ¬ (tiles.getD j defTile).col ∈
          (List.range cols).map Int.ofNat := by
        rw [← hcol]
        exact hdone
      rw [if_neg (fun hcond => hdone hcond.1)] at hri
      rw [if_neg (fun hcond => hdonej hcond.1)] at hrj
      rw [hri, hrj]
      exact hrowlt

/-- A concrete two-tile board (a wooden obstacle above a movable tile)
instantiating the amended C6 theorem. -/
def c6Board : List Tile :=
  [⟨0, 200, 1, 0, false, false⟩, ⟨1, 5, 0, 0, false, false⟩]

theorem applyGravity_obstacles_order_witness :
    ((applyGravity c6Board 2 1).getD 0 defTile).row =
      (c6Board.getD 0 defTile).row ∧
    ((applyGravity c6Board 2 1).getD 0 defTile).col =
      (c6Board.getD 0 defTile).col :=
  (applyGravity_obstacles_order c6Board 2 1 (by decide)
    (by unfold DistinctCells; decide)).2.1 0 (by decide) (by decide)

/-! ## Stability of the gravity data under a second pass -/

theorem assignedTile_type (tiles : List Tile) (rows : Nat) (b : Tile) :
    (assignedTile tiles rows b).type = b.type := by
  unfold assignedTile
  split
  · split <;> rfl
  · rfl

theorem assignedTile_isNew (tiles : List Tile) (rows : Nat) (b : Tile) :
    (assignedTile tiles rows b).isNew = false := by
  unfold assignedTile
  split
  · split <;> rfl
  · rfl

theorem gravInv_type {tiles : List Tile} {rows : Nat} {done : List Int}
    {a b : Tile} (h : gravInv tiles rows done a b) : a.type = b.type := by
  unfold gravInv at h
  split at h
  · rw [h]
    exact assignedTile_type tiles rows b
  · rw [h]
    rfl

theorem gravInv_isNew {tiles : List Tile} {rows : Nat} {done : List Int}
    {a b : Tile} (h : gravInv tiles rows done a b) : a.isNew = false := by
  unfold gravInv at h
  split at h
  · rw [h]
    exact assignedTile_isNew tiles rows b
  · rw [h]
    rfl

theorem clearNew_eq_self (t : Tile) (h : t.isNew = false) :
    clearNew t = t := by
  cases t with
  | mk tid tty trow tcol trem tnew =>
    have h2 : tnew = false := h
    rw [show clearNew ⟨tid, tty, trow, tcol, trem, tnew⟩ =
      ⟨tid, tty, trow, tcol, trem, false⟩ from rfl, h2]

theorem map_clearNew_self (l : List Tile) (h : ∀ a ∈ l, a.isNew = false) :
    l.map clearNew = l :=
  (List.map_congr_left (fun a ha => clearNew_eq_self a (h a ha))).trans
    (List.map_id l)

theorem forall₂_mem_left {R : Tile → Tile → Prop} :
    ∀ l1 l2, List.Forall₂ R l1 l2 → ∀ a ∈ l1, ∃ b ∈ l2, R a b := by
  intro l1 l2 h
  induction h with
  | nil =>
    intro a ha
    exact absurd ha (List.not_mem_nil a)
  | @cons x y xs ys hxy htl ih =>
    intro a ha
    rcases List.mem_cons.mp ha with h1 | h1
    · exact ⟨y, List.mem_cons_self y ys, h1 ▸ hxy⟩
    · obtain ⟨b, hb, hab⟩ := ih a h1
      exact ⟨b, List.mem_cons_of_mem y hb, hab⟩

theorem applyGravity_tileKey (tiles : List Tile) (rows cols : Nat) :
    (applyGravity tiles rows cols).map tileKey = tiles.map tileKey := by
  unfold applyGravity
  rw [gravity_fold_tileKey]
  exact map_tileKey_of_pointwise (fun t => { t with isNew := false })
    (fun t => rfl) _

theorem applyGravity_map_id (tiles : List Tile) (rows cols : Nat) :
    (applyGravity tiles rows cols).map Tile.id = tiles.map Tile.id := by
  have h2 := congrArg (List.map (fun p : Nat × Int × Int => p.1))
    (applyGravity_tileKey tiles rows cols)
  rw [List.map_map, List.map_map] at h2
  exact h2

theorem applyGravity_isNew_false (tiles : List Tile) (rows cols : Nat)
    (hids : (tiles.map Tile.id).Nodup) :
    ∀ a ∈ applyGravity tiles rows cols, a.isNew = false := by
  intro a ha
  obtain ⟨b, _, hab⟩ := forall₂_mem_left _ _
    (applyGravity_char tiles rows cols hids) a ha
  exact gravInv_isNew hab

theorem idIndex_get (q : List Tile) (hq : (q.map Tile.id).Nodup) :
    ∀ (i : Nat) (h : i < q.length),
    idIndex (q.get ⟨i, h⟩).id q = some i := by
  induction q with
  | nil =>
    intro i h
    exact absurd h (by simp)
  | cons hd tl ih =>
    rw [List.map_cons, List.nodup_cons] at hq
    intro i h
    cases i with
    | zero =>
      have hg : ((hd :: tl).get ⟨0, h⟩) = hd := rfl
      rw [hg, idIndex, if_pos rfl]
    | succ i =>
      have hget : ((hd :: tl).get ⟨i + 1, h⟩) =
          tl.get ⟨i, by simpa using h⟩ := rfl
      rw [idIndex, hget, if_neg, ih hq.2 i _]
      · rfl
      · intro he
        apply hq.1
        rw [he]
        exact List.mem_map_of_mem Tile.id (List.get_mem tl i _)

theorem gravInv_filter_pred (tiles : List Tile) (rows : Nat)
    (done : List Int) (c : Int) :
    ∀ (acc tl : List Tile), List.Forall₂ (gravInv tiles rows done) acc tl →
    acc.filter (fun t => isImmovableType t.type && (t.col == c)) =
      (tl.map clearNew).filter
        (fun t => isImmovableType t.type && (t.col == c)) := by
  intro acc tl h
  induction h with
  | nil => rfl
  | @cons a b acs bs hab htl ih =>
    rw [List.map_cons, List.filter_cons, List.filter_cons]
    have hcc : (isImmovableType a.type && (a.col == c)) =
        (isImmovableType (clearNew b).type && ((clearNew b).col == c)) := by
      rw [gravInv_col hab, gravInv_type hab]
      rfl
    rw [hcc]
    by_cases hp : (isImmovableType (clearNew b).type &&
        ((clearNew b).col == c)) = true
    · rw [if_pos hp, if_pos hp, ih]
      have himm : isImmovableType b.type = true :=
        ((Bool.and_eq_true _ _).mp hp).1
      have ha : a = clearNew b := by
        unfold gravInv at hab
        rw [if_neg (fun hcond => by
          rw [himm] at hcond
          exact absurd hcond.2 (by decide))] at hab
        exact hab
      rw [ha]
    · rw [if_neg hp, if_neg hp]
      exact ih

theorem gravityImm_stable (tiles : List Tile) (rows cols : Nat)
    (hids : (tiles.map Tile.id).Nodup) (c : Int) :
    gravityImm (applyGravity tiles rows cols) c = gravityImm tiles c := by
  have hchar := applyGravity_char tiles rows cols hids
  have hnew := map_clearNew_self (applyGravity tiles rows cols)
    (applyGravity_isNew_false tiles rows cols hids)
  unfold gravityImm
  rw [hnew, List.filter_filter, List.filter_filter]
  exact congrArg (List.map (fun t => t.row))
    (gravInv_filter_pred tiles rows _ c _ _ hchar)

theorem gravInv_filter_assigned (tiles : List Tile) (rows : Nat)
    (done : List Int) (c : Int) (hc : c ∈ done) :
    ∀ (acc tl : List Tile), List.Forall₂ (gravInv tiles rows done) acc tl →
    acc.filter (fun t => !isImmovableType t.type && (t.col == c)) =
      (tl.filter (fun t => !isImmovableType t.type && (t.col == c))).map
        (fun b => assignedTile tiles rows b) := by
  intro acc tl h
  induction h with
  | nil => rfl
  | @cons a b acs bs hab htl ih =>
    rw [List.filter_cons, List.filter_cons]
    have hcc : (!isImmovableType a.type && (a.col == c)) =
        (!isImmovableType b.type && (b.col == c)) := by
      rw [gravInv_col hab, gravInv_type hab]
    rw [hcc]
    by_cases hp : (!isImmovableType b.type && (b.col == c)) = true
    · rw [if_pos hp, if_pos hp, List.map_cons, ih]
      obtain ⟨hmov', hcol'⟩ := (Bool.and_eq_true _ _).mp hp
      have hmov : isImmovableType b.type = false := by
        simpa using hmov'
      have hcol : b.col = c := eq_of_beq hcol'
      have ha : a = assignedTile tiles rows b := by
        unfold gravInv at hab
        rw [if_pos ⟨hcol ▸ hc, hmov⟩] at hab
        exact hab
      rw [ha]
    · rw [if_neg hp, if_neg hp]
      exact ih

theorem applyAssign_clearNew_eq_assigned (tiles : List Tile) (rows : Nat)
    (b : Tile) (c : Int) (hbc : b.col = c) :
    applyAssign (gravityImm tiles c) (gravityQueue tiles c)
      ((rows : Int) - 1) (clearNew b) = assignedTile tiles rows b := by
  cases hidx : idIndex b.id (gravityQueue tiles c) with
  | none =>
    rw [applyAssign_of_none (gravityImm tiles c) (gravityQueue tiles c)
      ((rows : Int) - 1) (clearNew b) hidx,
      assignedTile_of_none tiles rows b (by rw [hbc]; exact hidx)]
  | some i =>
    rw [applyAssign_of_some (gravityImm tiles c) (gravityQueue tiles c)
      ((rows : Int) - 1) (clearNew b) i hidx,
      assignedTile_of_some tiles rows b i (by rw [hbc]; exact hidx),
      show gravityImm tiles b.col = gravityImm tiles c from by rw [hbc]]
    by_cases hcan : 0 ≤ canonRow (gravityImm tiles c) ((rows : Int) - 1) i
    · rw [if_pos hcan, if_pos hcan]
      rfl
    · rw [if_neg hcan, if_neg hcan]

theorem queue_assigned_strict (tiles : List Tile) (rows cols : Nat)
    (hids : (tiles.map Tile.id).Nodup) (hnof : NoOverflow tiles rows cols)
    (c : Int) (h0 : 0 ≤ c) (hlt : c < (cols : Int)) :
    ((gravityQueue tiles c).map
      (applyAssign (gravityImm tiles c) (gravityQueue tiles c)
        ((rows : Int) - 1))).Pairwise (fun a b => b.row < a.row) := by
  have hqnd := gravityQueue_nodup tiles c hids
  have hbound := noOverflow_at tiles rows cols hnof c h0 hlt
  apply List.pairwise_map.mpr
  apply List.pairwise_iff_get.mpr
  intro i j hij
  have hij' : i.1 < j.1 := hij
  have hii := i.2
  have hjj := j.2
  have hfi := applyAssign_of_some (gravityImm tiles c)
    (gravityQueue tiles c) ((rows : Int) - 1)
    ((gravityQueue tiles c).get i) i.1 (idIndex_get _ hqnd i.1 i.2)
  have hfj := applyAssign_of_some (gravityImm tiles c)
    (gravityQueue tiles c) ((rows : Int) - 1)
    ((gravityQueue tiles c).get j) j.1 (idIndex_get _ hqnd j.1 j.2)
  have hci : 0 ≤ canonRow (gravityImm tiles c) ((rows : Int) - 1) i.1 :=
    (canonRow_assigned _ _ i.1 (by omega)).1
  have hcj : 0 ≤ canonRow (gravityImm tiles c) ((rows : Int) - 1) j.1 :=
    (canonRow_assigned _ _ j.1 (by omega)).1
  rw [hfi, hfj, if_pos hci, if_pos hcj]
  show canonRow (gravityImm tiles c) ((rows : Int) - 1) j.1 <
    canonRow (gravityImm tiles c) ((rows : Int) - 1) i.1
  exact canonRow_lt_of_lt _ _ i.1 j.1 hij'
    (fun k hk => (canonRow_assigned _ _ k (by omega)).1)

theorem gravityQueue_stable (tiles : List Tile) (rows cols : Nat)
    (hids : (tiles.map Tile.id).Nodup) (hnof : NoOverflow tiles rows cols)
    (c : Int) (h0 : 0 ≤ c) (hlt : c < (cols : Int)) :
    gravityQueue (applyGravity tiles rows cols) c =
      (gravityQueue tiles c).map
        (applyAssign (gravityImm tiles c) (gravityQueue tiles c)
          ((rows : Int) - 1)) := by
  have hchar := applyGravity_char tiles rows cols hids
  have hnew := map_clearNew_self (applyGravity tiles rows cols)
    (applyGravity_isNew_false tiles rows cols hids)
  have hcdone : c ∈ (List.range cols).map Int.ofNat :=
    mem_range_ofNat.mpr ⟨h0, hlt⟩
  -- the unsorted column movables of the output are exactly the
  -- assigned versions of the input column movables, in input order
  have hM : (((applyGravity tiles rows cols).map clearNew).filter
      (fun t => t.col == c)).filter (fun t => !isImmovableType t.type) =
      (tiles.filter (fun t => !isImmovableType t.type && (t.col == c))).map
        (fun b => assignedTile tiles rows b) := by
    rw [hnew, List.filter_filter]
    exact gravInv_filter_assigned tiles rows _ c hcdone _ _ hchar
  -- the input queue is the sorted version of the input column movables
  have hM0 : ((tiles.map clearNew).filter (fun t => t.col == c)).filter
      (fun t => !isImmovableType t.type) =
      (tiles.filter (fun t => !isImmovableType t.type && (t.col == c))).map
        clearNew := by
    rw [List.filter_filter, List.filter_map]
    apply congrArg (List.map clearNew)
    apply List.filter_congr
    intro t _
    rfl
  -- pointwise, assigning a cleared column tile is assignedTile
  have hptw : ∀ b ∈ tiles.filter
      (fun t => !isImmovableType t.type && (t.col == c)),
      applyAssign (gravityImm tiles c) (gravityQueue tiles c)
        ((rows : Int) - 1) (clearNew b) = assignedTile tiles rows b := by
    intro b hbmem
    have hcol : b.col = c :=
      eq_of_beq ((Bool.and_eq_true _ _).mp
        (List.mem_filter.mp hbmem).2).2
    exact applyAssign_clearNew_eq_assigned tiles rows b c hcol
  -- permutation between the output queue and the assigned input queue
  have hperm : List.Perm (gravityQueue (applyGravity tiles rows cols) c)
      ((gravityQueue tiles c).map
        (applyAssign (gravityImm tiles c) (gravityQueue tiles c)
          ((rows : Int) - 1))) := by
    have p1 : List.Perm (gravityQueue (applyGravity tiles rows cols) c)
        ((tiles.filter (fun t => !isImmovableType t.type &&
          (t.col == c))).map (fun b => assignedTile tiles rows b)) := by
      have h0 : List.Perm (gravityQueue (applyGravity tiles rows cols) c)
          ((((applyGravity tiles rows cols).map clearNew).filter
            (fun t => t.col == c)).filter
            (fun t => !isImmovableType t.type)) :=
        sortByRowDesc_perm _
      rw [hM] at h0
      exact h0
    have p2 : List.Perm ((gravityQueue tiles c).map
        (applyAssign (gravityImm tiles c) (gravityQueue tiles c)
          ((rows : Int) - 1)))
        ((tiles.filter (fun t => !isImmovableType t.type &&
          (t.col == c))).map (fun b => assignedTile tiles rows b)) := by
      have hsp : List.Perm ((gravityQueue tiles c).map
          (applyAssign (gravityImm tiles c) (gravityQueue tiles c)
            ((rows : Int) - 1)))
          ((((tiles.map clearNew).filter (fun t => t.col == c)).filter
            (fun t => !isImmovableType t.type)).map
            (applyAssign (gravityImm tiles c) (gravityQueue tiles c)
              ((rows : Int) - 1))) :=
        (sortByRowDesc_perm _).map _
      rw [hM0, List.map_map] at hsp
      have hmc : (tiles.filter (fun t => !isImmovableType t.type &&
          (t.col == c))).map
          ((applyAssign (gravityImm tiles c) (gravityQueue tiles c)
            ((rows : Int) - 1)) ∘ clearNew) =
          (tiles.filter (fun t => !isImmovableType t.type &&
            (t.col == c))).map (fun b => assignedTile tiles rows b) :=
        List.map_congr_left (fun b hb => hptw b hb)
      rw [hmc] at hsp
      exact hsp
    exact p1.trans p2.symm
  -- both sides are sorted with pairwise distinct rows
  have hstrict2 := queue_assigned_strict tiles rows cols hids hnof c h0 hlt
  have hne2 : ((gravityQueue tiles c).map
      (applyAssign (gravityImm tiles c) (gravityQueue tiles c)
        ((rows : Int) - 1))).Pairwise (fun a b => a.row ≠ b.row) :=
    hstrict2.imp (fun h => by omega)
  have hne1 : (gravityQueue (applyGravity tiles rows cols) c).Pairwise
      (fun a b => a.row ≠ b.row) :=
    (hperm.pairwise_iff (fun hxy => hxy.symm)).mpr hne2
  have hstrict1 : (gravityQueue (applyGravity tiles rows cols) c).Pairwise
      (fun a b => b.row < a.row) :=
    pairwise_strict_of_weak_nodup _ (sortByRowDesc_pairwise _)
      (List.pairwise_map.mpr hne1)
  exact eq_of_perm_of_pairwise_strict _ _ hperm hstrict1 hstrict2

/-! ## C7: idempotence of gravity on positions -/

/-- One column of a 2-row board holding three movable tiles: the first
pass leaves two tiles at row 1 (one assigned, one out of write rows),
and the second pass moves one of them again. -/
def c7Tiles : List Tile :=
  [⟨0, 1, 1, 0, false, false⟩, ⟨1, 2, 5, 0, false, false⟩,
    ⟨2, 3, 3, 0, false, false⟩]

/-- C7 counterexample: applyGravity is not idempotent on positions for
every tile list; a second application still moves a tile of c7Tiles. -/
theorem applyGravity_not_idempotent :
    ¬ ((applyGravity (applyGravity c7Tiles 2 1) 2 1).map
        (fun t => (t.row, t.col)) =
      (applyGravity c7Tiles 2 1).map (fun t => (t.row, t.col))) := by
  decide

theorem forall₂_rowcol_map_eq :
    ∀ l1 l2 : List Tile,
    List.Forall₂ (fun a b => a.row = b.row ∧ a.col = b.col) l1 l2 →
    l1.map (fun t => (t.row, t.col)) =
      l2.map (fun t => (t.row, t.col)) := by
  intro l1 l2 h
  induction h with
  | nil => rfl
  | @cons a b acs bs hab htl ih =>
    rw [List.map_cons, List.map_cons, ih, hab.1, hab.2]

theorem gravInv_cases {tiles : List Tile} {rows : Nat} {done : List Int}
    {a b : Tile} (h : gravInv tiles rows done a b) :
    (b.col ∈ done ∧ isImmovableType b.type = false ∧
      a = assignedTile tiles rows b) ∨
    (¬(b.col ∈ done ∧ isImmovableType b.type = false) ∧
      a = clearNew b) := by
  unfold gravInv at h
  split at h
  · next hc => exact Or.inl ⟨hc.1, hc.2, h⟩
  · next hc => exact Or.inr ⟨hc, h⟩

/-- C7 (amended): on boards with pairwise distinct tile ids where no
processed column holds more movable tiles than free rows, applyGravity
is idempotent on positions. -/
theorem applyGravity_idempotent_on_positions (tiles : List Tile)
    (rows cols : Nat) (hids : (tiles.map Tile.id).Nodup)
    (hnof : NoOverflow tiles rows cols) :
    (applyGravity (applyGravity tiles rows cols) rows cols).map
      (fun t => (t.row, t.col)) =
      (applyGravity tiles rows cols).map (fun t => (t.row, t.col)) := by
  have hids1 : ((applyGravity tiles rows cols).map Tile.id).Nodup := by
    rw [applyGravity_map_id]
    exact hids
  have char1 := applyGravity_char tiles rows cols hids
  have char2 := applyGravity_char (applyGravity tiles rows cols) rows cols
    hids1
  apply forall₂_rowcol_map_eq
  refine forall₂_imp_of_mem (applyGravity tiles rows cols) ?_ _ _ char2
    (fun x hx => hx)
  intro a2 a1 ha1mem hrel2
  obtain ⟨b, hb, hrel1⟩ := forall₂_mem_left _ _ char1 a1 ha1mem
  unfold gravInv at hrel1
  by_cases hcond : b.col ∈ (List.range cols).map Int.ofNat ∧
      isImmovableType b.type = false
  · rw [if_pos hcond] at hrel1
    obtain ⟨h0, hltc⟩ := mem_range_ofNat.mp hcond.1
    obtain ⟨k, hk, hidx, hgetd, hassign, hcan, hnotmem⟩ :=
      assigned_row_spec tiles rows cols hids hnof b hb hcond.2 h0 hltc
    have ha1 : a1 = { b with
        isNew := false,
        row := canonRow (gravityImm tiles b.col) ((rows : Int) - 1) k } :=
      hrel1.trans hassign
    subst ha1
    rcases gravInv_cases hrel2 with ⟨hdone2, hmov2, ha2⟩ | ⟨hnc2, ha2⟩
    · have hidx2 : idIndex ({ b with
          isNew := false,
          row := canonRow (gravityImm tiles b.col) ((rows : Int) - 1) k }
            : Tile).id
          (gravityQueue (applyGravity tiles rows cols) ({ b with
            isNew := false,
            row := canonRow (gravityImm tiles b.col) ((rows : Int) - 1) k }
              : Tile).col) = some k := by
        show idIndex b.id
          (gravityQueue (applyGravity tiles rows cols) b.col) = some k
        rw [gravityQueue_stable tiles rows cols hids hnof b.col h0 hltc,
          idIndex_map_of_id _ (fun t => applyAssign_id _ _ _ t) b.id]
        exact hidx
      have he := assignedTile_of_some (applyGravity tiles rows cols) rows
        ({ b with
          isNew := false,
          row := canonRow (gravityImm tiles b.col) ((rows : Int) - 1) k }
            : Tile) k hidx2
      have himm2 : gravityImm (applyGravity tiles rows cols) ({ b with
          isNew := false,
          row := canonRow (gravityImm tiles b.col) ((rows : Int) - 1) k }
            : Tile).col = gravityImm tiles b.col := by
        show gravityImm (applyGravity tiles rows cols) b.col =
          gravityImm tiles b.col
        exact gravityImm_stable tiles rows cols hids b.col
      rw [himm2] at he
      rw [ha2, he, if_pos hcan]
      exact ⟨rfl, rfl⟩
    · exact absurd ⟨hcond.1, hcond.2⟩ hnc2
  · rw [if_neg hcond] at hrel1
    subst hrel1
    rcases gravInv_cases hrel2 with ⟨hdone2, hmov2, _⟩ | ⟨_, ha2⟩
    · exact absurd ⟨hdone2, hmov2⟩ hcond
    · rw [ha2]
      exact ⟨rfl, rfl⟩

/-- A single movable tile instantiating the amended C7 theorem. -/
def c7Board : List Tile := [⟨0, 5, 0, 0, false, false⟩]

theorem applyGravity_idempotent_on_positions_witness :
    ((c7Board.map Tile.id).Nodup ∧ NoOverflow c7Board 2 1) ∧
    (applyGravity (applyGravity c7Board 2 1) 2 1).map
      (fun t => (t.row, t.col)) =
      (applyGravity c7Board 2 1).map (fun t => (t.row, t.col)) :=
  ⟨⟨by decide, by unfold NoOverflow; decide⟩,
    applyGravity_idempotent_on_positions c7Board 2 1 (by decide)
      (by unfold NoOverflow; decide)⟩

/-! ## C5: bomb creation for an individual (un-combined) match
(src/hooks/use-game-state.ts, lines 598-618 and 698-748) -/

/-- `findBombPosition(positions, defaultPos)`: prefer the swap
destination, then the swap origin, when the resolver is on its first
iteration and was given swap positions. -/
def findBombPosition (isFirstIteration : Bool)
    (swapPositions : Option (Pos × Pos)) (positions : List Pos)
    (defaultPos : Pos) : Pos :=
  match swapPositions with
  | some sp =>
    if isFirstIteration then
      if positions.any (fun p =>
          (p.row == sp.2.row) && (p.col == sp.2.col)) then sp.2
      else if positions.any (fun p =>
          (p.row == sp.1.row) && (p.col == sp.1.col)) then sp.1
      else defaultPos
    else defaultPos
  | none => defaultPos

/-- The per-match bomb decision of processMatches for a match not used
by a combined (L/T/cross) bomb: effective length >= 5 requests an area
bomb, exactly 4 requests the directional bomb perpendicular to the
match, anything else requests none; the bomb position prefers the swap
cells over the match's center position positions[floor(len/2)]. -/
def matchBombDecision (isFirstIteration : Bool)
    (swapPositions : Option (Pos × Pos)) (m : MatchInfo) :
    Option (Int × Pos) :=
  let effectiveLen := max m.matchLength m.positions.length
  let centerIdx := m.positions.length / 2
  let centerOpt : Option Pos :=
    match jsGet m.positions centerIdx with
    | some c => some c
    | none => jsGet m.positions 0
  match centerOpt with
  | none => none
  | some centerPos =>
    let bombPos := findBombPosition isFirstIteration swapPositions
      m.positions centerPos
    if 5 ≤ effectiveLen then some (BOMB_AREA, bombPos)
    else if effectiveLen = 4 then
      some ((match m.direction with
        | Dir.horizontal => BOMB_VERTICAL
        | Dir.vertical => BOMB_HORIZONTAL), bombPos)
    else none

/-- C5: for every un-combined match of effective length exactly 4
resolved on the first iteration of a swap, the resolver requests a
directional bomb perpendicular to the match (horizontal match: the
vertical-clearing type; vertical match: the horizontal-clearing type),
placed at the swap destination if that lies in the match, else at the
swap origin if that lies in the match, else at the match's center
position; and a match of effective length 3 requests no bomb whatever
the iteration and swap context. -/
theorem matchBombDecision_spec (sp : Pos × Pos) (m : MatchInfo)
    (hpos : 0 < m.positions.length) :
    (max m.matchLength m.positions.length = 4 →
      ∃ bombPos : Pos,
        matchBombDecision true (some sp) m = some
          ((match m.direction with
            | Dir.horizontal => BOMB_VERTICAL
            | Dir.vertical => BOMB_HORIZONTAL), bombPos) ∧
        ((∃ p ∈ m.positions, p.row = sp.2.row ∧ p.col = sp.2.col) →
          bombPos = sp.2) ∧
        (¬ (∃ p ∈ m.positions, p.row = sp.2.row ∧ p.col = sp.2.col) →
          (∃ p ∈ m.positions, p.row = sp.1.row ∧ p.col = sp.1.col) →
          bombPos = sp.1) ∧
        (¬ (∃ p ∈ m.positions, p.row = sp.2.row ∧ p.col = sp.2.col) →
          ¬ (∃ p ∈ m.positions, p.row = sp.1.row ∧ p.col = sp.1.col) →
          bombPos = m.positions.getD (m.positions.length / 2)
            ⟨0, 0⟩)) ∧
    (∀ (first : Bool) (spo : Option (Pos × Pos)),
      max m.matchLength m.positions.length = 3 →
      matchBombDecision first spo m = none) := by
  have hcenter : jsGet m.positions (m.positions.length / 2) =
      some (m.positions.getD (m.positions.length / 2) ⟨0, 0⟩) := by
    unfold jsGet
    have hlt : m.positions.length / 2 < m.positions.length := by omega
    rw [List.getD_eq_getElem?_getD, List.get?_eq_getElem?]
    cases hx : m.positions[m.positions.length / 2]? with
    | none =>
      rw [List.getElem?_eq_none_iff] at hx
      omega
    | some v => rfl
  have hany2 : (m.positions.any (fun p =>
      (p.row == sp.2.row) && (p.col == sp.2.col)) = true) ↔
      (∃ p ∈ m.positions, p.row = sp.2.row ∧ p.col = sp.2.col) := by
    rw [List.any_eq_true]
    constructor
    · rintro ⟨p, hp, hcond⟩
      obtain ⟨h1, h2⟩ := (Bool.and_eq_true _ _).mp hcond
      exact ⟨p, hp, eq_of_beq h1, eq_of_beq h2⟩
    · rintro ⟨p, hp, h1, h2⟩
      refine ⟨p, hp, ?_⟩
      rw [h1, h2]
      simp
  have hany1 : (m.positions.any (fun p =>
      (p.row == sp.1.row) && (p.col == sp.1.col)) = true) ↔
      (∃ p ∈ m.positions, p.row = sp.1.row ∧ p.col = sp.1.col) := by
    rw [List.any_eq_true]
    constructor
    · rintro ⟨p, hp, hcond⟩
      obtain ⟨h1, h2⟩ := (Bool.and_eq_true _ _).mp hcond
      exact ⟨p, hp, eq_of_beq h1, eq_of_beq h2⟩
    · rintro ⟨p, hp, h1, h2⟩
      refine ⟨p, hp, ?_⟩
      rw [h1, h2]
      simp
  constructor
  · intro h4
    refine ⟨findBombPosition true (some sp) m.positions
      (m.positions.getD (m.positions.length / 2) ⟨0, 0⟩), ?_, ?_, ?_, ?_⟩
    · simp only [matchBombDecision, hcenter]
      rw [if_neg (by omega), if_pos h4]
    · intro hdest
      simp only [findBombPosition]
      rw [if_pos (hany2.mpr hdest)]
      rw [if_pos trivial]
    · intro hnd ho
      simp only [findBombPosition]
      rw [if_neg (fun hc => hnd (hany2.mp hc)), if_pos (hany1.mpr ho)]
      rw [if_pos trivial]
    · intro hnd hno
      simp only [findBombPosition]
      rw [if_neg (fun hc => hnd (hany2.mp hc)),
        if_neg (fun hc => hno (hany1.mp hc))]
      rw [if_pos trivial]
  · intro first spo h3
    simp only [matchBombDecision, hcenter]
    rw [if_neg (by omega), if_neg (by omega)]

/-- A concrete horizontal 4-match at row 0, cols 0-3, with the swap
destination (0, 2) inside the match. -/
def c5Match : MatchInfo :=
  { positions := [⟨0, 0⟩, ⟨0, 1⟩, ⟨0, 2⟩, ⟨0, 3⟩],
    direction := Dir.horizontal,
    matchLength := 4, tileType := 7,
    startRow := 0, endRow := 0, startCol := 0, endCol := 3 }

theorem matchBombDecision_spec_witness :
    0 < c5Match.positions.length ∧
    max c5Match.matchLength c5Match.positions.length = 4 ∧
    ∃ bombPos : Pos,
      matchBombDecision true (some (⟨1, 2⟩, ⟨0, 2⟩)) c5Match =
        some (BOMB_VERTICAL, bombPos) := by
  refine ⟨by decide, by decide, ?_⟩
  obtain ⟨bombPos, heq, _⟩ :=
    (matchBombDecision_spec (⟨1, 2⟩, ⟨0, 2⟩) c5Match (by decide)).1
      (by decide)
  exact ⟨bombPos, heq⟩

/-! ## C4: two-stage wooden obstacle damage
(src/hooks/use-game-state.ts, lines 770-945) -/

/-- The four damage-adjacency offsets (up, down, left, right). -/
def adjacentOffsets : List (Int × Int) := [(-1, 0), (1, 0), (0, -1), (0, 1)]

/-- `woodenTilesToDamage.set(key, tile)` guarded by `has(key)`: the map
keyed by position, kept as a list in insertion order. -/
def addWoodByKey (acc : List Tile) (r c : Int) (t : Tile) : List Tile :=
  if acc.any (fun w => (w.row == r) && (w.col == c)) then acc
  else acc ++ [t]

/-- Stage 1 of wooden damage: wooden tiles on an in-bounds cell adjacent
to a matched position. -/
def damageFromAdjacency (tiles : List Tile) (rows cols : Nat)
    (matched : List Pos) : List Tile :=
  matched.foldl (fun acc pos =>
    adjacentOffsets.foldl (fun acc off =>
      let adjRow := pos.row + off.1
      let adjCol := pos.col + off.2
      if 0 ≤ adjRow ∧ adjRow < (rows : Int) ∧ 0 ≤ adjCol ∧
          adjCol < (cols : Int) then
        match getTileAt tiles adjRow adjCol with
        | some t =>
          if isWoodenTile t.type then addWoodByKey acc adjRow adjCol t
          else acc
        | none => acc
      else acc) acc) []

/-- Stages 1 and 2 of wooden damage: adjacency damage plus wooden tiles
directly inside a matched (or bomb-affected) position. -/
def woodDamageList (tiles : List Tile) (rows cols : Nat)
    (matched : List Pos) : List Tile :=
  matched.foldl (fun acc pos =>
    match getTileAt tiles pos.row pos.col with
    | some t =>
      if !isWoodenTile t.type && !isStoneTile t.type then acc
      else if isWoodenTile t.type then addWoodByKey acc pos.row pos.col t
      else acc
    | none => acc) (damageFromAdjacency tiles rows cols matched)

/-- Ids contributed to `tilesToRemove` by one matched position: the
non-wooden non-stone live tile there, unless a bomb is being created at
that position. -/
def removalContrib (tiles : List Tile) (bombPos : List Pos) (p : Pos) :
    List Nat :=
  match getTileAt tiles p.row p.col with
  | some t =>
    if !isWoodenTile t.type && !isStoneTile t.type then
      if bombPos.any (fun b => (b.row == p.row) && (b.col == p.col)) then []
      else [t.id]
    else []
  | none => []

/-- The full `tilesToRemove` id set: ordinary matched tiles plus the
damaged wooden-broken tiles. -/
def tilesToRemoveIds (tiles : List Tile) (matched : List Pos)
    (bombPos : List Pos) (dmg : List Tile) : List Nat :=
  matched.foldl (fun acc p => acc ++ removalContrib tiles bombPos p) []
    ++ dmg.foldl (fun acc t =>
      acc ++ (if t.type == WOOD_BROKEN then [t.id] else [])) []

/-- The damaged wooden tiles credited to goal progress: the broken ones,
re-tagged with the canonical wooden-normal type. -/
def damagedWoodenTiles (dmg : List Tile) : List Tile :=
  (dmg.filter (fun t => t.type == WOOD_BROKEN)).map
    (fun t => { t with type := WOOD_NORMAL })

/-- The per-tile state update of the removal/damage setTiles pass,
restricted to the modelled fields: bomb-creation cells are kept (the
tile morphs into the bomb), removed ids are marked isRemoving, damaged
wooden-normal tiles change type in place to wooden-broken. -/
def resolveTileUpdate (bombPos : List Pos) (removeIds : List Nat)
    (dmg : List Tile) (t : Tile) : Tile :=
  if bombPos.any (fun b => (b.row == t.row) && (b.col == t.col)) then
    { t with isRemoving := false }
  else if removeIds.any (fun i => i == t.id) then
    { t with isRemoving := true }
  else
    match dmg.find? (fun wt => wt.id == t.id) with
    | some wt =>
      if wt.type = WOOD_NORMAL then { t with type := WOOD_BROKEN } else t
    | none => t

theorem mem_foldl_append {α β : Type} (g : α → List β) :
    ∀ (l : List α) (init : List β) (x : β),
    x ∈ l.foldl (fun acc p => acc ++ g p) init ↔
      x ∈ init ∨ ∃ p ∈ l, x ∈ g p := by
  intro l
  induction l with
  | nil =>
    intro init x
    simp
  | cons hd tl ih =>
    intro init x
    rw [List.foldl_cons, ih]
    constructor
    · rintro (h | h)
      · rcases List.mem_append.mp h with h1 | h1
        · exact Or.inl h1
        · exact Or.inr ⟨hd, List.mem_cons_self hd tl, h1⟩
      · obtain ⟨p, hp, hx⟩ := h
        exact Or.inr ⟨p, List.mem_cons_of_mem hd hp, hx⟩
    · rintro (h | h)
      · exact Or.inl (List.mem_append_left _ h)
      · obtain ⟨p, hp, hx⟩ := h
        rcases List.mem_cons.mp hp with h1 | h1
        · exact Or.inl (List.mem_append_right _ (h1 ▸ hx))
        · exact Or.inr ⟨p, h1, hx⟩

theorem getTileAt_spec {tiles : List Tile} {r c : Int} {t : Tile}
    (h : getTileAt tiles r c = some t) :
    t ∈ tiles ∧ t.row = r ∧ t.col = c ∧ t.isRemoving = false := by
  unfold getTileAt at h
  have hmem := List.mem_of_find?_eq_some h
  have hp := List.find?_some h
  obtain ⟨⟨h1, h2⟩, h3⟩ :
      ((decide (t.row = r) = true ∧ decide (t.col = c) = true) ∧
        (!t.isRemoving) = true) := by
    rw [Bool.and_eq_true, Bool.and_eq_true] at hp
    exact hp
  refine ⟨hmem, of_decide_eq_true h1, of_decide_eq_true h2, ?_⟩
  simpa using h3

/-- Invariant of the wooden-damage accumulator. -/
def GoodDmg (tiles : List Tile) (acc : List Tile) : Prop :=
  (∀ t ∈ acc, t ∈ tiles ∧ isWoodenTile t.type = true) ∧
  acc.Pairwise (fun t1 t2 => ¬(t1.row = t2.row ∧ t1.col = t2.col))

theorem addWoodByKey_good {tiles acc : List Tile} {r c : Int} {t : Tile}
    (hg : GoodDmg tiles acc) (ht : getTileAt tiles r c = some t)
    (hw : isWoodenTile t.type = true) :
    GoodDmg tiles (addWoodByKey acc r c t) := by
  obtain ⟨htmem, hrow, hcol, _⟩ := getTileAt_spec ht
  unfold addWoodByKey
  split
  · exact hg
  · next hnone =>
    constructor
    · intro x hx
      rcases List.mem_append.mp hx with h1 | h1
      · exact hg.1 x h1
      · rw [List.mem_singleton.mp h1]
        exact ⟨htmem, hw⟩
    · rw [List.pairwise_append]
      refine ⟨hg.2, List.pairwise_singleton _ _, ?_⟩
      intro w hwmem x hx
      rw [List.mem_singleton.mp hx]
      intro hcontra
      apply hnone
      rw [List.any_eq_true]
      refine ⟨w, hwmem, ?_⟩
      rw [show w.row = r by rw [hcontra.1, hrow],
        show w.col = c by rw [hcontra.2, hcol]]
      simp

theorem damageFromAdjacency_good (tiles : List Tile) (rows cols : Nat)
    (matched : List Pos) :
    GoodDmg tiles (damageFromAdjacency tiles rows cols matched) := by
  unfold damageFromAdjacency
  have hstep : ∀ (acc : List Tile) (pos : Pos), GoodDmg tiles acc →
      GoodDmg tiles (adjacentOffsets.foldl (fun acc off =>
        let adjRow := pos.row + off.1
        let adjCol := pos.col + off.2
        if 0 ≤ adjRow ∧ adjRow < (rows : Int) ∧ 0 ≤ adjCol ∧
            adjCol < (cols : Int) then
          match getTileAt tiles adjRow adjCol with
          | some t =>
            if isWoodenTile t.type then addWoodByKey acc adjRow adjCol t
            else acc
          | none => acc
        else acc) acc) := by
    intro acc pos hg
    have : ∀ (offs : List (Int × Int)) (acc : List Tile),
        GoodDmg tiles acc →
        GoodDmg tiles (offs.foldl (fun acc off =>
          let adjRow := pos.row + off.1
          let adjCol := pos.col + off.2
          if 0 ≤ adjRow ∧ adjRow < (rows : Int) ∧ 0 ≤ adjCol ∧
              adjCol < (cols : Int) then
            match getTileAt tiles adjRow adjCol with
            | some t =>
              if isWoodenTile t.type then addWoodByKey acc adjRow adjCol t
              else acc
            | none => acc
          else acc) acc) := by
      intro offs
      induction offs with
      | nil => intro acc hg; exact hg
      | cons o os ih =>
        intro acc hg
        rw [List.foldl_cons]
        apply ih
        show GoodDmg tiles
          (if 0 ≤ pos.row + o.1 ∧ pos.row + o.1 < (rows : Int) ∧
              0 ≤ pos.col + o.2 ∧ pos.col + o.2 < (cols : Int) then
            match getTileAt tiles (pos.row + o.1) (pos.col + o.2) with
            | some t =>
              if isWoodenTile t.type then
                addWoodByKey acc (pos.row + o.1) (pos.col + o.2) t
              else acc
            | none => acc
          else acc)
        split
        · cases hT : getTileAt tiles (pos.row + o.1) (pos.col + o.2) with
          | some t =>
            show GoodDmg tiles
              (if isWoodenTile t.type then
                addWoodByKey acc (pos.row + o.1) (pos.col + o.2) t
              else acc)
            split
            · next hwd => exact addWoodByKey_good hg hT hwd
            · exact hg
          | none => exact hg
        · exact hg
    exact this adjacentOffsets acc hg
  have hfold : ∀ (ps : List Pos) (acc : List Tile), GoodDmg tiles acc →
      GoodDmg tiles (ps.foldl (fun acc pos =>
        adjacentOffsets.foldl (fun acc off =>
          let adjRow := pos.row + off.1
          let adjCol := pos.col + off.2
          if 0 ≤ adjRow ∧ adjRow < (rows : Int) ∧ 0 ≤ adjCol ∧
              adjCol < (cols : Int) then
            match getTileAt tiles adjRow adjCol with
            | some t =>
              if isWoodenTile t.type then addWoodByKey acc adjRow adjCol t
              else acc
            | none => acc
          else acc) acc) acc) := by
    intro ps
    induction ps with
    | nil => intro acc hg; exact hg
    | cons p ps ih =>
      intro acc hg
      rw [List.foldl_cons]
      exact ih _ (hstep acc p hg)
  exact hfold matched [] ⟨fun t ht => absurd ht (List.not_mem_nil t),
    List.Pairwise.nil⟩

theorem woodDamageList_good (tiles : List Tile) (rows cols : Nat)
    (matched : List Pos) :
    GoodDmg tiles (woodDamageList tiles rows cols matched) := by
  unfold woodDamageList
  have hfold : ∀ (ps : List Pos) (acc : List Tile), GoodDmg tiles acc →
      GoodDmg tiles (ps.foldl (fun acc pos =>
        match getTileAt tiles pos.row pos.col with
        | some t =>
          if !isWoodenTile t.type && !isStoneTile t.type then acc
          else if isWoodenTile t.type then
            addWoodByKey acc pos.row pos.col t
          else acc
        | none => acc) acc) := by
    intro ps
    induction ps with
    | nil => intro acc hg; exact hg
    | cons p ps ih =>
      intro acc hg
      rw [List.foldl_cons]
      apply ih
      cases hT : getTileAt tiles p.row p.col with
      | some t =>
        show GoodDmg tiles
          (if !isWoodenTile t.type && !isStoneTile t.type then acc
          else if isWoodenTile t.type then addWoodByKey acc p.row p.col t
          else acc)
        split
        · exact hg
        · split
          · next hwd => exact addWoodByKey_good hg hT hwd
          · exact hg
      | none => exact hg
  exact hfold matched _ (damageFromAdjacency_good tiles rows cols matched)

theorem countP_id_eq_one (l : List Tile) (w : Tile) (hmem : w ∈ l)
    (hl : l.Nodup) (huniq : ∀ x ∈ l, x.id = w.id → x = w) :
    l.countP (fun t => t.id == w.id) = 1 := by
  induction l with
  | nil => exact absurd hmem (List.not_mem_nil w)
  | cons hd tl ih =>
    rw [List.countP_cons]
    rw [List.nodup_cons] at hl
    by_cases hhd : hd = w
    · subst hhd
      rw [if_pos (by simp)]
      have h0 : tl.countP (fun t => t.id == hd.id) = 0 := by
        rw [List.countP_eq_zero]
        intro x hx hxe
        have hx2 : x = hd := huniq x (List.mem_cons_of_mem _ hx)
          (by simpa using hxe)
        exact hl.1 (hx2 ▸ hx)
      omega
    · have hmem2 : w ∈ tl := by
        rcases List.mem_cons.mp hmem with h | h
        · exact absurd h.symm hhd
        · exact h
      have hne : ¬ ((fun t => t.id == w.id) hd) = true := by
        intro he
        exact hhd (huniq hd (List.mem_cons_self _ _) (by simpa using he))
      rw [if_neg hne,
        ih hmem2 hl.2 (fun x hx hxe => huniq x (List.mem_cons_of_mem _ hx)
          hxe)]

theorem removalContrib_mem {tiles : List Tile} {bombPos : List Pos}
    {p : Pos} {x : Nat} (hx : x ∈ removalContrib tiles bombPos p) :
    ∃ t, getTileAt tiles p.row p.col = some t ∧
      isWoodenTile t.type = false ∧ x = t.id := by
  unfold removalContrib at hx
  cases hT : getTileAt tiles p.row p.col with
  | none =>
    rw [hT] at hx
    exact absurd hx (List.not_mem_nil x)
  | some t =>
    rw [hT] at hx
    have hx2 : x ∈ (if !isWoodenTile t.type && !isStoneTile t.type then
        (if bombPos.any (fun b => (b.row == p.row) && (b.col == p.col))
          then ([] : List Nat) else [t.id]) else []) := hx
    split at hx2
    · next hcl =>
      split at hx2
      · exact absurd hx2 (List.not_mem_nil x)
      · refine ⟨t, rfl, ?_, List.mem_singleton.mp hx2⟩
        have := ((Bool.and_eq_true _ _).mp hcl).1
        simpa using this
    · exact absurd hx2 (List.not_mem_nil x)

/-- C4: wooden obstacle damage is two-stage.  Every damaged tile is a
wooden tile of the board, and each goal credit carries the canonical
wooden-normal type; a damaged wooden-normal tile is never in the removal
set, has its type changed in place to wooden-broken by the state update,
and contributes zero entries to the goal-progress list; a damaged
wooden-broken tile is in the removal set, is marked isRemoving by the
state update, and contributes exactly one goal-progress entry. -/
theorem processMatches_wood_two_stage (tiles : List Tile)
    (rows cols : Nat) (matched : List Pos) (bombPos : List Pos)
    (hids : (tiles.map Tile.id).Nodup) (w : Tile)
    (hw : w ∈ woodDamageList tiles rows cols matched)
    (hnb : (bombPos.any (fun b => (b.row == w.row) && (b.col == w.col)))
      = false) :
    w ∈ tiles ∧ isWoodenTile w.type = true ∧
    (∀ d ∈ damagedWoodenTiles (woodDamageList tiles rows cols matched),
      d.type = WOOD_NORMAL) ∧
    (w.type = WOOD_NORMAL →
      ¬ w.id ∈ tilesToRemoveIds tiles matched bombPos
        (woodDamageList tiles rows cols matched) ∧
      resolveTileUpdate bombPos
        (tilesToRemoveIds tiles matched bombPos
          (woodDamageList tiles rows cols matched))
        (woodDamageList tiles rows cols matched) w =
        { w with type := WOOD_BROKEN } ∧
      (damagedWoodenTiles (woodDamageList tiles rows cols
        matched)).countP (fun d => d.id == w.id) = 0) ∧
    (w.type = WOOD_BROKEN →
      w.id ∈ tilesToRemoveIds tiles matched bombPos
        (woodDamageList tiles rows cols matched) ∧
      resolveTileUpdate bombPos
        (tilesToRemoveIds tiles matched bombPos
          (woodDamageList tiles rows cols matched))
        (woodDamageList tiles rows cols matched) w =
        { w with isRemoving := true } ∧
      (damagedWoodenTiles (woodDamageList tiles rows cols
        matched)).countP (fun d => d.id == w.id) = 1) := by
  have hgood := woodDamageList_good tiles rows cols matched
  have hwmem : w ∈ tiles := (hgood.1 w hw).1
  have hwood : isWoodenTile w.type = true := (hgood.1 w hw).2
  have hdnd : (woodDamageList tiles rows cols matched).Nodup :=
    hgood.2.imp (fun h heq => absurd ⟨by rw [heq], by rw [heq]⟩ h)
  have huniq : ∀ x ∈ woodDamageList tiles rows cols matched,
      x.id = w.id → x = w := by
    intro x hx he
    exact List.inj_on_of_nodup_map hids (hgood.1 x hx).1 hwmem he
  have hdall : ∀ d ∈ damagedWoodenTiles (woodDamageList tiles rows cols
      matched), d.type = WOOD_NORMAL := by
    intro d hd
    obtain ⟨t, _, hdt⟩ := List.mem_map.mp hd
    rw [← hdt]
  have hpart1 : ∀ x : Nat, x ∈ matched.foldl
      (fun acc p => acc ++ removalContrib tiles bombPos p) [] →
      x = w.id → w.type = WOOD_NORMAL ∨ w.type = WOOD_BROKEN → False := by
    intro x hx he _
    rcases (mem_foldl_append _ matched [] x).mp hx with h | ⟨p, _, hcp⟩
    · exact absurd h (List.not_mem_nil x)
    · obtain ⟨t, hT, htw, hxt⟩ := removalContrib_mem hcp
      have htm := (getTileAt_spec hT).1
      have : t = w := List.inj_on_of_nodup_map hids htm hwmem
        (by rw [← hxt, he])
      rw [this] at htw
      rw [htw] at hwood
      exact absurd hwood (by decide)
  refine ⟨hwmem, hwood, hdall, ?_, ?_⟩
  · intro hnormal
    have hnrm : ¬ w.id ∈ tilesToRemoveIds tiles matched bombPos
        (woodDamageList tiles rows cols matched) := by
      intro hmem
      unfold tilesToRemoveIds at hmem
      rcases List.mem_append.mp hmem with h | h
      · exact hpart1 w.id h rfl (Or.inl hnormal)
      · rcases (mem_foldl_append _ _ [] w.id).mp h with h1 | ⟨t, ht, hit⟩
        · exact absurd h1 (List.not_mem_nil _)
        · split at hit
          · next hbr =>
            have hti : t.id = w.id := (List.mem_singleton.mp hit).symm
            have : t = w := huniq t ht hti
            rw [this] at hbr
            rw [hnormal] at hbr
            exact absurd (eq_of_beq hbr) (by decide)
          · exact absurd hit (List.not_mem_nil _)
    refine ⟨hnrm, ?_, ?_⟩
    · unfold resolveTileUpdate
      rw [hnb]
      rw [if_neg (by decide)]
      rw [show (tilesToRemoveIds tiles matched bombPos
          (woodDamageList tiles rows cols matched)).any
          (fun i => i == w.id) = false by
        rw [← Bool.not_eq_true, List.any_eq_true]
        rintro ⟨i, hi, hie⟩
        exact hnrm ((eq_of_beq hie) ▸ hi)]
      rw [if_neg (by decide)]
      cases hf : (woodDamageList tiles rows cols matched).find?
          (fun wt => wt.id == w.id) with
      | none =>
        exfalso
        have := List.find?_eq_none.mp hf w hw
        simp at this
      | some x =>
        have hx : x = w := huniq x (List.mem_of_find?_eq_some hf)
          (by have := List.find?_some hf; simpa using this)
        show (if x.type = WOOD_NORMAL then
          ({ w with type := WOOD_BROKEN } : Tile) else w) =
          { w with type := WOOD_BROKEN }
        rw [hx, if_pos hnormal]
    · rw [damagedWoodenTiles, List.countP_map, List.countP_eq_zero]
      intro t ht
      have htd := List.mem_of_mem_filter ht
      have hbr := List.of_mem_filter ht
      intro he
      have : t = w := huniq t htd (by simpa using he)
      rw [this] at hbr
      rw [hnormal] at hbr
      exact absurd (eq_of_beq hbr) (by decide)
  · intro hbroken
    have hinrm : w.id ∈ tilesToRemoveIds tiles matched bombPos
        (woodDamageList tiles rows cols matched) := by
      unfold tilesToRemoveIds
      apply List.mem_append_right
      apply (mem_foldl_append _ _ [] w.id).mpr
      refine Or.inr ⟨w, hw, ?_⟩
      rw [if_pos (by rw [hbroken]; rfl)]
      exact List.mem_singleton_self _
    refine ⟨hinrm, ?_, ?_⟩
    · unfold resolveTileUpdate
      rw [hnb]
      rw [if_neg (by decide)]
      rw [show (tilesToRemoveIds tiles matched bombPos
          (woodDamageList tiles rows cols matched)).any
          (fun i => i == w.id) = true by
        rw [List.any_eq_true]
        exact ⟨w.id, hinrm, by simp⟩]
      rfl
    · rw [damagedWoodenTiles, List.countP_map]
      have heq : (List.countP ((fun d => d.id == w.id) ∘
          (fun t => ({ t with type := WOOD_NORMAL } : Tile)))
          ((woodDamageList tiles rows cols matched).filter
            (fun t => t.type == WOOD_BROKEN))) =
          (List.countP (fun t => t.id == w.id)
          ((woodDamageList tiles rows cols matched).filter
            (fun t => t.type == WOOD_BROKEN))) := rfl
      rw [heq]
      apply countP_id_eq_one
      · rw [List.mem_filter]
        exact ⟨hw, by rw [hbroken]; rfl⟩
      · exact hdnd.sublist (List.filter_sublist _)
      · intro x hx he
        exact huniq x (List.mem_of_mem_filter hx) he

/-- A one-row board: an ordinary matched tile at (0, 0) with a wooden
tile right of it at (0, 1). -/
def c4Tiles : List Tile :=
  [⟨1, 5, 0, 0, false, false⟩, ⟨0, 200, 0, 1, false, false⟩]

def c4Wood : Tile := ⟨0, 200, 0, 1, false, false⟩

theorem processMatches_wood_two_stage_witness :
    ¬ c4Wood.id ∈ tilesToRemoveIds c4Tiles [⟨0, 0⟩] []
      (woodDamageList c4Tiles 1 2 [⟨0, 0⟩]) ∧
    resolveTileUpdate []
      (tilesToRemoveIds c4Tiles [⟨0, 0⟩] []
        (woodDamageList c4Tiles 1 2 [⟨0, 0⟩]))
      (woodDamageList c4Tiles 1 2 [⟨0, 0⟩]) c4Wood =
      { c4Wood with type := WOOD_BROKEN } ∧
    (damagedWoodenTiles (woodDamageList c4Tiles 1 2 [⟨0, 0⟩])).countP
      (fun d => d.id == c4Wood.id) = 0 :=
  (processMatches_wood_two_stage c4Tiles 1 2 [⟨0, 0⟩] [] (by decide)
    c4Wood (by decide) (by decide)).2.2.2.1 (by decide)

/-! ## C3: bomb chain propagation
(src/hooks/use-game-state.ts, lines 1393-1464;
src/lib/game-utils.ts getBombExplosionPositions) -/

/-- Cells affected by a bomb explosion: the whole row, the whole
column, or the in-bounds part of the centred 5x5 square. -/
def getBombExplosionPositions (tile : Tile) (rows cols : Nat) :
    List Pos :=
  if tile.type = BOMB_HORIZONTAL then
    (List.range cols).map (fun col => ⟨tile.row, Int.ofNat col⟩)
  else if tile.type = BOMB_VERTICAL then
    (List.range rows).map (fun row => ⟨Int.ofNat row, tile.col⟩)
  else if tile.type = BOMB_AREA then
    (List.range 5).foldl (fun acc i =>
      acc ++ (List.range 5).filterMap (fun j =>
        let r := tile.row - 2 + Int.ofNat i
        let c := tile.col - 2 + Int.ofNat j
        if 0 ≤ r ∧ r < (rows : Int) ∧ 0 ≤ c ∧ c < (cols : Int) then
          some ⟨r, c⟩
        else none)) []
  else []

/-- Travel delay of a directional bomb hit: per-tile step times the
axis distance from the bomb; area bombs hit with no extra delay. -/
def getBombHitDelayMs (bomb : Tile) (p : Pos) : Nat :=
  if bomb.type = BOMB_HORIZONTAL then
    (p.col - bomb.col).natAbs * DIRECTIONAL_BOMB_TILE_HIT_STEP_MS
  else if bomb.type = BOMB_VERTICAL then
    (p.row - bomb.row).natAbs * DIRECTIONAL_BOMB_TILE_HIT_STEP_MS
  else 0

/-- The bombs hit by an explosion of u, with their travel offsets: one
entry per affected cell holding a live bomb tile. -/
def bombTargets (tiles : List Tile) (rows cols : Nat) (u : Tile) :
    List (Tile × Nat) :=
  (getBombExplosionPositions u rows cols).filterMap (fun pos =>
    match getTileAt tiles pos.row pos.col with
    | some v =>
      if isBomb v.type then some (v, getBombHitDelayMs u pos) else none
    | none => none)

/-- Lookup in the id-keyed delay map bombHitDelayById. -/
def lookupNat : List (Nat × Nat) → Nat → Option Nat
  | [], _ => none
  | e :: r, k => if e.1 = k then some e.2 else lookupNat r k

/-- `map.set(k, v)`: overwrite in place, else append. -/
def setNat (m : List (Nat × Nat)) (k v : Nat) : List (Nat × Nat) :=
  if m.any (fun e => e.1 == k) then
    m.map (fun e => if e.1 == k then (k, v) else e)
  else m ++ [(k, v)]

/-- Lookup in the position-keyed delay map positionHitDelayMs. -/
def lookupPos : List (Pos × Nat) → Pos → Option Nat
  | [], _ => none
  | e :: r, p => if e.1 = p then some e.2 else lookupPos r p

/-- The position-delay relaxation: keep the smaller delay. -/
def relaxPos (m : List (Pos × Nat)) (p : Pos) (d : Nat) :
    List (Pos × Nat) :=
  match lookupPos m p with
  | some d0 =>
    if d < d0 then
      (if m.any (fun e => e.1 == p) then
        m.map (fun e => if e.1 == p then (p, d) else e)
      else m ++ [(p, d)])
    else m
  | none =>
    if m.any (fun e => e.1 == p) then
      m.map (fun e => if e.1 == p then (p, d) else e)
    else m ++ [(p, d)]

/-- State of the propagation loop.  pops records every dequeued entry
in dequeue order (processed or skipped), instrumenting the loop's
`queue.splice(minIdx, 1)`. -/
structure PropState where
  queue : List (Tile × Nat)
  known : List (Nat × Nat)
  events : List (Tile × Nat)
  posDelays : List (Pos × Nat)
  pops : List (Tile × Nat)
deriving Repr

/-- Remove the first entry of minimal delay, as
`queue.splice(minIdx, 1)` does after the first-minimal-index scan:
the head is kept over the minimum of the tail unless that minimum is
strictly smaller. -/
def popMin : List (Tile × Nat) → Option ((Tile × Nat) × List (Tile × Nat))
  | [] => none
  | e :: rest =>
    match popMin rest with
    | none => some (e, [])
    | some (m, rest2) =>
      if m.2 < e.2 then some (m, e :: rest2) else some (e, rest)

/-- Handling of one explosion-affected cell: relax the cell's hit
delay, and enqueue the bomb living there when its new delay strictly
improves on its recorded delay. -/
def explodePosStep (tiles : List Tile) (b : Tile) (d : Nat)
    (acc : PropState) (pos : Pos) : PropState :=
  let hitDelay := d + getBombHitDelayMs b pos
  let newPosDelays := relaxPos acc.posDelays pos hitDelay
  match getTileAt tiles pos.row pos.col with
  | some v =>
    if isBomb v.type then
      match lookupNat acc.known v.id with
      | some kb =>
        if hitDelay < kb then
          { acc with
            posDelays := newPosDelays,
            queue := acc.queue ++ [(v, hitDelay)] }
        else { acc with posDelays := newPosDelays }
      | none =>
        { acc with
          posDelays := newPosDelays,
          queue := acc.queue ++ [(v, hitDelay)] }
    else { acc with posDelays := newPosDelays }
  | none => { acc with posDelays := newPosDelays }

/-- One explosion: relax the hit delay of every affected cell and
enqueue every affected bomb whose new delay strictly improves on its
recorded delay. -/
def explodeStep (tiles : List Tile) (rows cols : Nat)
    (b : Tile) (d : Nat) (st : PropState) : PropState :=
  (getBombExplosionPositions b rows cols).foldl
    (explodePosStep tiles b d) st

/-- The propagation loop `while (queue.length > 0)`, with explicit
fuel; every iteration pops the first entry of minimal delay, skips it
if its recorded delay is already at most as small, and otherwise
records it, emits its explosion event, and relaxes its explosion
targets. -/
def collectBombPropagation (tiles : List Tile) (rows cols : Nat) :
    Nat → PropState → PropState
  | 0, st => st
  | fuel + 1, st =>
    match popMin st.queue with
    | none => st
    | some ((b, d), rest) =>
      let st1 : PropState := { st with
        queue := rest,
        pops := st.pops ++ [(b, d)] }
      match lookupNat st.known b.id with
      | some kd =>
        if kd ≤ d then
          collectBombPropagation tiles rows cols fuel st1
        else
          collectBombPropagation tiles rows cols fuel
            (explodeStep tiles rows cols b d
              { st1 with
                known := setNat st1.known b.id d,
                events := st1.events ++ [(b, d)] })
      | none =>
        collectBombPropagation tiles rows cols fuel
          (explodeStep tiles rows cols b d
            { st1 with
              known := setNat st1.known b.id d,
              events := st1.events ++ [(b, d)] })

/-- Delays reachable from the seed bombs: a seed is reached at its
seed delay; each bomb hit by a reached bomb's explosion is reached at
the triggering delay plus its travel offset. -/
inductive Reach (tiles : List Tile) (rows cols : Nat)
    (seeds : List (Tile × Nat)) : Tile → Nat → Prop
  | seed {b : Tile} {d : Nat} (h : (b, d) ∈ seeds) : Reach tiles rows cols seeds b d
  | step {u : Tile} {du : Nat} {v : Tile} {w : Nat}
      (hu : Reach tiles rows cols seeds u du)
      (hv : (v, w) ∈ bombTargets tiles rows cols u) :
      Reach tiles rows cols seeds v (du + w)

theorem popMin_eq_none {q : List (Tile × Nat)} (h : popMin q = none) :
    q = [] := by
  cases q with
  | nil => rfl
  | cons e r =>
    rw [popMin] at h
    cases hp : popMin r with
    | none =>
      rw [hp] at h
      exact absurd (show some (e, ([] : List (Tile × Nat))) = none from h)
        (by simp)
    | some x =>
      obtain ⟨m, rest2⟩ := x
      rw [hp] at h
      have h2 : (if m.2 < e.2 then some (m, e :: rest2)
          else some (e, r)) = none := h
      split at h2 <;> exact absurd h2 (by simp)

theorem popMin_spec :
    ∀ (q : List (Tile × Nat)) (m : Tile × Nat) (rest : List (Tile × Nat)),
    popMin q = some (m, rest) →
    m ∈ q ∧ (∀ e ∈ q, m.2 ≤ e.2) ∧ (∀ e ∈ rest, e ∈ q) ∧
      (∀ e ∈ q, e ∈ rest ∨ e = m) := by
  intro q
  induction q with
  | nil =>
    intro m rest h
    exact absurd h (by rw [popMin]; simp)
  | cons e rest0 ih =>
    intro m rest h
    rw [popMin] at h
    cases hp : popMin rest0 with
    | none =>
      have h0 := popMin_eq_none hp
      subst h0
      rw [hp] at h
      rw [show (match (none : Option ((Tile × Nat) ×
          List (Tile × Nat))) with
        | none => some (e, ([] : List (Tile × Nat)))
        | some (m, rest2) =>
          if m.2 < e.2 then some (m, e :: rest2) else some (e, [])) =
        some (e, ([] : List (Tile × Nat))) from rfl] at h
      rw [Option.some.injEq, Prod.mk.injEq] at h
      obtain ⟨he, hr⟩ := h
      subst he
      subst hr
      refine ⟨List.mem_singleton_self _, ?_, ?_, ?_⟩
      · intro x hx
        rw [List.mem_singleton.mp hx]
      · intro x hx
        exact absurd hx (List.not_mem_nil x)
      · intro x hx
        exact Or.inr (List.mem_singleton.mp hx)
    | some x =>
      obtain ⟨m0, rest2⟩ := x
      obtain ⟨hm0mem, hm0min, hsub, hcover⟩ := ih m0 rest2 hp
      rw [hp] at h
      have h2 : (if m0.2 < e.2 then some (m0, e :: rest2)
          else some (e, rest0)) = some (m, rest) := h
      split at h2
      · next hlt =>
        rw [Option.some.injEq, Prod.mk.injEq] at h2
        obtain ⟨hm, hr⟩ := h2
        subst hm
        subst hr
        refine ⟨List.mem_cons_of_mem e hm0mem, ?_, ?_, ?_⟩
        · intro x hx
          rcases List.mem_cons.mp hx with h1 | h1
          · rw [h1]
            omega
          · exact hm0min x h1
        · intro x hx
          rcases List.mem_cons.mp hx with h1 | h1
          · rw [h1]
            exact List.mem_cons_self _ _
          · exact List.mem_cons_of_mem _ (hsub x h1)
        · intro x hx
          rcases List.mem_cons.mp hx with h1 | h1
          · exact Or.inl (by rw [h1]; exact List.mem_cons_self _ _)
          · rcases hcover x h1 with h2 | h2
            · exact Or.inl (List.mem_cons_of_mem _ h2)
            · exact Or.inr h2
      · next hge =>
        rw [Option.some.injEq, Prod.mk.injEq] at h2
        obtain ⟨hm, hr⟩ := h2
        subst hm
        subst hr
        refine ⟨List.mem_cons_self _ _, ?_, ?_, ?_⟩
        · intro x hx
          rcases List.mem_cons.mp hx with h1 | h1
          · rw [h1]
          · have := hm0min x h1
            omega
        · intro x hx
          exact List.mem_cons_of_mem _ hx
        · intro x hx
          rcases List.mem_cons.mp hx with h1 | h1
          · exact Or.inr h1
          · exact Or.inl h1

theorem lookupNat_map_ne (m : List (Nat × Nat)) (k v k' : Nat)
    (hne : ¬ k' = k) :
    lookupNat (m.map (fun e => if e.1 == k then (k, v) else e)) k' =
      lookupNat m k' := by
  induction m with
  | nil => rfl
  | cons e r ih =>
    rw [List.map_cons]
    by_cases he : (e.1 == k) = true
    · rw [if_pos he]
      have hek : e.1 = k := eq_of_beq he
      show (if k = k' then some v else lookupNat
        (r.map (fun e => if e.1 == k then (k, v) else e)) k') =
        (if e.1 = k' then some e.2 else lookupNat r k')
      rw [if_neg (fun h => hne h.symm),
        if_neg (fun h => hne (hek ▸ h).symm), ih]
    · rw [if_neg he]
      show (if e.1 = k' then some e.2 else lookupNat
        (r.map (fun e => if e.1 == k then (k, v) else e)) k') =
        (if e.1 = k' then some e.2 else lookupNat r k')
      rw [ih]

theorem lookupNat_map_self (m : List (Nat × Nat)) (k v : Nat)
    (hany : m.any (fun e => e.1 == k) = true) :
    lookupNat (m.map (fun e => if e.1 == k then (k, v) else e)) k =
      some v := by
  induction m with
  | nil => exact absurd hany (by simp)
  | cons e r ih =>
    rw [List.map_cons]
    by_cases he : (e.1 == k) = true
    · rw [if_pos he]
      show (if k = k then some v else _) = some v
      rw [if_pos rfl]
    · rw [if_neg he]
      show (if e.1 = k then some e.2 else lookupNat
        (r.map (fun e => if e.1 == k then (k, v) else e)) k) = some v
      rw [if_neg (fun h => he (by rw [h]; exact beq_self_eq_true k))]
      apply ih
      rw [List.any_cons] at hany
      rcases Bool.or_eq_true_iff.mp hany with h | h
      · exact absurd h he
      · exact h

theorem lookupNat_append_single (m : List (Nat × Nat)) (k v k' : Nat) :
    lookupNat (m ++ [(k, v)]) k' =
      match lookupNat m k' with
      | some d => some d
      | none => if k = k' then some v else none := by
  induction m with
  | nil =>
    show (if k = k' then some v else lookupNat [] k') = _
    rfl
  | cons e r ih =>
    show (if e.1 = k' then some e.2 else lookupNat (r ++ [(k, v)]) k') = _
    by_cases he : e.1 = k'
    · rw [if_pos he]
      show _ = (match (if e.1 = k' then some e.2 else lookupNat r k') with
        | some d => some d
        | none => if k = k' then some v else none)
      rw [if_pos he]
    · rw [if_neg he, ih]
      show _ = (match (if e.1 = k' then some e.2 else lookupNat r k') with
        | some d => some d
        | none => if k = k' then some v else none)
      rw [if_neg he]

theorem lookupNat_setNat (m : List (Nat × Nat)) (k v k' : Nat) :
    lookupNat (setNat m k v) k' =
      if k' = k then some v else lookupNat m k' := by
  unfold setNat
  split
  · next hany =>
    by_cases hk : k' = k
    · subst hk
      rw [if_pos rfl]
      exact lookupNat_map_self m k' v hany
    · rw [if_neg hk]
      exact lookupNat_map_ne m k v k' hk
  · next hnone =>
    rw [lookupNat_append_single]
    have hfn : lookupNat m k' = none ∨ ¬ k' = k := by
      by_cases hk : k' = k
      · subst hk
        left
        induction m with
        | nil => rfl
        | cons e r ih =>
          show (if e.1 = k' then some e.2 else lookupNat r k') = none
          rw [if_neg (fun h => hnone (by
            rw [List.any_cons]
            apply Bool.or_eq_true_iff.mpr
            exact Or.inl (by rw [h]; exact beq_self_eq_true k')))]
          apply ih
          intro h2
          exact hnone (by
            rw [List.any_cons]
            apply Bool.or_eq_true_iff.mpr
            exact Or.inr h2)
      · exact Or.inr hk
    by_cases hk : k' = k
    · subst hk
      rcases hfn with h | h
      · rw [h, if_pos rfl]
      · exact absurd rfl h
    · rw [if_neg hk]
      cases hl : lookupNat m k' with
      | some d => rfl
      | none =>
        show (if k = k' then some v else none) = none
        rw [if_neg (fun h => hk h.symm)]

theorem mem_bombTargets {tiles : List Tile} {rows cols : Nat} {u v : Tile}
    {w : Nat} :
    (v, w) ∈ bombTargets tiles rows cols u ↔
    ∃ pos ∈ getBombExplosionPositions u rows cols,
      getTileAt tiles pos.row pos.col = some v ∧ isBomb v.type = true ∧
      w = getBombHitDelayMs u pos := by
  unfold bombTargets
  rw [List.mem_filterMap]
  constructor
  · rintro ⟨pos, hpos, heq⟩
    refine ⟨pos, hpos, ?_⟩
    cases hT : getTileAt tiles pos.row pos.col with
    | none =>
      rw [hT] at heq
      exact absurd heq (by simp)
    | some t =>
      rw [hT] at heq
      have heq2 : (if isBomb t.type then some (t, getBombHitDelayMs u pos)
          else none) = some (v, w) := heq
      split at heq2
      · next hb =>
        rw [Option.some.injEq, Prod.mk.injEq] at heq2
        obtain ⟨h1, h2⟩ := heq2
        subst h1
        subst h2
        exact ⟨rfl, hb, rfl⟩
      · exact absurd heq2 (by simp)
  · rintro ⟨pos, hpos, hT, hb, hw⟩
    refine ⟨pos, hpos, ?_⟩
    rw [hT]
    show (if isBomb v.type then some (v, getBombHitDelayMs u pos)
      else none) = some (v, w)
    rw [if_pos hb, hw]

theorem reach_tile_mem {tiles : List Tile} {rows cols : Nat}
    {seeds : List (Tile × Nat)} {v : Tile} {d : Nat}
    (h : Reach tiles rows cols seeds v d) :
    v ∈ seeds.map Prod.fst ∨ v ∈ tiles := by
  induction h with
  | seed hs => exact Or.inl (List.mem_map_of_mem Prod.fst hs)
  | step hu hv ih =>
    obtain ⟨pos, _, hT, _, _⟩ := mem_bombTargets.mp hv
    exact Or.inr (getTileAt_spec hT).1

theorem explodePosStep_spec (tiles : List Tile) (b : Tile) (d : Nat)
    (acc : PropState) (pos : Pos) :
    (explodePosStep tiles b d acc pos).known = acc.known ∧
    (explodePosStep tiles b d acc pos).events = acc.events ∧
    (explodePosStep tiles b d acc pos).pops = acc.pops ∧
    ((explodePosStep tiles b d acc pos).queue = acc.queue ∨
     ∃ v, getTileAt tiles pos.row pos.col = some v ∧
       isBomb v.type = true ∧
       (explodePosStep tiles b d acc pos).queue =
         acc.queue ++ [(v, d + getBombHitDelayMs b pos)]) ∧
    (∀ v, getTileAt tiles pos.row pos.col = some v →
      isBomb v.type = true →
      (v, d + getBombHitDelayMs b pos) ∈
        (explodePosStep tiles b d acc pos).queue ∨
      ∃ kb, lookupNat acc.known v.id = some kb ∧
        kb ≤ d + getBombHitDelayMs b pos) := by
  cases hT : getTileAt tiles pos.row pos.col with
  | none =>
    simp only [explodePosStep, hT]
    refine ⟨trivial, trivial, trivial, Or.inl trivial, ?_⟩
    intro v hv
    exact absurd hv (by simp)
  | some v0 =>
    simp only [explodePosStep, hT]
    by_cases hb : isBomb v0.type = true
    · rw [if_pos hb]
      cases hkb : lookupNat acc.known v0.id with
      | some kb =>
        simp only [hkb]
        by_cases hlt : d + getBombHitDelayMs b pos < kb
        · rw [if_pos hlt]
          refine ⟨rfl, rfl, rfl, Or.inr ⟨v0, rfl, hb, rfl⟩, ?_⟩
          intro v hv hbv
          rw [Option.some.injEq] at hv
          subst hv
          exact Or.inl (List.mem_append_right _ (List.mem_singleton_self _))
        · rw [if_neg hlt]
          refine ⟨rfl, rfl, rfl, Or.inl rfl, ?_⟩
          intro v hv hbv
          rw [Option.some.injEq] at hv
          subst hv
          exact Or.inr ⟨kb, hkb, by omega⟩
      | none =>
        simp only [hkb]
        refine ⟨trivial, trivial, trivial, Or.inr ⟨v0, rfl, hb, rfl⟩, ?_⟩
        intro v hv hbv
        rw [Option.some.injEq] at hv
        subst hv
        exact Or.inl (List.mem_append_right _ (List.mem_singleton_self _))
    · rw [if_neg hb]
      refine ⟨rfl, rfl, rfl, Or.inl rfl, ?_⟩
      intro v hv hbv
      rw [Option.some.injEq] at hv
      subst hv
      exact absurd hbv hb

theorem explodeFold_spec (tiles : List Tile) (b : Tile) (d : Nat) :
    ∀ (posList : List Pos) (st : PropState),
    (posList.foldl (explodePosStep tiles b d) st).known = st.known ∧
    (posList.foldl (explodePosStep tiles b d) st).events = st.events ∧
    (posList.foldl (explodePosStep tiles b d) st).pops = st.pops ∧
    (∃ pushed : List (Tile × Nat),
      (posList.foldl (explodePosStep tiles b d) st).queue =
        st.queue ++ pushed ∧
      ∀ e ∈ pushed, ∃ pos ∈ posList,
        getTileAt tiles pos.row pos.col = some e.1 ∧
        isBomb e.1.type = true ∧ e.2 = d + getBombHitDelayMs b pos) ∧
    (∀ pos ∈ posList, ∀ v, getTileAt tiles pos.row pos.col = some v →
      isBomb v.type = true →
      (v, d + getBombHitDelayMs b pos) ∈
        (posList.foldl (explodePosStep tiles b d) st).queue ∨
      ∃ kb, lookupNat st.known v.id = some kb ∧
        kb ≤ d + getBombHitDelayMs b pos) := by
  intro posList
  induction posList with
  | nil =>
    intro st
    refine ⟨rfl, rfl, rfl, ⟨[], (List.append_nil _).symm, ?_⟩, ?_⟩
    · intro e he
      exact absurd he (List.not_mem_nil e)
    · intro pos hpos
      exact absurd hpos (List.not_mem_nil pos)
  | cons pos ps ih =>
    intro st
    rw [List.foldl_cons]
    obtain ⟨hk, he, hp, ⟨pushed, hq, hpg⟩, hdom⟩ :=
      ih (explodePosStep tiles b d st pos)
    obtain ⟨hk1, he1, hp1, hq1, hdom1⟩ := explodePosStep_spec tiles b d st pos
    refine ⟨hk.trans hk1, he.trans he1, hp.trans hp1, ?_, ?_⟩
    · rcases hq1 with h1 | ⟨v, hT, hbv, h1⟩
      · refine ⟨pushed, by rw [hq, h1], ?_⟩
        intro e hepush
        obtain ⟨p2, hp2, hrest⟩ := hpg e hepush
        exact ⟨p2, List.mem_cons_of_mem _ hp2, hrest⟩
      · refine ⟨(v, d + getBombHitDelayMs b pos) :: pushed, ?_, ?_⟩
        · rw [hq, h1, List.append_assoc]
          rfl
        · intro e hepush
          rcases List.mem_cons.mp hepush with h2 | h2
          · subst h2
            exact ⟨pos, List.mem_cons_self _ _, hT, hbv, rfl⟩
          · obtain ⟨p2, hp2, hrest⟩ := hpg e h2
            exact ⟨p2, List.mem_cons_of_mem _ hp2, hrest⟩
    · intro p2 hp2 v hTv hbv
      rcases List.mem_cons.mp hp2 with h2 | h2
      · subst h2
        rcases hdom1 v hTv hbv with h3 | h3
        · left
          obtain ⟨pushed2, hq2, _⟩ :=
            (ih (explodePosStep tiles b d st p2)).2.2.2.1
          rw [hq2]
          exact List.mem_append_left _ h3
        · exact Or.inr h3
      · rcases hdom p2 h2 v hTv hbv with h3 | h3
        · exact Or.inl h3
        · rw [hk1] at h3
          exact Or.inr h3

/-- The entry point: run the loop on the seed queue with fresh maps,
as collectBombPropagation does on `[...initialBombs]`. -/
def runPropagation (tiles : List Tile) (rows cols fuel : Nat)
    (seeds : List (Tile × Nat)) : PropState :=
  collectBombPropagation tiles rows cols fuel
    { queue := seeds, known := [], events := [], posDelays := [],
      pops := [] }

/-- Bomb id k is dominated at delay dd: some event or queue entry of
that id carries a delay at most dd. -/
def DOM (st : PropState) (k : Nat) (dd : Nat) : Prop :=
  (∃ e ∈ st.events, e.1.id = k ∧ e.2 ≤ dd) ∨
  (∃ e ∈ st.queue, e.1.id = k ∧ e.2 ≤ dd)

/-- The Dijkstra-style loop invariant of collectBombPropagation. -/
structure PropInv (tiles : List Tile) (rows cols : Nat)
    (seeds : List (Tile × Nat)) (st : PropState) : Prop where
  lb : ∀ ev ∈ st.events, ∀ q ∈ st.queue, ev.2 ≤ q.2
  popsLb : ∀ p ∈ st.pops, ∀ q ∈ st.queue, p.2 ≤ q.2
  popsSorted : st.pops.Pairwise (fun a c => a.2 ≤ c.2)
  eventsSorted : st.events.Pairwise (fun a c => a.2 ≤ c.2)
  knownEvent : ∀ k dd, lookupNat st.known k = some dd ↔
    ∃ e ∈ st.events, e.1.id = k ∧ e.2 = dd
  idsNodup : (st.events.map (fun e => e.1.id)).Nodup
  reachE : ∀ e ∈ st.events, Reach tiles rows cols seeds e.1 e.2
  reachQ : ∀ e ∈ st.queue, Reach tiles rows cols seeds e.1 e.2
  domSeeds : ∀ s ∈ seeds, DOM st s.1.id s.2
  domEdges : ∀ e ∈ st.events, ∀ v w,
    (v, w) ∈ bombTargets tiles rows cols e.1 → DOM st v.id (e.2 + w)
  eventTiles : ∀ e ∈ st.events, e.1 ∈ seeds.map Prod.fst ∨ e.1 ∈ tiles
  queueTiles : ∀ e ∈ st.queue, e.1 ∈ seeds.map Prod.fst ∨ e.1 ∈ tiles

theorem propInv_skip (tiles : List Tile) (rows cols : Nat)
    (seeds : List (Tile × Nat)) (st : PropState) (b : Tile) (d : Nat)
    (rest : List (Tile × Nat)) (kd : Nat)
    (inv : PropInv tiles rows cols seeds st)
    (hpop : popMin st.queue = some ((b, d), rest))
    (hkd : lookupNat st.known b.id = some kd) (hle : kd ≤ d) :
    PropInv tiles rows cols seeds
      { st with queue := rest, pops := st.pops ++ [(b, d)] } := by
  obtain ⟨hmem, hmin, hsub, hcover⟩ := popMin_spec st.queue (b, d) rest hpop
  have htransS : ∀ k dd, DOM st k dd →
      DOM { st with queue := rest, pops := st.pops ++ [(b, d)] } k dd := by
    intro k dd hD0
    have hD : (∃ e ∈ st.events, e.1.id = k ∧ e.2 ≤ dd) ∨
        (∃ e ∈ st.queue, e.1.id = k ∧ e.2 ≤ dd) := hD0
    rcases hD with ⟨e, he, hid, hle2⟩ | ⟨e, he, hid, hle2⟩
    · exact Or.inl ⟨e, he, hid, hle2⟩
    · rcases hcover e he with h2 | h2
      · exact Or.inr ⟨e, h2, hid, hle2⟩
      · obtain ⟨e0, he0, hid0, hdd0⟩ := (inv.knownEvent b.id kd).mp hkd
        subst h2
        refine Or.inl ⟨e0, he0, ?_, ?_⟩
        · rw [hid0]
          exact hid
        · have h4 : d ≤ dd := hle2
          omega
  refine ⟨?_, ?_, ?_, ?_, ?_, ?_, ?_, ?_, ?_, ?_, ?_, ?_⟩
  · intro ev hev q hq
    exact inv.lb ev hev q (hsub q hq)
  · intro p hp q hq
    have hp2 : p ∈ st.pops ++ [(b, d)] := hp
    have hq2 : q ∈ rest := hq
    rcases List.mem_append.mp hp2 with h1 | h1
    · exact inv.popsLb p h1 q (hsub q hq2)
    · have h2 : p = (b, d) := List.mem_singleton.mp h1
      subst h2
      exact hmin q (hsub q hq2)
  · show (st.pops ++ [(b, d)]).Pairwise (fun a c => a.2 ≤ c.2)
    apply List.pairwise_append.mpr
    refine ⟨inv.popsSorted, by simp, ?_⟩
    intro p hp x hx
    rw [List.mem_singleton.mp hx]
    exact inv.popsLb p hp (b, d) hmem
  · exact inv.eventsSorted
  · exact inv.knownEvent
  · exact inv.idsNodup
  · exact inv.reachE
  · intro e he
    exact inv.reachQ e (hsub e he)
  · intro s hs
    exact htransS s.1.id s.2 (inv.domSeeds s hs)
  · intro e he v w hvw
    exact htransS v.id (e.2 + w) (inv.domEdges e he v w hvw)
  · exact inv.eventTiles
  · intro e he
    exact inv.queueTiles e (hsub e he)

theorem propInv_process (tiles : List Tile) (rows cols : Nat)
    (seeds : List (Tile × Nat)) (st : PropState) (b : Tile) (d : Nat)
    (rest : List (Tile × Nat))
    (inv : PropInv tiles rows cols seeds st)
    (hpop : popMin st.queue = some ((b, d), rest))
    (hkd : lookupNat st.known b.id = none) :
    PropInv tiles rows cols seeds
      (explodeStep tiles rows cols b d
        { queue := rest, known := setNat st.known b.id d,
          events := st.events ++ [(b, d)],
          posDelays := st.posDelays, pops := st.pops ++ [(b, d)] }) := by
  simp only [explodeStep]
  obtain ⟨hmem, hmin, hsub, hcover⟩ := popMin_spec st.queue (b, d) rest hpop
  obtain ⟨hK, hE, hP, ⟨pushed, hQ, hpg⟩, hDomF⟩ :=
    explodeFold_spec tiles b d (getBombExplosionPositions b rows cols)
      { queue := rest, known := setNat st.known b.id d,
        events := st.events ++ [(b, d)],
        posDelays := st.posDelays, pops := st.pops ++ [(b, d)] }
  have hK2 : _ = setNat st.known b.id d := hK
  have hE2 : _ = st.events ++ [(b, d)] := hE
  have hP2 : _ = st.pops ++ [(b, d)] := hP
  have hQ2 : _ = rest ++ pushed := hQ
  have htrans : ∀ k dd, DOM st k dd →
      (∃ e ∈ st.events ++ [(b, d)], e.1.id = k ∧ e.2 ≤ dd) ∨
      (∃ e ∈ rest ++ pushed, e.1.id = k ∧ e.2 ≤ dd) := by
    intro k dd hD0
    have hD : (∃ e ∈ st.events, e.1.id = k ∧ e.2 ≤ dd) ∨
        (∃ e ∈ st.queue, e.1.id = k ∧ e.2 ≤ dd) := hD0
    rcases hD with ⟨e, he, hid, hle2⟩ | ⟨e, he, hid, hle2⟩
    · exact Or.inl ⟨e, List.mem_append_left _ he, hid, hle2⟩
    · rcases hcover e he with h2 | h2
      · exact Or.inr ⟨e, List.mem_append_left _ h2, hid, hle2⟩
      · subst h2
        exact Or.inl ⟨(b, d),
          List.mem_append_right _ (List.mem_singleton_self _), hid, hle2⟩
  refine ⟨?_, ?_, ?_, ?_, ?_, ?_, ?_, ?_, ?_, ?_, ?_, ?_⟩
  · -- lb
    rw [hE2, hQ2]
    intro ev hev q hq
    rcases List.mem_append.mp hev with hev | hev
    · rcases List.mem_append.mp hq with hq | hq
      · exact inv.lb ev hev q (hsub q hq)
      · obtain ⟨pos, _, _, _, hq2⟩ := hpg q hq
        have h1 : ev.2 ≤ d := inv.lb ev hev (b, d) hmem
        omega
    · have hev2 : ev = (b, d) := List.mem_singleton.mp hev
      subst hev2
      rcases List.mem_append.mp hq with hq | hq
      · exact hmin q (hsub q hq)
      · obtain ⟨pos, _, _, _, hq2⟩ := hpg q hq
        show d ≤ q.2
        omega
  · -- popsLb
    rw [hP2, hQ2]
    intro p hp q hq
    rcases List.mem_append.mp hp with hp | hp
    · rcases List.mem_append.mp hq with hq | hq
      · exact inv.popsLb p hp q (hsub q hq)
      · obtain ⟨pos, _, _, _, hq2⟩ := hpg q hq
        have h1 : p.2 ≤ d := inv.popsLb p hp (b, d) hmem
        omega
    · have hp3 : p = (b, d) := List.mem_singleton.mp hp
      subst hp3
      rcases List.mem_append.mp hq with hq | hq
      · exact hmin q (hsub q hq)
      · obtain ⟨pos, _, _, _, hq2⟩ := hpg q hq
        show d ≤ q.2
        omega
  · -- popsSorted
    rw [hP2]
    apply List.pairwise_append.mpr
    refine ⟨inv.popsSorted, by simp, ?_⟩
    intro p hp x hx
    rw [List.mem_singleton.mp hx]
    exact inv.popsLb p hp (b, d) hmem
  · -- eventsSorted
    rw [hE2]
    apply List.pairwise_append.mpr
    refine ⟨inv.eventsSorted, by simp, ?_⟩
    intro ev hev x hx
    rw [List.mem_singleton.mp hx]
    exact inv.lb ev hev (b, d) hmem
  · -- knownEvent
    rw [hK2, hE2]
    intro k dd
    rw [lookupNat_setNat]
    constructor
    · intro h
      by_cases hk : k = b.id
      · subst hk
        rw [if_pos rfl] at h
        have hdd : d = dd := by
          injection h
        refine ⟨(b, d),
          List.mem_append_right _ (List.mem_singleton_self _), rfl, hdd⟩
      · rw [if_neg hk] at h
        obtain ⟨e, he, hid, hdd⟩ := (inv.knownEvent k dd).mp h
        exact ⟨e, List.mem_append_left _ he, hid, hdd⟩
    · rintro ⟨e, he, hid, hdd⟩
      rcases List.mem_append.mp he with he | he
      · have hne : ¬ k = b.id := by
          intro hkb
          have h2 : lookupNat st.known k = some e.2 :=
            (inv.knownEvent k e.2).mpr ⟨e, he, hid, rfl⟩
          rw [hkb, hkd] at h2
          exact absurd h2 (by simp)
        rw [if_neg hne]
        exact (inv.knownEvent k dd).mpr ⟨e, he, hid, hdd⟩
      · have he2 : e = (b, d) := List.mem_singleton.mp he
        subst he2
        rw [if_pos hid.symm]
        have hdd2 : d = dd := hdd
        rw [hdd2]
  · -- idsNodup
    rw [hE2, List.map_append]
    refine List.Nodup.append inv.idsNodup (by simp) ?_
    intro a ha hb2
    obtain ⟨e, he, hee⟩ := List.mem_map.mp ha
    have hb3 : a = b.id := by
      rcases List.mem_map.mp hb2 with ⟨x, hx, hxx⟩
      rw [List.mem_singleton.mp hx] at hxx
      exact hxx.symm
    have h2 : lookupNat st.known a = some e.2 :=
      (inv.knownEvent a e.2).mpr ⟨e, he, hee, rfl⟩
    rw [hb3, hkd] at h2
    exact absurd h2 (by simp)
  · -- reachE
    rw [hE2]
    intro e he
    rcases List.mem_append.mp he with he | he
    · exact inv.reachE e he
    · rw [List.mem_singleton.mp he]
      exact inv.reachQ (b, d) hmem
  · -- reachQ
    rw [hQ2]
    intro e he
    rcases List.mem_append.mp he with he | he
    · exact inv.reachQ e (hsub e he)
    · obtain ⟨pos, hpos, hT, hb2, he2⟩ := hpg e he
      have hbt : (e.1, getBombHitDelayMs b pos) ∈
          bombTargets tiles rows cols b :=
        mem_bombTargets.mpr ⟨pos, hpos, hT, hb2, rfl⟩
      have hr := Reach.step (inv.reachQ (b, d) hmem) hbt
      rw [he2]
      exact hr
  · -- domSeeds
    intro s hs
    simp only [DOM]
    rw [hE2, hQ2]
    exact htrans s.1.id s.2 (inv.domSeeds s hs)
  · -- domEdges
    rw [hE2]
    intro e he v w hvw
    simp only [DOM]
    rw [hE2, hQ2]
    rcases List.mem_append.mp he with he | he
    · exact htrans v.id (e.2 + w) (inv.domEdges e he v w hvw)
    · have he3 : e = (b, d) := List.mem_singleton.mp he
      subst he3
      obtain ⟨pos, hpos, hT, hbv, hw⟩ := mem_bombTargets.mp hvw
      have hw2 : w = getBombHitDelayMs b pos := hw
      rcases hDomF pos hpos v hT hbv with hmemq | ⟨kb, hkb, hkble⟩
      · right
        refine ⟨(v, d + getBombHitDelayMs b pos), ?_, rfl, ?_⟩
        · rw [← hQ2]
          exact hmemq
        · show d + getBombHitDelayMs b pos ≤ d + w
          omega
      · have hkb2 : lookupNat (setNat st.known b.id d) v.id = some kb := hkb
        rw [lookupNat_setNat] at hkb2
        have hkble2 : kb ≤ d + getBombHitDelayMs b pos := hkble
        by_cases hvb : v.id = b.id
        · left
          refine ⟨(b, d),
            List.mem_append_right _ (List.mem_singleton_self _),
            hvb.symm, ?_⟩
          show d ≤ d + w
          exact Nat.le_add_right d w
        · rw [if_neg hvb] at hkb2
          obtain ⟨e0, he0, hid0, hdd0⟩ := (inv.knownEvent v.id kb).mp hkb2
          left
          refine ⟨e0, List.mem_append_left _ he0, hid0, ?_⟩
          show e0.2 ≤ d + w
          omega
  · -- eventTiles
    rw [hE2]
    intro e he
    rcases List.mem_append.mp he with he | he
    · exact inv.eventTiles e he
    · rw [List.mem_singleton.mp he]
      exact inv.queueTiles (b, d) hmem
  · -- queueTiles
    rw [hQ2]
    intro e he
    rcases List.mem_append.mp he with he | he
    · exact inv.queueTiles e (hsub e he)
    · obtain ⟨pos, hpos, hT, _, _⟩ := hpg e he
      exact Or.inr (getTileAt_spec hT).1

theorem collect_inv (tiles : List Tile) (rows cols : Nat)
    (seeds : List (Tile × Nat)) :
    ∀ (fuel : Nat) (st : PropState),
    PropInv tiles rows cols seeds st →
    PropInv tiles rows cols seeds
      (collectBombPropagation tiles rows cols fuel st) := by
  intro fuel
  induction fuel with
  | zero =>
    intro st inv
    exact inv
  | succ fuel ih =>
    intro st inv
    cases hpop : popMin st.queue with
    | none =>
      simp only [collectBombPropagation, hpop]
      exact inv
    | some pr =>
      obtain ⟨⟨b, d⟩, rest⟩ := pr
      cases hkd : lookupNat st.known b.id with
      | some kd =>
        by_cases hle : kd ≤ d
        · simp only [collectBombPropagation, hpop, hkd]
          rw [if_pos hle]
          exact ih _
            (propInv_skip tiles rows cols seeds st b d rest kd inv
              hpop hkd hle)
        · exfalso
          obtain ⟨e0, he0, hid0, hdd0⟩ := (inv.knownEvent b.id kd).mp hkd
          have h1 : e0.2 ≤ d :=
            inv.lb e0 he0 (b, d) (popMin_spec st.queue (b, d) rest hpop).1
          omega
      | none =>
        simp only [collectBombPropagation, hpop, hkd]
        exact ih _
          (propInv_process tiles rows cols seeds st b d rest inv hpop hkd)

theorem reach_min (tiles : List Tile) (rows cols : Nat)
    (seeds : List (Tile × Nat)) (st : PropState)
    (inv : PropInv tiles rows cols seeds st)
    (hq : st.queue = [])
    (huniq : ∀ a ∈ seeds.map Prod.fst ++ tiles,
      ∀ a' ∈ seeds.map Prod.fst ++ tiles, a.id = a'.id → a = a') :
    ∀ v d', Reach tiles rows cols seeds v d' →
      ∃ e ∈ st.events, e.1.id = v.id ∧ e.2 ≤ d' := by
  intro v d' h
  induction h with
  | @seed b0 d0 hs =>
    have hD : (∃ e ∈ st.events, e.1.id = b0.id ∧ e.2 ≤ d0) ∨
        (∃ e ∈ st.queue, e.1.id = b0.id ∧ e.2 ≤ d0) :=
      inv.domSeeds (b0, d0) hs
    rcases hD with ⟨e, he, hid, hle⟩ | ⟨e, he, hid, hle⟩
    · exact ⟨e, he, hid, hle⟩
    · rw [hq] at he
      exact absurd he (List.not_mem_nil e)
  | @step u du v w hu hv ihu =>
    obtain ⟨e, he, hid, hle⟩ := ihu
    have h1 : e.1 ∈ seeds.map Prod.fst ++ tiles := by
      rcases inv.eventTiles e he with h2 | h2
      · exact List.mem_append_left _ h2
      · exact List.mem_append_right _ h2
    have h2 : u ∈ seeds.map Prod.fst ++ tiles := by
      rcases reach_tile_mem hu with h3 | h3
      · exact List.mem_append_left _ h3
      · exact List.mem_append_right _ h3
    have heu : e.1 = u := huniq e.1 h1 u h2 hid
    have hvw : (v, w) ∈ bombTargets tiles rows cols e.1 := by
      rw [heu]
      exact hv
    have hD : (∃ e2 ∈ st.events, e2.1.id = v.id ∧ e2.2 ≤ e.2 + w) ∨
        (∃ e2 ∈ st.queue, e2.1.id = v.id ∧ e2.2 ≤ e.2 + w) :=
      inv.domEdges e he v w hvw
    rcases hD with ⟨e2, he2, hid2, hle2⟩ | ⟨e2, he2, hid2, hle2⟩
    · refine ⟨e2, he2, hid2, ?_⟩
      omega
    · rw [hq] at he2
      exact absurd he2 (List.not_mem_nil e2)

theorem explodePosStep_enqueue_iff (tiles : List Tile) (bb : Tile)
    (dd : Nat) (acc : PropState) (pos : Pos) (v : Tile)
    (hT : getTileAt tiles pos.row pos.col = some v)
    (hb : isBomb v.type = true) :
    ((explodePosStep tiles bb dd acc pos).queue =
        acc.queue ++ [(v, dd + getBombHitDelayMs bb pos)] ↔
      (lookupNat acc.known v.id = none ∨
       ∃ kb, lookupNat acc.known v.id = some kb ∧
         dd + getBombHitDelayMs bb pos < kb)) := by
  simp only [explodePosStep, hT]
  rw [if_pos hb]
  cases hkb : lookupNat acc.known v.id with
  | none => simp [hkb]
  | some kb =>
    simp only [hkb]
    by_cases hlt : dd + getBombHitDelayMs bb pos < kb
    · rw [if_pos hlt]
      constructor
      · intro _
        exact Or.inr ⟨kb, rfl, hlt⟩
      · intro _
        rfl
    · rw [if_neg hlt]
      constructor
      · intro h
        exfalso
        have h2 : acc.queue =
            acc.queue ++ [(v, dd + getBombHitDelayMs bb pos)] := h
        have h3 : acc.queue.length = acc.queue.length + 1 := by
          conv_lhs => rw [h2]
          simp
        omega
      · rintro (h | ⟨kb2, hkb2, hlt2⟩)
        · exact absurd h (by simp)
        · exfalso
          have h4 : kb = kb2 := by
            injection hkb2
          omega

/-- C3: bombs are dequeued in non-decreasing delay order, each bomb is
activated at most once and at the minimal delay reachable from the seed
bombs (assuming ids identify tiles among seeds and the board), and a
bomb found in an explosion's affected cells is enqueued with delay
trigger + travel offset exactly when that delay strictly improves on
its recorded delay. -/
theorem collectBombPropagation_spec (tiles : List Tile)
    (rows cols fuel : Nat) (seeds : List (Tile × Nat))
    (huniq : ∀ a ∈ seeds.map Prod.fst ++ tiles,
      ∀ a' ∈ seeds.map Prod.fst ++ tiles, a.id = a'.id → a = a') :
    (runPropagation tiles rows cols fuel seeds).pops.Pairwise
      (fun a c => a.2 ≤ c.2) ∧
    (runPropagation tiles rows cols fuel seeds).events.Pairwise
      (fun a c => a.2 ≤ c.2) ∧
    ((runPropagation tiles rows cols fuel seeds).events.map
      (fun e => e.1.id)).Nodup ∧
    (∀ e ∈ (runPropagation tiles rows cols fuel seeds).events,
      Reach tiles rows cols seeds e.1 e.2) ∧
    ((runPropagation tiles rows cols fuel seeds).queue = [] →
      ∀ v d', Reach tiles rows cols seeds v d' →
        ∃ e ∈ (runPropagation tiles rows cols fuel seeds).events,
          e.1.id = v.id ∧ e.2 ≤ d') ∧
    (∀ (acc : PropState) (bb : Tile) (dd : Nat) (pos : Pos) (v : Tile),
      getTileAt tiles pos.row pos.col = some v →
      isBomb v.type = true →
      ((explodePosStep tiles bb dd acc pos).queue =
          acc.queue ++ [(v, dd + getBombHitDelayMs bb pos)] ↔
        (lookupNat acc.known v.id = none ∨
         ∃ kb, lookupNat acc.known v.id = some kb ∧
           dd + getBombHitDelayMs bb pos < kb))) := by
  have hinit : PropInv tiles rows cols seeds
      { queue := seeds, known := [], events := [], posDelays := [],
        pops := [] } := by
    refine ⟨?_, ?_, ?_, ?_, ?_, ?_, ?_, ?_, ?_, ?_, ?_, ?_⟩
    · intro ev hev q hq
      exact absurd hev (List.not_mem_nil ev)
    · intro p hp q hq
      exact absurd hp (List.not_mem_nil p)
    · exact List.Pairwise.nil
    · exact List.Pairwise.nil
    · intro k dd
      constructor
      · intro h
        exact absurd h (by simp [lookupNat])
      · rintro ⟨e, he, _, _⟩
        exact absurd he (List.not_mem_nil e)
    · exact List.nodup_nil
    · intro e he
      exact absurd he (List.not_mem_nil e)
    · intro e he
      exact Reach.seed he
    · intro s hs
      exact Or.inr ⟨s, hs, rfl, le_refl _⟩
    · intro e he
      exact absurd he (List.not_mem_nil e)
    · intro e he
      exact absurd he (List.not_mem_nil e)
    · intro e he
      exact Or.inl (List.mem_map_of_mem Prod.fst he)
  have hinv := collect_inv tiles rows cols seeds fuel _ hinit
  refine ⟨hinv.popsSorted, hinv.eventsSorted, hinv.idsNodup,
    hinv.reachE, ?_, ?_⟩
  · intro hq v d' hr
    exact reach_min tiles rows cols seeds _ hinv hq huniq v d' hr
  · intro acc bb dd pos v hT hb
    exact explodePosStep_enqueue_iff tiles bb dd acc pos v hT hb

def c3Bomb1 : Tile := { id := 1, type := 101, row := 0, col := 0 }

def c3Bomb2 : Tile := { id := 2, type := 101, row := 0, col := 2 }

def c3Tiles : List Tile := [c3Bomb1, c3Bomb2]

/-- Witness for C3 on a two-bomb horizontal chain: the seed bomb at
column 0 triggers the bomb at column 2 with a 140 ms travel delay. -/
theorem collectBombPropagation_spec_witness :
    (∀ a ∈ ([((c3Bomb1 : Tile), (0 : Nat))].map Prod.fst ++ c3Tiles),
      ∀ a' ∈ ([((c3Bomb1 : Tile), (0 : Nat))].map Prod.fst ++ c3Tiles),
      a.id = a'.id → a = a') ∧
    ((runPropagation c3Tiles 1 3 4 [(c3Bomb1, 0)]).pops.Pairwise
      (fun a c => a.2 ≤ c.2) ∧
    (runPropagation c3Tiles 1 3 4 [(c3Bomb1, 0)]).events.Pairwise
      (fun a c => a.2 ≤ c.2) ∧
    ((runPropagation c3Tiles 1 3 4 [(c3Bomb1, 0)]).events.map
      (fun e => e.1.id)).Nodup ∧
    (∀ e ∈ (runPropagation c3Tiles 1 3 4 [(c3Bomb1, 0)]).events,
      Reach c3Tiles 1 3 [(c3Bomb1, 0)] e.1 e.2) ∧
    ((runPropagation c3Tiles 1 3 4 [(c3Bomb1, 0)]).queue = [] →
      ∀ v d', Reach c3Tiles 1 3 [(c3Bomb1, 0)] v d' →
        ∃ e ∈ (runPropagation c3Tiles 1 3 4 [(c3Bomb1, 0)]).events,
          e.1.id = v.id ∧ e.2 ≤ d') ∧
    (∀ (acc : PropState) (bb : Tile) (dd : Nat) (pos : Pos) (v : Tile),
      getTileAt c3Tiles pos.row pos.col = some v →
      isBomb v.type = true →
      ((explodePosStep c3Tiles bb dd acc pos).queue =
          acc.queue ++ [(v, dd + getBombHitDelayMs bb pos)] ↔
        (lookupNat acc.known v.id = none ∨
         ∃ kb, lookupNat acc.known v.id = some kb ∧
           dd + getBombHitDelayMs bb pos < kb)))) :=
  ⟨by decide,
    collectBombPropagation_spec c3Tiles 1 3 4 [(c3Bomb1, 0)] (by decide)⟩

/-! ## C8: move accounting of handleSwap and handleTileClick
(src/hooks/use-game-state.ts, lines 1500-1565 and 1101-1168) -/

/-- The id-keyed position update used by handleSwap's swap and
restore passes: the tile with id1 goes to d1, the tile with id2 to
d2. -/
def swapMap (tiles : List Tile) (id1 id2 : Nat) (d1 d2 : Pos) :
    List Tile :=
  tiles.map (fun t =>
    if t.id = id1 then { t with row := d1.row, col := d1.col }
    else if t.id = id2 then { t with row := d2.row, col := d2.col }
    else t)

/-- The position-keyed trial swap of isValidSwap. -/
def testSwapTiles (tiles : List Tile) (p1 p2 : Pos) : List Tile :=
  tiles.map (fun t =>
    if t.row = p1.row ∧ t.col = p1.col then
      { t with row := p2.row, col := p2.col }
    else if t.row = p2.row ∧ t.col = p2.col then
      { t with row := p1.row, col := p1.col }
    else t)

/-- `isValidSwap` (src/unnamed/part_002, lines 117-133): the swap is
valid when the trial-swapped board has at least one match. -/
def isValidSwap (tiles : List Tile) (rows cols : Nat) (p1 p2 : Pos) :
    Bool :=
  decide (0 < (findMatches (testSwapTiles tiles p1 p2) rows cols).length)

/-- Result of a swap attempt: the final tile list, the move counter,
and whether the swap was accepted. -/
structure SwapResult where
  tiles : List Tile
  movesUsed : Nat
  accepted : Bool

/-- `handleSwap`: guards reject silently; wooden and stone tiles
cannot be swapped; a swap with no bomb and no resulting match is
animated there and back (net: swap by id, then restore by id) without
counting a move; otherwise the move counter is incremented once and
the swapped board is handed to the subsequent match/bomb processing,
abstracted as `cascade` since it never touches the move counter. -/
def handleSwap (tiles : List Tile) (rows cols : Nat) (movesUsed : Nat)
    (pFrom pTo : Pos) (isAnimating isComplete isFailed : Bool)
    (cascade : List Tile → List Tile) : SwapResult :=
  if isAnimating || isComplete || isFailed then
    ⟨tiles, movesUsed, false⟩
  else
    match getTileAt tiles pFrom.row pFrom.col,
        getTileAt tiles pTo.row pTo.col with
    | some tile1, some tile2 =>
      if isWoodenTile tile1.type || isWoodenTile tile2.type ||
          isStoneTile tile1.type || isStoneTile tile2.type then
        ⟨tiles, movesUsed, false⟩
      else
        let hasBomb := isBomb tile1.type || isBomb tile2.type
        if !hasBomb && !(isValidSwap tiles rows cols pFrom pTo) then
          ⟨swapMap (swapMap tiles tile1.id tile2.id pTo pFrom)
            tile1.id tile2.id pFrom pTo, movesUsed, false⟩
        else
          ⟨cascade (swapMap tiles tile1.id tile2.id pTo pFrom),
            movesUsed + 1, true⟩
    | _, _ => ⟨tiles, movesUsed, false⟩

/-- Result of a tile click: the move counter, the new selection, a
requested swap (delegated to handleSwap), and a directly triggered
bomb. -/
structure ClickResult where
  movesUsed : Nat
  selected : Option Pos
  swapRequest : Option (Pos × Pos)
  triggered : Option Tile

/-- `handleTileClick`: guards reject; clicking wood or stone clears
the selection; clicking a bomb with no selection or with itself
selected counts a move and triggers it; clicking the selected tile
deselects; with another tile selected, an adjacent click requests a
swap and any other click moves the selection. -/
def handleTileClick (tiles : List Tile) (movesUsed : Nat)
    (selectedTile : Option Pos) (row col : Int)
    (isAnimating isComplete isFailed : Bool) : ClickResult :=
  if isAnimating || isComplete || isFailed then
    ⟨movesUsed, selectedTile, none, none⟩
  else
    let clickedPos : Pos := ⟨row, col⟩
    let rest : ClickResult :=
      match selectedTile with
      | some sel =>
        if sel.row = row ∧ sel.col = col then
          ⟨movesUsed, none, none, none⟩
        else if ((sel.row - row).natAbs = 1 ∧ sel.col = col) ∨
            ((sel.col - col).natAbs = 1 ∧ sel.row = row) then
          ⟨movesUsed, none, some (sel, clickedPos), none⟩
        else ⟨movesUsed, some clickedPos, none, none⟩
      | none => ⟨movesUsed, some clickedPos, none, none⟩
    match getTileAt tiles row col with
    | some clickedTile =>
      if isWoodenTile clickedTile.type || isStoneTile clickedTile.type then
        ⟨movesUsed, none, none, none⟩
      else if isBomb clickedTile.type then
        match selectedTile with
        | none => ⟨movesUsed + 1, none, none, some clickedTile⟩
        | some sel =>
          if sel.row = row ∧ sel.col = col then
            ⟨movesUsed + 1, none, none, some clickedTile⟩
          else rest
      else rest
    | none => rest

theorem bomb_not_obstacle (t : Int) (h : isBomb t = true) :
    isWoodenTile t = false ∧ isStoneTile t = false := by
  simp only [isBomb, Bool.and_eq_true, decide_eq_true_eq] at h
  simp only [isWoodenTile, isStoneTile, WOOD_NORMAL, WOOD_BROKEN,
    STONE_TILE, Bool.or_eq_false_iff, decide_eq_false_iff_not]
  refine ⟨⟨?_, ?_⟩, ?_⟩ <;> omega

theorem swapMap_restore (tiles : List Tile) (t1 t2 : Tile) (p1 p2 : Pos)
    (hids : (tiles.map Tile.id).Nodup)
    (ht1mem : t1 ∈ tiles) (ht1row : t1.row = p1.row)
    (ht1col : t1.col = p1.col)
    (ht2mem : t2 ∈ tiles) (ht2row : t2.row = p2.row)
    (ht2col : t2.col = p2.col) :
    swapMap (swapMap tiles t1.id t2.id p2 p1) t1.id t2.id p1 p2 =
      tiles := by
  unfold swapMap
  rw [List.map_map]
  have hcong : ∀ t ∈ tiles,
      ((fun t => if t.id = t1.id then
          { t with row := p1.row, col := p1.col }
        else if t.id = t2.id then
          { t with row := p2.row, col := p2.col }
        else t) ∘
       (fun t => if t.id = t1.id then
          { t with row := p2.row, col := p2.col }
        else if t.id = t2.id then
          { t with row := p1.row, col := p1.col }
        else t)) t = t := by
    intro t htm
    simp only [Function.comp]
    by_cases h1 : t.id = t1.id
    · rw [if_pos h1,
        if_pos (show ({ t with row := p2.row, col := p2.col } :
          Tile).id = t1.id from h1)]
      have ht : t = t1 := List.inj_on_of_nodup_map hids htm ht1mem h1
      subst ht
      rw [← ht1row, ← ht1col]
    · rw [if_neg h1]
      by_cases h2 : t.id = t2.id
      · rw [if_pos h2,
          if_neg (show ¬ ({ t with row := p1.row, col := p1.col } :
            Tile).id = t1.id from h1),
          if_pos (show ({ t with row := p1.row, col := p1.col } :
            Tile).id = t2.id from h2)]
        have ht : t = t2 := List.inj_on_of_nodup_map hids htm ht2mem h2
        subst ht
        rw [← ht2row, ← ht2col]
      · rw [if_neg h2, if_neg h1, if_neg h2]
  rw [List.map_congr_left hcong]
  simp

/-- C8: an accepted action — a swap with a bomb involved or one
producing a match, or a tap on a bomb with no other tile selected —
adds exactly 1 to movesUsed whatever tile processing follows, while a
bomb-free ordinary swap producing no match leaves movesUsed and every
tile (position and type) unchanged. -/
theorem move_accounting (tiles : List Tile) (rows cols movesUsed : Nat)
    (hids : (tiles.map Tile.id).Nodup) :
    (∀ (pFrom pTo : Pos) (cascade : List Tile → List Tile) (t1 t2 : Tile),
      getTileAt tiles pFrom.row pFrom.col = some t1 →
      getTileAt tiles pTo.row pTo.col = some t2 →
      isWoodenTile t1.type = false → isWoodenTile t2.type = false →
      isStoneTile t1.type = false → isStoneTile t2.type = false →
      ((isBomb t1.type || isBomb t2.type) = true ∨
        isValidSwap tiles rows cols pFrom pTo = true) →
      (handleSwap tiles rows cols movesUsed pFrom pTo false false false
          cascade).movesUsed = movesUsed + 1 ∧
      (handleSwap tiles rows cols movesUsed pFrom pTo false false false
          cascade).accepted = true) ∧
    (∀ (pFrom pTo : Pos) (cascade : List Tile → List Tile) (t1 t2 : Tile),
      getTileAt tiles pFrom.row pFrom.col = some t1 →
      getTileAt tiles pTo.row pTo.col = some t2 →
      isWoodenTile t1.type = false → isWoodenTile t2.type = false →
      isStoneTile t1.type = false → isStoneTile t2.type = false →
      isBomb t1.type = false → isBomb t2.type = false →
      isValidSwap tiles rows cols pFrom pTo = false →
      (handleSwap tiles rows cols movesUsed pFrom pTo false false false
          cascade).movesUsed = movesUsed ∧
      (handleSwap tiles rows cols movesUsed pFrom pTo false false false
          cascade).tiles = tiles ∧
      (handleSwap tiles rows cols movesUsed pFrom pTo false false false
          cascade).accepted = false) ∧
    (∀ (r c : Int) (bombT : Tile) (sel : Option Pos),
      getTileAt tiles r c = some bombT →
      isBomb bombT.type = true →
      (sel = none ∨ sel = some ⟨r, c⟩) →
      (handleTileClick tiles movesUsed sel r c false false
          false).movesUsed = movesUsed + 1 ∧
      (handleTileClick tiles movesUsed sel r c false false
          false).triggered = some bombT) := by
  refine ⟨?_, ?_, ?_⟩
  · intro pFrom pTo cascade t1 t2 hT1 hT2 hw1 hw2 hs1 hs2 hacc
    simp only [handleSwap, hT1, hT2]
    rw [if_neg (by simp), if_neg (by simp [hw1, hw2, hs1, hs2])]
    have hcond : (!(isBomb t1.type || isBomb t2.type) &&
        !(isValidSwap tiles rows cols pFrom pTo)) = false := by
      rcases hacc with h | h
      · rw [h]
        rfl
      · rw [h]
        simp
    rw [if_neg (by rw [hcond]; simp)]
    exact ⟨rfl, rfl⟩
  · intro pFrom pTo cascade t1 t2 hT1 hT2 hw1 hw2 hs1 hs2 hb1 hb2 hv
    simp only [handleSwap, hT1, hT2]
    rw [if_neg (by simp), if_neg (by simp [hw1, hw2, hs1, hs2])]
    rw [if_pos (by rw [hb1, hb2, hv]; rfl)]
    refine ⟨rfl, ?_, rfl⟩
    obtain ⟨ht1mem, ht1row, ht1col, _⟩ := getTileAt_spec hT1
    obtain ⟨ht2mem, ht2row, ht2col, _⟩ := getTileAt_spec hT2
    exact swapMap_restore tiles t1 t2 pFrom pTo hids
      ht1mem ht1row ht1col ht2mem ht2row ht2col
  · intro r c bombT sel hT hbomb hsel
    obtain ⟨hw, hs⟩ := bomb_not_obstacle bombT.type hbomb
    simp only [handleTileClick, hT]
    rw [if_neg (by simp), if_neg (by simp [hw, hs]), if_pos hbomb]
    rcases hsel with h | h
    · subst h
      exact ⟨rfl, rfl⟩
    · subst h
      refine ⟨?_, ?_⟩ <;> simp

def c8Tiles : List Tile :=
  [{ id := 1, type := 0, row := 0, col := 0 },
   { id := 2, type := 1, row := 0, col := 1 },
   { id := 3, type := 102, row := 1, col := 0 }]

/-- Witness for C8 on a 2x2 board holding two ordinary tiles and an
area bomb. -/
theorem move_accounting_witness :
    (c8Tiles.map Tile.id).Nodup ∧
    ((∀ (pFrom pTo : Pos) (cascade : List Tile → List Tile) (t1 t2 : Tile),
      getTileAt c8Tiles pFrom.row pFrom.col = some t1 →
      getTileAt c8Tiles pTo.row pTo.col = some t2 →
      isWoodenTile t1.type = false → isWoodenTile t2.type = false →
      isStoneTile t1.type = false → isStoneTile t2.type = false →
      ((isBomb t1.type || isBomb t2.type) = true ∨
        isValidSwap c8Tiles 2 2 pFrom pTo = true) →
      (handleSwap c8Tiles 2 2 7 pFrom pTo false false false
          cascade).movesUsed = 7 + 1 ∧
      (handleSwap c8Tiles 2 2 7 pFrom pTo false false false
          cascade).accepted = true) ∧
    (∀ (pFrom pTo : Pos) (cascade : List Tile → List Tile) (t1 t2 : Tile),
      getTileAt c8Tiles pFrom.row pFrom.col = some t1 →
      getTileAt c8Tiles pTo.row pTo.col = some t2 →
      isWoodenTile t1.type = false → isWoodenTile t2.type = false →
      isStoneTile t1.type = false → isStoneTile t2.type = false →
      isBomb t1.type = false → isBomb t2.type = false →
      isValidSwap c8Tiles 2 2 pFrom pTo = false →
      (handleSwap c8Tiles 2 2 7 pFrom pTo false false false
          cascade).movesUsed = 7 ∧
      (handleSwap c8Tiles 2 2 7 pFrom pTo false false false
          cascade).tiles = c8Tiles ∧
      (handleSwap c8Tiles 2 2 7 pFrom pTo false false false
          cascade).accepted = false) ∧
    (∀ (r c : Int) (bombT : Tile) (sel : Option Pos),
      getTileAt c8Tiles r c = some bombT →
      isBomb bombT.type = true →
      (sel = none ∨ sel = some ⟨r, c⟩) →
      (handleTileClick c8Tiles 7 sel r c false false
          false).movesUsed = 7 + 1 ∧
      (handleTileClick c8Tiles 7 sel r c false false
          false).triggered = some bombT)) :=
  ⟨by decide, move_accounting c8Tiles 2 2 7 (by decide)⟩

/-! ## C10: the complete placement check versus the simple one -/

/-- A grid is rectangular when every row has the width that
wouldCreateMatchComplete reads off the first row. -/
def Rectangular (grid : List (List Int)) : Prop :=
  ∀ r ∈ grid, r.length = (grid.headD []).length

theorem jsGet_bind_eq_some {grid : List (List Int)} {r c : Nat} {t : Int}
    (h : (jsGet grid r).bind (fun row => jsGet row c) = some t) :
    ∃ row, grid.get? r = some row ∧ row.get? c = some t := by
  rcases Option.bind_eq_some.mp h with ⟨row, h1, h2⟩
  exact ⟨row, h1, h2⟩

theorem getTileClamped_of_get {grid : List (List Int)} {r c : Nat} {t : Int}
    {row : List Int} (hrect : Rectangular grid)
    (h1 : grid.get? r = some row) (h2 : row.get? c = some t) :
    getTileClamped grid grid.length (grid.headD []).length r c = t := by
  have hrlt : r < grid.length := List.get?_eq_some.mp h1 |>.1
  have hmem : row ∈ grid := List.get?_mem h1
  have hclt : c < (grid.headD []).length := by
    have := List.get?_eq_some.mp h2 |>.1
    rwa [hrect row hmem] at this
  unfold getTileClamped
  rw [if_pos ⟨hrlt, hclt⟩]
  unfold jsGet
  rw [h1]
  have h2' : row[c]? = some t := by rwa [List.get?_eq_getElem?] at h2
  simp [h2']

/-- C10 (amended): on rectangular grids, for every position and every
tile type t ≥ 0, if the simple placement check fires then so does the
complete one. -/
theorem wouldCreateMatch_imp_complete (grid : List (List Int))
    (row col : Nat) (t : Int) (hrect : Rectangular grid) (ht : 0 ≤ t)
    (h : wouldCreateMatch grid row col t = true) :
    wouldCreateMatchComplete grid row col t = true := by
  have hne : t ≠ (-1) := by omega
  unfold wouldCreateMatch at h
  simp only [Bool.or_eq_true, Bool.and_eq_true, decide_eq_true_iff,
    beq_iff_eq] at h
  unfold wouldCreateMatchComplete
  simp only [Bool.or_eq_true, Bool.and_eq_true, decide_eq_true_iff,
    beq_iff_eq, Bool.not_eq_true']
  rcases h with ⟨⟨hc2, hl1⟩, hl2⟩ | ⟨⟨hr2, hu1⟩, hu2⟩
  · rcases jsGet_bind_eq_some hl1 with ⟨rw1, hg1, he1⟩
    rcases jsGet_bind_eq_some hl2 with ⟨rw2, hg2, he2⟩
    have e1 := getTileClamped_of_get hrect hg1 he1
    have e2 := getTileClamped_of_get hrect hg2 he2
    have hne1 : (getTileClamped grid grid.length (grid.headD []).length
        row (col - 1) == (-1 : Int)) = false := by
      rw [e1]; exact beq_eq_false_iff_ne.mpr hne
    exact Or.inl (Or.inl (Or.inl (Or.inl (Or.inl ⟨⟨⟨hc2, e1⟩, e2⟩, hne1⟩))))
  · rcases jsGet_bind_eq_some hu1 with ⟨rw1, hg1, he1⟩
    rcases jsGet_bind_eq_some hu2 with ⟨rw2, hg2, he2⟩
    have e1 := getTileClamped_of_get hrect hg1 he1
    have e2 := getTileClamped_of_get hrect hg2 he2
    have hne1 : (getTileClamped grid grid.length (grid.headD []).length
        (row - 1) col == (-1 : Int)) = false := by
      rw [e1]; exact beq_eq_false_iff_ne.mpr hne
    exact Or.inl (Or.inl (Or.inr ⟨⟨⟨hr2, e1⟩, e2⟩, hne1⟩))

/-- C10 witness: the amended implication applied at a concrete
rectangular grid (a 2x3 grid where placing type 5 at (0,2) closes a
horizontal run). -/
theorem wouldCreateMatch_imp_complete_witness :
    wouldCreateMatchComplete [[5, 5, 0], [1, 2, 3]] 0 2 5 = true :=
  wouldCreateMatch_imp_complete [[5, 5, 0], [1, 2, 3]] 0 2 5
    (by intro r hr; fin_cases hr <;> rfl) (by norm_num) (by rfl)

/-- C10 counterexample: on the ragged grid [[], [5,5,0]] — whose first
row is empty, so the complete check computes cols = 0 — the simple check
fires at (1,2) with type 5 while the complete check does not, refuting
the universally quantified claim. -/
theorem wouldCreateMatch_not_imp_complete :
    wouldCreateMatch [[], [5, 5, 0]] 1 2 5 = true ∧
      wouldCreateMatchComplete [[], [5, 5, 0]] 1 2 5 = false := by
  exact ⟨rfl, rfl⟩

end MatchThree
